import Mathlib

/-!
Verification development for the per-node top-K autocomplete engine
(source: word serch/autocomplete.cpp).

The engine keeps a central registry (dict / freqs / wordSeen / wordToIndex)
and a trie whose nodes carry a bounded list `topK` of registry indices,
kept sorted by the ranking comparator (frequency descending, text ascending).

Machine integers of the source (int, long long) are modelled as Int; the
values involved never overflow in the scenarios the claims quantify over.
`std::sort` is invoked by the source only with a comparator that is a strict
total order on the elements being sorted (indices of pairwise distinct
texts), so its result is the unique sorted permutation; we model it with an
insertion sort computing that same permutation.
-/

set_option maxHeartbeats 1000000

namespace Autocomplete

open List

/-- Trie node (struct TrieNode): children modelled as an association list
(the source uses unordered_map<char, TrieNode*>; only lookup by key is
observable), the terminal marker `wordIndex` (-1 meaning none, as in the
source) and the per-node cache `topK` of registry indices. -/
inductive TrieNode : Type where
  | mk (children : List (Char × TrieNode)) (wordIndex : Int) (topK : List Nat)
deriving Repr

def TrieNode.children : TrieNode → List (Char × TrieNode)
  | .mk cs _ _ => cs

def TrieNode.wordIndex : TrieNode → Int
  | .mk _ w _ => w

def TrieNode.topK : TrieNode → List Nat
  | .mk _ _ t => t

theorem TrieNode.children_mk (cs : List (Char × TrieNode)) (wi : Int) (tk : List Nat) :
    (TrieNode.mk cs wi tk).children = cs := rfl

theorem TrieNode.wordIndex_mk (cs : List (Char × TrieNode)) (wi : Int) (tk : List Nat) :
    (TrieNode.mk cs wi tk).wordIndex = wi := rfl

theorem TrieNode.topK_mk (cs : List (Char × TrieNode)) (wi : Int) (tk : List Nat) :
    (TrieNode.mk cs wi tk).topK = tk := rfl

/-- A freshly constructed node (`new TrieNode()`). -/
def TrieNode.empty : TrieNode := .mk [] (-1) []

/-- children.count(c) != 0 / children[c] lookup. -/
def findChild : List (Char × TrieNode) → Char → Option TrieNode
  | [], _ => none
  | (c', t) :: rest, c => if c' = c then some t else findChild rest c

/-- Store a child under key c (replace if present, append if absent). -/
def setChild : List (Char × TrieNode) → Char → TrieNode → List (Char × TrieNode)
  | [], c, t => [(c, t)]
  | (c', t') :: rest, c, t => if c' = c then (c, t) :: rest else (c', t') :: setChild rest c t

/-- std::string operator< : lexicographic, byte/character-wise ascending
(modelled on the character sequences; UTF-8 byte order and codepoint order
agree). -/
def charsLt : List Char → List Char → Bool
  | [], [] => false
  | [], _ :: _ => true
  | _ :: _, [] => false
  | a :: as, b :: bs => if a < b then true else if b < a then false else charsLt as bs

/-- RankHelper::higher: true iff a should come before b.  Frequencies are
read with a bounds check defaulting to 0 (as in the source); the text read
dict[a] is in-bounds in every reachable use, modelled with getD. -/
def higher (freqs : List Int) (dict : List String) (a b : Nat) : Bool :=
  if freqs.getD a 0 ≠ freqs.getD b 0 then decide (freqs.getD a 0 > freqs.getD b 0)
  else charsLt (dict.getD a "").data (dict.getD b "").data

/-- Insert x into a list sorted by the strict comparator lt (x goes before
the first element it beats). -/
def insSorted (lt : Nat → Nat → Bool) (x : Nat) : List Nat → List Nat
  | [] => [x]
  | y :: ys => if lt x y then x :: y :: ys else y :: insSorted lt x ys

/-- Sorting by a strict comparator; on the strict-total-order inputs the
source feeds to std::sort this computes the same (unique) result. -/
def sortBy (lt : Nat → Nat → Bool) : List Nat → List Nat
  | [] => []
  | x :: xs => insSorted lt x (sortBy lt xs)

/-- if ((int)v.size() > perNodeK) v.resize(perNodeK). -/
def trimCache (k : Int) (v : List Nat) : List Nat :=
  if (v.length : Int) > k then v.take k.toNat else v

/-- find + push_back of updateTopKForWord: append idx if absent. -/
def addIfAbsent (idx : Nat) (v : List Nat) : List Nat :=
  if idx ∈ v then v else v ++ [idx]

/-- The per-node cache maintenance of updateTopKForWord: add the index if
missing, re-sort by the ranking, trim to the capacity. -/
def cacheStep (f : List Int) (d : List String) (k : Int) (idx : Nat) (v : List Nat) : List Nat :=
  trimCache k (sortBy (higher f d) (addIfAbsent idx v))

/-- AutocompleteEngine::updateTopKForWord: walk the word path creating
nodes on demand, apply cacheStep at every node strictly below the entry
node, and set wordIndex at the final node. -/
def updateTopKForWord (f : List Int) (d : List String) (k : Int) (idx : Nat) :
    List Char → TrieNode → TrieNode
  | [], n => .mk n.children (idx : Int) n.topK
  | c :: cs, n =>
    let child0 := (findChild n.children c).getD TrieNode.empty
    let child1 := TrieNode.mk child0.children child0.wordIndex (cacheStep f d k idx child0.topK)
    TrieNode.mk (setChild n.children c (updateTopKForWord f d k idx cs child1)) n.wordIndex n.topK

/-- Pure read-path walk of getTopK / the count-guarded descent. -/
def walkNode : TrieNode → List Char → Option TrieNode
  | n, [] => some n
  | n, c :: cs =>
    match findChild n.children c with
    | none => none
    | some t => walkNode t cs

/-- The walk inside AutocompleteEngine::remove: descend (returning none on
a missing child, which aborts the caller early) and clear wordIndex at the
destination. -/
def clearTerminal : TrieNode → List Char → Option TrieNode
  | n, [] => some (.mk n.children (-1) n.topK)
  | n, c :: cs =>
    match findChild n.children c with
    | none => none
    | some t =>
      match clearTerminal t cs with
      | none => none
      | some t' => some (.mk (setChild n.children c t') n.wordIndex n.topK)

/-- AutocompleteEngine::removeIndexFromPath: erase idx from the cache of
every node strictly below the entry node along the word path. -/
def removeIdxPath (idx : Nat) : TrieNode → List Char → TrieNode
  | n, [] => n
  | n, c :: cs =>
    match findChild n.children c with
    | none => n
    | some t =>
      let t1 := TrieNode.mk t.children t.wordIndex (t.topK.erase idx)
      TrieNode.mk (setChild n.children c (removeIdxPath idx t1 cs)) n.wordIndex n.topK

/-- insertIntoTrie of the source, before its updateTopKForWord call:
create the path and set wordIndex at the end node. -/
def insertPath : TrieNode → List Char → Nat → TrieNode
  | n, [], idx => .mk n.children (idx : Int) n.topK
  | n, c :: cs, idx =>
    let child := (findChild n.children c).getD TrieNode.empty
    .mk (setChild n.children c (insertPath child cs idx)) n.wordIndex n.topK

/-- The engine state: trie root, configured per-node capacity, and the
registry (dict / freqs / wordSeen / wordToIndex). -/
structure Engine where
  root : TrieNode
  perNodeK : Int
  dict : List String
  freqs : List Int
  wordSeen : List Bool
  wordToIndex : List (String × Nat)
deriving Repr

/-- unordered_map<string,int>::find. -/
def assocFind : List (String × Nat) → String → Option Nat
  | [], _ => none
  | (w, i) :: rest, x => if w = x then some i else assocFind rest x

/-- AutocompleteEngine(perNodeK): fresh engine. -/
def mkEngine (k : Int) : Engine := ⟨TrieNode.empty, k, [], [], [], []⟩

/-- AutocompleteEngine::ensureWordIndex. -/
def ensureWordIndex (e : Engine) (word : String) : Nat × Engine :=
  match assocFind e.wordToIndex word with
  | some i => (i, e)
  | none =>
    let idx := e.dict.length
    (idx, { e with
      dict := e.dict ++ [word]
      freqs := e.freqs ++ [0]
      wordSeen := e.wordSeen ++ [false]
      wordToIndex := e.wordToIndex ++ [(word, idx)] })

/-- AutocompleteEngine::insert (the autosave append is file I/O only and
does not touch engine state). -/
def Engine.insert (e : Engine) (keyword : String) (freq : Int) : Engine :=
  if keyword = "" then e else
  let p := ensureWordIndex e keyword
  let idx := p.1
  let e1 := p.2
  let e2 := { e1 with
    freqs := e1.freqs.set idx (e1.freqs.getD idx 0 + freq)
    wordSeen := e1.wordSeen.set idx true }
  { e2 with root := updateTopKForWord e2.freqs e2.dict e2.perNodeK idx keyword.data e2.root }

/-- AutocompleteEngine::updateFrequency. -/
def Engine.updateFrequency (e : Engine) (keyword : String) (newFreq : Int) : Engine :=
  if keyword = "" then e else
  let p := ensureWordIndex e keyword
  let idx := p.1
  let e1 := p.2
  let e2 := { e1 with
    freqs := e1.freqs.set idx newFreq
    wordSeen := e1.wordSeen.set idx true }
  { e2 with root := updateTopKForWord e2.freqs e2.dict e2.perNodeK idx keyword.data e2.root }

/-- AutocompleteEngine::remove: zero the frequency, clear the seen flag,
clear the terminal marker (aborting early if the path is missing), then
evict the index from the caches along the path. -/
def Engine.remove (e : Engine) (keyword : String) : Engine :=
  if keyword = "" then e else
  match assocFind e.wordToIndex keyword with
  | none => e
  | some idx =>
    let e1 := { e with freqs := e.freqs.set idx 0, wordSeen := e.wordSeen.set idx false }
    match clearTerminal e1.root keyword.data with
    | none => e1
    | some root1 => { e1 with root := removeIdxPath idx root1 keyword.data }

/-- AutocompleteEngine::getTopK. -/
def Engine.getTopK (e : Engine) (pre : String) (K : Int) : List (String × Int) :=
  if K ≤ 0 then [] else
  match walkNode e.root pre.data with
  | none => []
  | some n =>
    (n.topK.take (min K.toNat n.topK.length)).map
      (fun i => (e.dict.getD i "", e.freqs.getD i 0))

/-- AutocompleteEngine::setPerNodeK. -/
def Engine.setPerNodeK (e : Engine) (k : Int) : Engine :=
  { e with perNodeK := max 1 k }

/-- The registry record insertion performed per parsed record inside
loadFromFile: ensureWordIndex, absolute frequency assignment,
insertIntoTrie (path + updateTopKForWord + seen flag). -/
def Engine.loadRecord (e : Engine) (word : String) (freq : Int) : Engine :=
  let p := ensureWordIndex e word
  let idx := p.1
  let e1 := p.2
  let e2 := { e1 with freqs := e1.freqs.set idx freq }
  let root1 := insertPath e2.root word.data idx
  let root2 := updateTopKForWord e2.freqs e2.dict e2.perNodeK idx word.data root1
  { e2 with root := root2, wordSeen := e2.wordSeen.set idx true }

/-- isspace of the default locale, the whitespace skipped by stream
extraction. -/
def isWSChar (c : Char) : Bool :=
  c = ' ' || c = '\t' || c = '\n' || c = '\x0b' || c = '\x0c' || c = '\r'

/-- fin >> word : skip whitespace, then read a maximal nonempty run of
non-whitespace characters; fails at end of input. -/
def extractToken (s : List Char) : Option (String × List Char) :=
  let s1 := s.dropWhile isWSChar
  if s1.isEmpty then none
  else some (⟨s1.takeWhile (fun c => !isWSChar c)⟩, s1.dropWhile (fun c => !isWSChar c))

def digitsVal (ds : List Char) : Nat :=
  ds.foldl (fun a c => 10 * a + (c.toNat - 48)) 0

/-- fin >> freq for a long long: skip whitespace, optional sign, then a
maximal nonempty digit run (failure when no digit follows). -/
def extractInt (s : List Char) : Option (Int × List Char) :=
  match s.dropWhile isWSChar with
  | [] => none
  | a :: rest =>
    if a = '-' then
      let ds := rest.takeWhile Char.isDigit
      if ds.isEmpty then none
      else some (-(digitsVal ds : Int), rest.dropWhile Char.isDigit)
    else if a = '+' then
      let ds := rest.takeWhile Char.isDigit
      if ds.isEmpty then none
      else some ((digitsVal ds : Int), rest.dropWhile Char.isDigit)
    else
      let ds := (a :: rest).takeWhile Char.isDigit
      if ds.isEmpty then none
      else some ((digitsVal ds : Int), (a :: rest).dropWhile Char.isDigit)

theorem length_dropWhile_le (p : Char → Bool) (l : List Char) :
    (l.dropWhile p).length ≤ l.length :=
  (List.dropWhile_suffix p).sublist.length_le

theorem extractToken_length {s : List Char} {w : String} {r : List Char}
    (h : extractToken s = some (w, r)) : r.length < s.length := by
  unfold extractToken at h
  have hlen1 : (s.dropWhile isWSChar).length ≤ s.length := length_dropWhile_le isWSChar s
  cases hs : s.dropWhile isWSChar with
  | nil => rw [hs] at h; simp at h
  | cons a as =>
    rw [hs] at h
    have ha : isWSChar a = false := by
      have hne : s.dropWhile isWSChar ≠ [] := by rw [hs]; simp
      have hh := List.head_dropWhile_not isWSChar s hne
      simp only [hs, List.head_cons] at hh
      exact hh
    simp at h
    have hr : r.length < (a :: as).length := by
      rw [← h.2]
      simp only [List.dropWhile, ha, Bool.not_false, List.length_cons]
      exact Nat.lt_succ_of_le (length_dropWhile_le _ as)
    rw [hs] at hlen1
    omega

theorem extractInt_length {s : List Char} {f : Int} {r : List Char}
    (h : extractInt s = some (f, r)) : r.length ≤ s.length := by
  unfold extractInt at h
  have hlen1 : (s.dropWhile isWSChar).length ≤ s.length := length_dropWhile_le isWSChar s
  cases hs : s.dropWhile isWSChar with
  | nil => rw [hs] at h; simp at h
  | cons a as =>
    rw [hs] at h
    have has : as.length < s.length := by
      have : (a :: as).length ≤ s.length := hs ▸ hlen1
      simp at this; omega
    have hdw : (as.dropWhile Char.isDigit).length ≤ as.length := length_dropWhile_le _ as
    have hdw2 : ((a :: as).dropWhile Char.isDigit).length ≤ (a :: as).length :=
      length_dropWhile_le _ _
    have hlen2 : (a :: as).length ≤ s.length := hs ▸ hlen1
    by_cases ha : a = '-'
    · simp only [ha, if_pos] at h
      by_cases hd : (as.takeWhile Char.isDigit).isEmpty
      · simp [hd] at h
      · simp [hd] at h
        rw [← h.2]; omega
    · by_cases hb : a = '+'
      · simp only [ha, hb, if_neg, if_pos, ite_false] at h
        by_cases hd : (as.takeWhile Char.isDigit).isEmpty
        · simp [hd] at h
        · simp [hd] at h
          rw [← h.2]; omega
      · simp only [ha, hb, ite_false] at h
        by_cases hd : ((a :: as).takeWhile Char.isDigit).isEmpty
        · simp [hd] at h
        · simp [hd] at h
          rw [← h.2]
          simp only [List.length_cons] at hlen2 hdw2
          omega

/-- The load loop of AutocompleteEngine::loadFromFile: while
(fin >> word >> freq) over the raw character stream; ends as soon as
either extraction fails. -/
def loadChars (e : Engine) (s : List Char) : Engine :=
  match ht : extractToken s with
  | none => e
  | some (w, s1) =>
    match hi : extractInt s1 with
    | none => e
    | some (f, s2) => loadChars (e.loadRecord w f) s2
termination_by s.length
decreasing_by
  have h1 := extractToken_length ht
  have h2 := extractInt_length hi
  omega

/-- The (text, frequency) pairs the loader would consume, extracted by the
same alternating tokenization but independent of any engine. -/
def parsePairs (s : List Char) : List (String × Int) :=
  match ht : extractToken s with
  | none => []
  | some (w, s1) =>
    match hi : extractInt s1 with
    | none => []
    | some (f, s2) => (w, f) :: parsePairs s2
termination_by s.length
decreasing_by
  have h1 := extractToken_length ht
  have h2 := extractInt_length hi
  omega

/-- The registry view: the (text, frequency) pairs of all known (seen)
terms, in identifier order. -/
def Engine.knownPairs (e : Engine) : List (String × Int) :=
  (List.range e.dict.length).filterMap
    (fun i => if e.wordSeen.getD i false then some (e.dict.getD i "", e.freqs.getD i 0) else none)

/-- The save path of AutocompleteEngine::saveToFile: known indices sorted
by text ascending, resolved to (text, frequency) records. -/
def Engine.saveRecords (e : Engine) : List (String × Int) :=
  ((sortBy (fun a b => charsLt (e.dict.getD a "").data (e.dict.getD b "").data)
      ((List.range e.dict.length).filter (fun i => e.wordSeen.getD i false)))).map
    (fun i => (e.dict.getD i "", e.freqs.getD i 0))

/-! ### The string comparator is a strict total order -/

theorem charsLt_irrefl : ∀ l : List Char, charsLt l l = false := by
  intro l
  induction l with
  | nil => rfl
  | cons a as ih =>
    unfold charsLt
    simp [lt_irrefl, ih]

theorem charsLt_asymm : ∀ {x y : List Char}, charsLt x y = true → charsLt y x = false := by
  intro x
  induction x with
  | nil =>
    intro y h
    cases y with
    | nil => exact absurd h (by simp [charsLt])
    | cons b bs => rfl
  | cons a as ih =>
    intro y h
    cases y with
    | nil => exact absurd h (by simp [charsLt])
    | cons b bs =>
      unfold charsLt at h ⊢
      by_cases hab : a < b
      · rw [if_neg (lt_asymm hab), if_pos hab]
      · rw [if_neg hab] at h
        by_cases hba : b < a
        · rw [if_pos hba] at h
          exact absurd h (by simp)
        · rw [if_neg hba] at h
          rw [if_neg hba, if_neg hab]
          exact ih h

theorem charsLt_trans : ∀ {x y z : List Char},
    charsLt x y = true → charsLt y z = true → charsLt x z = true := by
  intro x
  induction x with
  | nil =>
    intro y z hxy hyz
    cases y with
    | nil => exact hyz
    | cons b bs =>
      cases z with
      | nil => exact absurd hyz (by simp [charsLt])
      | cons c cs => rfl
  | cons a as ih =>
    intro y z hxy hyz
    cases y with
    | nil => exact absurd hxy (by simp [charsLt])
    | cons b bs =>
      cases z with
      | nil => exact absurd hyz (by simp [charsLt])
      | cons c cs =>
        unfold charsLt at hxy hyz ⊢
        by_cases hab : a < b <;> by_cases hbc : b < c
        · rw [if_pos (lt_trans hab hbc)]
        · rw [if_neg hbc] at hyz
          by_cases hcb : c < b
          · rw [if_pos hcb] at hyz
            exact absurd hyz (by simp)
          · rw [if_neg hcb] at hyz
            have hbc2 : b = c := le_antisymm (not_lt.mp hcb) (not_lt.mp hbc)
            rw [if_pos (hbc2 ▸ hab)]
        · rw [if_neg hab] at hxy
          by_cases hba : b < a
          · rw [if_pos hba] at hxy
            exact absurd hxy (by simp)
          · rw [if_neg hba] at hxy
            have hab2 : a = b := le_antisymm (not_lt.mp hba) (not_lt.mp hab)
            rw [if_pos (hab2 ▸ hbc)]
        · rw [if_neg hab] at hxy
          rw [if_neg hbc] at hyz
          by_cases hba : b < a
          · rw [if_pos hba] at hxy
            exact absurd hxy (by simp)
          · by_cases hcb : c < b
            · rw [if_pos hcb] at hyz
              exact absurd hyz (by simp)
            · rw [if_neg hba] at hxy
              rw [if_neg hcb] at hyz
              have hab2 : a = b := le_antisymm (not_lt.mp hba) (not_lt.mp hab)
              have hbc2 : b = c := le_antisymm (not_lt.mp hcb) (not_lt.mp hbc)
              subst hab2
              subst hbc2
              rw [if_neg hab, if_neg hba]
              exact ih hxy hyz

theorem charsLt_eq_of_incomp : ∀ {x y : List Char},
    charsLt x y = false → charsLt y x = false → x = y := by
  intro x
  induction x with
  | nil =>
    intro y hxy _
    cases y with
    | nil => rfl
    | cons b bs => exact absurd hxy (by simp [charsLt])
  | cons a as ih =>
    intro y hxy hyx
    cases y with
    | nil => exact absurd hyx (by simp [charsLt])
    | cons b bs =>
      unfold charsLt at hxy hyx
      by_cases hab : a < b
      · rw [if_pos hab] at hxy
        exact absurd hxy (by simp)
      · by_cases hba : b < a
        · rw [if_pos hba] at hyx
          exact absurd hyx (by simp)
        · rw [if_neg hab, if_neg hba] at hxy
          rw [if_neg hba, if_neg hab] at hyx
          have hab2 : a = b := le_antisymm (not_lt.mp hba) (not_lt.mp hab)
          rw [hab2, ih hxy hyx]

theorem charsLt_total_of_ne : ∀ {x y : List Char}, x ≠ y →
    charsLt x y = true ∨ charsLt y x = true := by
  intro x y hne
  by_cases hxy : charsLt x y = true
  · exact Or.inl hxy
  · by_cases hyx : charsLt y x = true
    · exact Or.inr hyx
    · exact absurd (charsLt_eq_of_incomp (Bool.not_eq_true _ ▸ hxy) (Bool.not_eq_true _ ▸ hyx))
        hne

theorem stringData_inj : ∀ {x y : String}, x.data = y.data → x = y := by
  intro x y h
  cases x with
  | mk dx =>
    cases y with
    | mk dy =>
      have hd : dx = dy := h
      rw [hd]

/-! ### The ranking comparator is a strict weak order -/

theorem higher_iff (f : List Int) (d : List String) (a b : Nat) :
    higher f d a b = true ↔
      (f.getD a 0 > f.getD b 0 ∨
        (f.getD a 0 = f.getD b 0 ∧
          charsLt (d.getD a "").data (d.getD b "").data = true)) := by
  unfold higher
  split_ifs with h
  · simp only [decide_eq_true_eq]
    constructor
    · exact fun hg => Or.inl hg
    · rintro (hg | ⟨he, hs⟩)
      · exact hg
      · exact absurd he h
  · push_neg at h
    constructor
    · exact fun hs => Or.inr ⟨h, hs⟩
    · rintro (hg | ⟨he, hs⟩)
      · exact absurd h (by omega)
      · exact hs

theorem higher_irrefl (f : List Int) (d : List String) (a : Nat) :
    higher f d a a = false := by
  unfold higher
  simp [charsLt_irrefl]

theorem higher_asymm {f : List Int} {d : List String} {a b : Nat}
    (h : higher f d a b = true) : higher f d b a = false := by
  rw [higher_iff] at h
  by_contra hc
  rw [Bool.not_eq_false, higher_iff] at hc
  rcases h with h | ⟨h1, h2⟩ <;> rcases hc with hc | ⟨hc1, hc2⟩
  · omega
  · omega
  · omega
  · rw [charsLt_asymm hc2] at h2
    exact absurd h2 (by simp)

theorem higher_trans {f : List Int} {d : List String} {a b c : Nat}
    (hab : higher f d a b = true) (hbc : higher f d b c = true) :
    higher f d a c = true := by
  rw [higher_iff] at hab hbc ⊢
  rcases hab with h | ⟨h1, h2⟩ <;> rcases hbc with h' | ⟨h1', h2'⟩
  · exact Or.inl (by omega)
  · exact Or.inl (by omega)
  · exact Or.inl (by omega)
  · exact Or.inr ⟨by omega, charsLt_trans h2 h2'⟩

theorem higher_total {f : List Int} {d : List String} {a b : Nat}
    (hne : d.getD a "" ≠ d.getD b "") :
    higher f d a b = true ∨ higher f d b a = true := by
  rw [higher_iff, higher_iff]
  rcases lt_trichotomy (f.getD a 0) (f.getD b 0) with h | h | h
  · exact Or.inr (Or.inl h)
  · have hdata : (d.getD a "").data ≠ (d.getD b "").data :=
      fun hd => hne (stringData_inj hd)
    rcases charsLt_total_of_ne hdata with h' | h'
    · exact Or.inl (Or.inr ⟨h, h'⟩)
    · exact Or.inr (Or.inr ⟨h.symm, h'⟩)
  · exact Or.inl (Or.inl h)

/-- The comparator only reads the frequency entries and texts of its two
arguments, defaulting out of range. -/
theorem higher_congr {f f' : List Int} {d d' : List String} {a b : Nat}
    (hfa : f'.getD a 0 = f.getD a 0) (hfb : f'.getD b 0 = f.getD b 0)
    (hda : d'.getD a "" = d.getD a "") (hdb : d'.getD b "" = d.getD b "") :
    higher f' d' a b = higher f d a b := by
  unfold higher
  rw [hfa, hfb, hda, hdb]

/-! ### Generic facts about the insertion sort used to model std::sort -/

section SortFacts

variable {lt : Nat → Nat → Bool}

/-- The sortedness relation induced by a strict Bool comparator. -/
def SortedB (lt : Nat → Nat → Bool) (l : List Nat) : Prop :=
  l.Pairwise (fun a b => lt b a = false)

theorem insSorted_perm (lt : Nat → Nat → Bool) (x : Nat) (l : List Nat) :
    insSorted lt x l ~ x :: l := by
  induction l with
  | nil => simp [insSorted]
  | cons y ys ih =>
    unfold insSorted
    by_cases h : lt x y
    · simp [h]
    · simp only [h, if_false, Bool.false_eq_true, ite_false]
      calc y :: insSorted lt x ys ~ y :: x :: ys := (ih.cons y)
        _ ~ x :: y :: ys := List.Perm.swap x y ys

theorem mem_insSorted {lt : Nat → Nat → Bool} {x z : Nat} {l : List Nat} :
    z ∈ insSorted lt x l ↔ z = x ∨ z ∈ l := by
  have := (insSorted_perm lt x l).mem_iff (a := z)
  simpa using this

theorem insSorted_sorted
    (hasym : ∀ a b, lt a b = true → lt b a = false)
    (htrans : ∀ a b c, lt a b = true → lt b c = true → lt a c = true)
    {l : List Nat} (hl : SortedB lt l) (x : Nat) : SortedB lt (insSorted lt x l) := by
  induction l with
  | nil => simp [insSorted, SortedB]
  | cons y ys ih =>
    rcases List.pairwise_cons.mp hl with ⟨hy, hys⟩
    unfold insSorted
    by_cases h : lt x y
    · simp only [h, if_true]
      refine List.pairwise_cons.mpr ⟨?_, hl⟩
      intro z hz
      rcases List.mem_cons.mp hz with hz | hz
      · subst hz
        exact hasym _ _ h
      · have hzy := hy z hz
        by_contra hc
        rw [Bool.not_eq_false] at hc
        exact absurd (htrans _ _ _ hc h) (by rw [hzy]; simp)
    · simp only [h, Bool.false_eq_true, ite_false]
      refine List.pairwise_cons.mpr ⟨?_, ih hys⟩
      intro z hz
      rcases mem_insSorted.mp hz with hz | hz
      · subst hz
        simpa using h
      · exact hy z hz
end SortFacts

theorem sortBy_perm (lt : Nat → Nat → Bool) (l : List Nat) : sortBy lt l ~ l := by
  induction l with
  | nil => simp [sortBy]
  | cons x xs ih =>
    calc sortBy lt (x :: xs) ~ x :: sortBy lt xs := insSorted_perm lt x (sortBy lt xs)
      _ ~ x :: xs := ih.cons x

theorem sortBy_sorted (lt : Nat → Nat → Bool)
    (hasym : ∀ a b, lt a b = true → lt b a = false)
    (htrans : ∀ a b c, lt a b = true → lt b c = true → lt a c = true)
    (l : List Nat) : SortedB lt (sortBy lt l) := by
  induction l with
  | nil => simp [sortBy, SortedB]
  | cons x xs ih => exact insSorted_sorted hasym htrans ih x

/-- Two sorted lists that are permutations of each other are equal, when
the comparator is total on the elements involved. -/
theorem sorted_unique {lt : Nat → Nat → Bool} :
    ∀ {l₁ l₂ : List Nat}, l₁ ~ l₂ → SortedB lt l₁ → SortedB lt l₂ →
    (∀ a ∈ l₁, ∀ b ∈ l₁, a ≠ b → lt a b = true ∨ lt b a = true) → l₁ = l₂ := by
  intro l₁
  induction l₁ with
  | nil => intro l₂ hp _ _ _; simpa using hp.symm.eq_nil
  | cons a t₁ ih =>
    intro l₂ hp hs₁ hs₂ htot
    cases l₂ with
    | nil => simpa using hp.eq_nil
    | cons b t₂ =>
      by_cases hab : a = b
      · subst hab
        have ht : t₁ ~ t₂ := (List.perm_cons a).mp hp
        have := ih ht (List.pairwise_cons.mp hs₁).2 (List.pairwise_cons.mp hs₂).2
          (fun x hx y hy hxy => htot x (List.mem_cons_of_mem a hx) y (List.mem_cons_of_mem a hy) hxy)
        rw [this]
      · exfalso
        have hain : a ∈ b :: t₂ := hp.subset (List.mem_cons_self a t₁)
        have hbin : b ∈ a :: t₁ := hp.symm.subset (List.mem_cons_self b t₂)
        have hat₂ : a ∈ t₂ := by
          rcases List.mem_cons.mp hain with h | h
          · exact absurd h hab
          · exact h
        have hbt₁ : b ∈ t₁ := by
          rcases List.mem_cons.mp hbin with h | h
          · exact absurd h.symm hab
          · exact h
        have h1 : lt b a = false := (List.pairwise_cons.mp hs₁).1 b hbt₁
        have h2 : lt a b = false := (List.pairwise_cons.mp hs₂).1 a hat₂
        rcases htot a (List.mem_cons_self a t₁) b hbin hab with h | h
        · rw [h] at h2; exact absurd h2 (by simp)
        · rw [h] at h1; exact absurd h1 (by simp)

/-- Sorting two permutation-equal inputs gives the same list (comparator
total on the elements). -/
theorem sortBy_congr_perm {lt : Nat → Nat → Bool}
    (hasym : ∀ a b, lt a b = true → lt b a = false)
    (htrans : ∀ a b c, lt a b = true → lt b c = true → lt a c = true)
    {l₁ l₂ : List Nat} (hp : l₁ ~ l₂)
    (htot : ∀ a ∈ l₁, ∀ b ∈ l₁, a ≠ b → lt a b = true ∨ lt b a = true) :
    sortBy lt l₁ = sortBy lt l₂ := by
  refine sorted_unique ?_ (sortBy_sorted lt hasym htrans l₁) (sortBy_sorted lt hasym htrans l₂) ?_
  · exact ((sortBy_perm lt l₁).trans hp).trans (sortBy_perm lt l₂).symm
  · intro a ha b hb hne
    exact htot a ((sortBy_perm lt l₁).subset ha) b ((sortBy_perm lt l₁).subset hb) hne

/-! ### Child map lemmas -/

theorem findChild_mem {cs : List (Char × TrieNode)} {c : Char} {t : TrieNode}
    (h : findChild cs c = some t) : (c, t) ∈ cs := by
  induction cs with
  | nil => simp [findChild] at h
  | cons p rest ih =>
    obtain ⟨c', t'⟩ := p
    unfold findChild at h
    by_cases hc : c' = c
    · subst hc
      simp at h
      simp [h]
    · simp only [hc, if_false, ite_false] at h
      exact List.mem_cons_of_mem _ (ih h)

theorem mem_setChild {cs : List (Char × TrieNode)} {c c' : Char} {t t' : TrieNode}
    (h : (c', t') ∈ setChild cs c t) : (c' = c ∧ t' = t) ∨ (c', t') ∈ cs := by
  induction cs with
  | nil =>
    unfold setChild at h
    rcases List.mem_singleton.mp h with h
    exact Or.inl ⟨congrArg Prod.fst h, congrArg Prod.snd h⟩
  | cons p rest ih =>
    obtain ⟨c0, t0⟩ := p
    unfold setChild at h
    by_cases hc : c0 = c
    · simp only [hc, if_true, List.mem_cons] at h
      rcases h with h | h
      · exact Or.inl ⟨congrArg Prod.fst h, congrArg Prod.snd h⟩
      · exact Or.inr (List.mem_cons_of_mem _ h)
    · simp only [hc, if_false, ite_false, List.mem_cons] at h
      rcases h with h | h
      · exact Or.inr (List.mem_cons.mpr (Or.inl h))
      · rcases ih h with h' | h'
        · exact Or.inl h'
        · exact Or.inr (List.mem_cons_of_mem _ h')

theorem findChild_setChild_same (cs : List (Char × TrieNode)) (c : Char) (t : TrieNode) :
    findChild (setChild cs c t) c = some t := by
  induction cs with
  | nil => simp [setChild, findChild]
  | cons p rest ih =>
    obtain ⟨c0, t0⟩ := p
    unfold setChild
    by_cases hc : c0 = c
    · simp [hc, findChild]
    · simp [hc, findChild, ih]

theorem findChild_setChild_other {c c' : Char} (hne : c' ≠ c)
    (cs : List (Char × TrieNode)) (t : TrieNode) :
    findChild (setChild cs c t) c' = findChild cs c' := by
  induction cs with
  | nil => simp [setChild, findChild, Ne.symm hne]
  | cons p rest ih =>
    obtain ⟨c0, t0⟩ := p
    unfold setChild
    by_cases hc : c0 = c
    · subst hc
      simp [findChild, Ne.symm hne]
    · simp only [hc, if_false, ite_false]
      unfold findChild
      by_cases h0 : c0 = c'
      · simp [h0]
      · simp [h0, ih]

theorem setChild_self {cs : List (Char × TrieNode)} {c : Char} {t : TrieNode}
    (h : findChild cs c = some t) : setChild cs c t = cs := by
  induction cs with
  | nil => simp [findChild] at h
  | cons p rest ih =>
    obtain ⟨c0, t0⟩ := p
    unfold findChild at h
    unfold setChild
    by_cases hc : c0 = c
    · subst hc
      simp at h
      simp [h]
    · simp only [hc, if_false, ite_false] at h ⊢
      rw [ih h]

/-! ### Cache maintenance lemmas -/

theorem mem_trimCache {k : Int} {v : List Nat} {i : Nat} (h : i ∈ trimCache k v) : i ∈ v := by
  unfold trimCache at h
  split_ifs at h
  · exact List.mem_of_mem_take h
  · exact h

theorem trimCache_sublist (k : Int) (v : List Nat) : trimCache k v <+ v := by
  unfold trimCache
  split_ifs
  · exact List.take_sublist _ v
  · exact List.Sublist.refl v

theorem trimCache_length_le {k : Int} (hk : 0 ≤ k) (v : List Nat) :
    ((trimCache k v).length : Int) ≤ k := by
  unfold trimCache
  split_ifs with h
  · rw [List.length_take]
    have h1 : min k.toNat v.length ≤ k.toNat := Nat.min_le_left _ _
    have h2 : ((k.toNat : Nat) : Int) = k := Int.toNat_of_nonneg hk
    omega
  · omega

theorem mem_addIfAbsent {idx i : Nat} {v : List Nat} (h : i ∈ addIfAbsent idx v) :
    i ∈ v ∨ i = idx := by
  unfold addIfAbsent at h
  split_ifs at h
  · exact Or.inl h
  · rcases List.mem_append.mp h with h | h
    · exact Or.inl h
    · exact Or.inr (List.mem_singleton.mp h)

theorem addIfAbsent_nodup {idx : Nat} {v : List Nat} (h : v.Nodup) :
    (addIfAbsent idx v).Nodup := by
  unfold addIfAbsent
  split_ifs with hm
  · exact h
  · simp [List.nodup_append, h, hm]

theorem addIfAbsent_of_not_mem {idx : Nat} {v : List Nat} (h : idx ∉ v) :
    addIfAbsent idx v = v ++ [idx] := by
  unfold addIfAbsent
  simp [h]

theorem mem_cacheStep {f : List Int} {d : List String} {k : Int} {idx i : Nat} {v : List Nat}
    (h : i ∈ cacheStep f d k idx v) : i ∈ v ∨ i = idx := by
  unfold cacheStep at h
  have h1 := mem_trimCache h
  have h2 := (sortBy_perm (higher f d) (addIfAbsent idx v)).subset h1
  exact mem_addIfAbsent h2

theorem cacheStep_nodup {f : List Int} {d : List String} {k : Int} {idx : Nat} {v : List Nat}
    (h : v.Nodup) : (cacheStep f d k idx v).Nodup := by
  unfold cacheStep
  have h2 : (sortBy (higher f d) (addIfAbsent idx v)).Nodup :=
    (sortBy_perm (higher f d) _).nodup_iff.mpr (addIfAbsent_nodup h)
  exact h2.sublist (trimCache_sublist _ _)

theorem cacheStep_sorted (f : List Int) (d : List String) (k : Int) (idx : Nat) (v : List Nat) :
    SortedB (higher f d) (cacheStep f d k idx v) := by
  unfold cacheStep
  have hs : SortedB (higher f d) (sortBy (higher f d) (addIfAbsent idx v)) :=
    sortBy_sorted (higher f d) (fun a b h => higher_asymm h)
      (fun a b c hab hbc => higher_trans hab hbc) _
  exact hs.sublist (trimCache_sublist k _)

theorem cacheStep_length_le {f : List Int} {d : List String} {k : Int} (hk : 0 ≤ k)
    (idx : Nat) (v : List Nat) : ((cacheStep f d k idx v).length : Int) ≤ k :=
  trimCache_length_le hk _

/-! ### Per-node invariants and the all-nodes predicate -/

/-- A predicate holding at every node of a trie, tracking the character
path from the entry node. -/
inductive TrieAll (P : List Char → TrieNode → Prop) : List Char → TrieNode → Prop where
  | node : ∀ {p : List Char} {n : TrieNode}, P p n →
      (∀ c t, (c, t) ∈ n.children → TrieAll P (p ++ [c]) t) → TrieAll P p n

theorem TrieAll.self {P : List Char → TrieNode → Prop} {p : List Char} {n : TrieNode}
    (h : TrieAll P p n) : P p n := by
  cases h with
  | node hs _ => exact hs

theorem TrieAll.child {P : List Char → TrieNode → Prop} {p : List Char} {n : TrieNode}
    (h : TrieAll P p n) {c : Char} {t : TrieNode} (hm : (c, t) ∈ n.children) :
    TrieAll P (p ++ [c]) t := by
  cases h with
  | node _ hc => exact hc c t hm

theorem TrieAll.imp {P Q : List Char → TrieNode → Prop}
    (himp : ∀ p n, P p n → Q p n) :
    ∀ {p : List Char} {n : TrieNode}, TrieAll P p n → TrieAll Q p n := by
  intro p n h
  induction h with
  | node hs hc ih => exact TrieAll.node (himp _ _ hs) (fun c t hm => ih c t hm)

/-- A walk from a node where TrieAll holds lands on a node where the
predicate holds, at the extended path. -/
theorem TrieAll.walk {P : List Char → TrieNode → Prop} :
    ∀ {q : List Char} {p : List Char} {n m : TrieNode}, TrieAll P p n →
      walkNode n q = some m → TrieAll P (p ++ q) m := by
  intro q
  induction q with
  | nil =>
    intro p n m h hw
    have h2 : n = m := Option.some.inj hw
    subst h2
    simpa using h
  | cons c cs ih =>
    intro p n m h hw
    unfold walkNode at hw
    cases hf : findChild n.children c with
    | none => rw [hf] at hw; simp at hw
    | some t =>
      rw [hf] at hw
      have := ih (h.child (findChild_mem hf)) hw
      simpa using this

/-- The per-node invariant: the cache is duplicate-free, all its entries
are registered identifiers whose word passes through this node (which is
strictly below the root), and it is sorted by the ranking comparator. -/
structure NodeOk (f : List Int) (d : List String) (p : List Char) (n : TrieNode) : Prop where
  keys : (n.children.map Prod.fst).Nodup
  nodup : n.topK.Nodup
  mem_lt : ∀ i ∈ n.topK, i < d.length
  mem_path : ∀ i ∈ n.topK, p ≠ [] ∧ p <+: (d.getD i "").data
  sorted : SortedB (higher f d) n.topK

/-- The engine invariant maintained by every reachable state. -/
structure Inv (e : Engine) : Prop where
  kpos : 1 ≤ e.perNodeK
  flen : e.freqs.length = e.dict.length
  slen : e.wordSeen.length = e.dict.length
  dnodup : e.dict.Nodup
  w2i : e.wordToIndex = (List.range e.dict.length).map (fun i => (e.dict.getD i "", i))
  rootK : e.root.topK = []
  trie : TrieAll (NodeOk e.freqs e.dict) [] e.root
  paths : ∀ i < e.dict.length, (walkNode e.root (e.dict.getD i "").data).isSome = true

/-- Caches all fit in the currently configured capacity. -/
def BoundedCaches (e : Engine) : Prop :=
  TrieAll (fun _ n => (n.topK.length : Int) ≤ e.perNodeK) [] e.root


/-! ### getD and registry helpers -/

theorem getD_append_lt {α : Type} (l l' : List α) (i : Nat) (x : α) (h : i < l.length) :
    (l ++ l').getD i x = l.getD i x :=
  List.getD_append _ _ _ _ h

theorem getD_append_len {α : Type} (l : List α) (a x : α) : (l ++ [a]).getD l.length x = a := by
  simp [List.getD_eq_getElem?_getD]

theorem getD_set_self {α : Type} (l : List α) (i : Nat) (v x : α) (h : i < l.length) :
    (l.set i v).getD i x = v := by
  simp [List.getD_eq_getElem?_getD, List.getElem?_set_self, h]

theorem getD_set_other {α : Type} (l : List α) {i j : Nat} (v x : α) (h : i ≠ j) :
    (l.set i v).getD j x = l.getD j x := by
  simp [List.getD_eq_getElem?_getD, List.getElem?_set_ne h]

theorem getD_mem_of_lt {d : List String} {i : Nat} (h : i < d.length) : d.getD i "" ∈ d := by
  rw [List.getD_eq_getElem?_getD, List.getElem?_eq_getElem h]
  exact List.getElem_mem h

theorem getD_inj {d : List String} (hn : d.Nodup) {i j : Nat} (hi : i < d.length)
    (hj : j < d.length) (h : d.getD i "" = d.getD j "") : i = j := by
  rw [List.getD_eq_getElem?_getD, List.getElem?_eq_getElem hi,
    List.getD_eq_getElem?_getD, List.getElem?_eq_getElem hj] at h
  simp only [Option.getD_some] at h
  exact (List.Nodup.getElem_inj_iff hn).mp h

theorem not_mem_of_getD_ne {w : String} {d : List String}
    (h : ∀ j < d.length, d.getD j "" ≠ w) : w ∉ d := by
  intro hm
  obtain ⟨i, hi, hget⟩ := List.getElem_of_mem hm
  exact h i hi (by rw [List.getD_eq_getElem?_getD, List.getElem?_eq_getElem hi]; simpa using hget)

theorem assocFind_map_some {d : List String} :
    ∀ {l : List Nat} {w : String} {i : Nat},
      assocFind (l.map fun j => (d.getD j "", j)) w = some i → i ∈ l ∧ d.getD i "" = w := by
  intro l
  induction l with
  | nil => intro w i h; simp [assocFind] at h
  | cons j rest ih =>
    intro w i h
    simp only [List.map_cons] at h
    unfold assocFind at h
    split_ifs at h with hw
    · obtain rfl : j = i := Option.some.inj h
      exact ⟨List.mem_cons_self j rest, hw⟩
    · obtain ⟨hm, hq⟩ := ih h
      exact ⟨List.mem_cons_of_mem j hm, hq⟩

theorem assocFind_map_none {d : List String} :
    ∀ {l : List Nat} {w : String},
      assocFind (l.map fun j => (d.getD j "", j)) w = none → ∀ j ∈ l, d.getD j "" ≠ w := by
  intro l
  induction l with
  | nil => intro w _ j hj; simp at hj
  | cons j0 rest ih =>
    intro w h j hj
    have h2 : assocFind ((d.getD j0 "", j0) :: rest.map fun j => (d.getD j "", j)) w = none := by
      simpa using h
    unfold assocFind at h2
    by_cases hw : d.getD j0 "" = w
    · rw [if_pos hw] at h2
      exact Option.noConfusion h2
    · rw [if_neg hw] at h2
      rcases List.mem_cons.mp hj with hj | hj
      · subst hj; exact hw
      · exact ih h2 j hj

theorem Inv.lookup_some {e : Engine} (hI : Inv e) {word : String} {i : Nat}
    (h : assocFind e.wordToIndex word = some i) :
    i < e.dict.length ∧ e.dict.getD i "" = word := by
  rw [hI.w2i] at h
  obtain ⟨hm, hq⟩ := assocFind_map_some h
  exact ⟨List.mem_range.mp hm, hq⟩

theorem Inv.lookup_none {e : Engine} (hI : Inv e) {word : String}
    (h : assocFind e.wordToIndex word = none) : word ∉ e.dict := by
  rw [hI.w2i] at h
  exact not_mem_of_getD_ne (fun j hj => assocFind_map_none h j (List.mem_range.mpr hj))

theorem ensure_of_some {e : Engine} {word : String} {i : Nat}
    (h : assocFind e.wordToIndex word = some i) : ensureWordIndex e word = (i, e) := by
  unfold ensureWordIndex
  rw [h]

theorem ensure_of_none {e : Engine} {word : String}
    (h : assocFind e.wordToIndex word = none) :
    ensureWordIndex e word = (e.dict.length,
      { e with
        dict := e.dict ++ [word]
        freqs := e.freqs ++ [0]
        wordSeen := e.wordSeen ++ [false]
        wordToIndex := e.wordToIndex ++ [(word, e.dict.length)] }) := by
  unfold ensureWordIndex
  rw [h]

/-! ### Sharper child-map lemmas under duplicate-free keys -/

theorem mem_keys_setChild {c x : Char} {t : TrieNode} :
    ∀ {cs : List (Char × TrieNode)},
      (x ∈ (setChild cs c t).map Prod.fst ↔ x ∈ cs.map Prod.fst ∨ x = c) := by
  intro cs
  induction cs with
  | nil => simp [setChild]
  | cons p rest ih =>
    obtain ⟨c0, t0⟩ := p
    unfold setChild
    by_cases hc : c0 = c
    · subst hc
      simp only [if_true, List.map_cons, List.mem_cons]
      tauto
    · simp only [hc, if_false, ite_false, List.map_cons, List.mem_cons, ih]
      tauto

theorem keys_setChild_nodup {cs : List (Char × TrieNode)} {c : Char} {t : TrieNode}
    (h : (cs.map Prod.fst).Nodup) : ((setChild cs c t).map Prod.fst).Nodup := by
  induction cs with
  | nil => simp [setChild]
  | cons p rest ih =>
    obtain ⟨c0, t0⟩ := p
    simp only [List.map_cons, List.nodup_cons] at h
    unfold setChild
    by_cases hc : c0 = c
    · subst hc
      simpa using h
    · simp only [hc, if_false, ite_false, List.map_cons, List.nodup_cons]
      refine ⟨?_, ih h.2⟩
      intro hm
      rcases mem_keys_setChild.mp hm with hm | hm
      · exact h.1 hm
      · exact hc hm

theorem mem_setChild_of_keys_nodup {c c' : Char} {t t' : TrieNode} :
    ∀ {cs : List (Char × TrieNode)}, (cs.map Prod.fst).Nodup →
      (c', t') ∈ setChild cs c t →
      (c' = c ∧ t' = t) ∨ (c' ≠ c ∧ (c', t') ∈ cs) := by
  intro cs
  induction cs with
  | nil =>
    intro _ h
    unfold setChild at h
    have h2 := List.mem_singleton.mp h
    exact Or.inl ⟨congrArg Prod.fst h2, congrArg Prod.snd h2⟩
  | cons p rest ih =>
    obtain ⟨c0, t0⟩ := p
    intro hkeys h
    simp only [List.map_cons, List.nodup_cons] at hkeys
    unfold setChild at h
    by_cases hc : c0 = c
    · subst hc
      rw [if_pos rfl] at h
      rcases List.mem_cons.mp h with hx | hx
      · exact Or.inl ⟨congrArg Prod.fst hx, congrArg Prod.snd hx⟩
      · by_cases hcc : c' = c0
        · exfalso
          apply hkeys.1
          rw [← hcc]
          exact List.mem_map_of_mem Prod.fst hx
        · exact Or.inr ⟨hcc, List.mem_cons_of_mem _ hx⟩
    · rw [if_neg hc] at h
      rcases List.mem_cons.mp h with hx | hx
      · have h1 : c' = c0 := congrArg Prod.fst hx
        refine Or.inr ⟨by rw [h1]; exact hc, ?_⟩
        rw [hx]
        exact List.mem_cons_self _ _
      · rcases ih hkeys.2 hx with h1 | h1
        · exact Or.inl h1
        · exact Or.inr ⟨h1.1, List.mem_cons_of_mem _ h1.2⟩


/-! ### Invariant transfer and preservation under cache maintenance -/

/-- NodeOk is preserved under registry changes that keep the texts of all
indices below the old length and the frequencies of all cached indices. -/
theorem NodeOk.transfer {f f' : List Int} {d d' : List String} {p : List Char} {n : TrieNode}
    (hok : NodeOk f d p n)
    (hd : ∀ i < d.length, d'.getD i "" = d.getD i "")
    (hdl : d.length ≤ d'.length)
    (hf : ∀ i ∈ n.topK, f'.getD i 0 = f.getD i 0) :
    NodeOk f' d' p n where
  keys := hok.keys
  nodup := hok.nodup
  mem_lt := fun i hi => lt_of_lt_of_le (hok.mem_lt i hi) hdl
  mem_path := fun i hi =>
    ⟨(hok.mem_path i hi).1, by
      rw [hd i (hok.mem_lt i hi)]; exact (hok.mem_path i hi).2⟩
  sorted := hok.sorted.imp_of_mem (fun {a b} ha hb hr => by
    rw [higher_congr (hf b hb) (hf a ha) (hd b (hok.mem_lt b hb)) (hd a (hok.mem_lt a ha))]
    exact hr)

/-- A subtree rooted strictly off the path of the updated word keeps its
invariant under the registry change: none of its caches can mention idx. -/
theorem trieAll_offpath {f f' : List Int} {d d' : List String} {idx : Nat}
    (hd : ∀ i < d.length, d'.getD i "" = d.getD i "")
    (hdl : d.length ≤ d'.length)
    (hf : ∀ j, j ≠ idx → f'.getD j 0 = f.getD j 0) :
    ∀ {q : List Char} {n : TrieNode}, TrieAll (NodeOk f d) q n →
      ¬ (q <+: (d'.getD idx "").data) → TrieAll (NodeOk f' d') q n := by
  intro q n h
  induction h with
  | node hs hc ih =>
    intro hq
    refine TrieAll.node ?_
      (fun c t hm => ih c t hm (fun hpre => hq ((List.prefix_append _ [c]).trans hpre)))
    refine hs.transfer hd hdl ?_
    intro i hi
    by_cases hii : i = idx
    · exfalso
      subst hii
      have hlt := hs.mem_lt i hi
      have hp := (hs.mem_path i hi).2
      rw [← hd i hlt] at hp
      exact hq hp
    · exact hf i hii

/-- The main preservation lemma: updateTopKForWord keeps the per-node
invariant at every node, for the new registry contents. -/
theorem updT_trieAll {f f' : List Int} {d d' : List String} {k : Int} {idx : Nat}
    (hd : ∀ i < d.length, d'.getD i "" = d.getD i "")
    (hdl : d.length ≤ d'.length)
    (hidx : idx < d'.length)
    (hf : ∀ j, j ≠ idx → f'.getD j 0 = f.getD j 0) :
    ∀ (w p : List Char) (n : TrieNode),
      (d'.getD idx "").data = p ++ w →
      (∀ c t, (c, t) ∈ n.children → TrieAll (NodeOk f d) (p ++ [c]) t) →
      NodeOk f' d' p n →
      TrieAll (NodeOk f' d') p (updateTopKForWord f' d' k idx w n) := by
  intro w
  induction w with
  | nil =>
    intro p n hW hch hself
    refine TrieAll.node ⟨hself.keys, hself.nodup, hself.mem_lt, hself.mem_path, hself.sorted⟩ ?_
    intro c t hm
    refine trieAll_offpath hd hdl hf (hch c t hm) ?_
    intro hpre
    rw [hW] at hpre
    have hlen := hpre.length_le
    simp at hlen
  | cons c cs ih =>
    intro p n hW hch hself
    simp only [updateTopKForWord]
    refine TrieAll.node
      ⟨keys_setChild_nodup hself.keys, hself.nodup, hself.mem_lt, hself.mem_path, hself.sorted⟩ ?_
    intro c' t' hm
    rcases mem_setChild_of_keys_nodup hself.keys hm with ⟨hc, ht⟩ | ⟨hc, hmem⟩
    · subst ht
      rw [hc]
      have hW2 : (d'.getD idx "").data = (p ++ [c]) ++ cs := by
        rw [hW, List.append_assoc]
        rfl
      have hchild0 : ∀ c2 t2,
          (c2, t2) ∈ ((findChild n.children c).getD TrieNode.empty).children →
          TrieAll (NodeOk f d) ((p ++ [c]) ++ [c2]) t2 := by
        intro c2 t2 hm2
        cases hfc : findChild n.children c with
        | none =>
          rw [hfc] at hm2
          simp [TrieNode.empty, TrieNode.children] at hm2
        | some t0 =>
          rw [hfc] at hm2
          exact (hch c t0 (findChild_mem hfc)).child hm2
      have hok0 : NodeOk f d (p ++ [c]) ((findChild n.children c).getD TrieNode.empty) ∨
          (findChild n.children c).getD TrieNode.empty = TrieNode.empty := by
        cases hfc : findChild n.children c with
        | none => exact Or.inr rfl
        | some t0 => exact Or.inl (by
            have := (hch c t0 (findChild_mem hfc)).self
            simpa [hfc] using this)
      have hself2 : NodeOk f' d' (p ++ [c])
          (TrieNode.mk ((findChild n.children c).getD TrieNode.empty).children
            ((findChild n.children c).getD TrieNode.empty).wordIndex
            (cacheStep f' d' k idx ((findChild n.children c).getD TrieNode.empty).topK)) := by
      
        have hnodup0 : ((findChild n.children c).getD TrieNode.empty).topK.Nodup := by
          rcases hok0 with h0 | h0
          · exact h0.nodup
          · rw [h0]; simp [TrieNode.empty, TrieNode.topK]
        have hkeys0 : (((findChild n.children c).getD TrieNode.empty).children.map
            Prod.fst).Nodup := by
          rcases hok0 with h0 | h0
          · exact h0.keys
          · rw [h0]; simp [TrieNode.empty, TrieNode.children]
        have hmemlt0 : ∀ i ∈ ((findChild n.children c).getD TrieNode.empty).topK,
            i < d.length := by
          rcases hok0 with h0 | h0
          · exact h0.mem_lt
          · rw [h0]; simp [TrieNode.empty, TrieNode.topK]
        have hmempath0 : ∀ i ∈ ((findChild n.children c).getD TrieNode.empty).topK,
            (p ++ [c]) ≠ [] ∧ (p ++ [c]) <+: (d.getD i "").data := by
          rcases hok0 with h0 | h0
          · exact h0.mem_path
          · rw [h0]; simp [TrieNode.empty, TrieNode.topK]
        refine ⟨hkeys0, cacheStep_nodup hnodup0, ?_, ?_, cacheStep_sorted f' d' k idx _⟩
        · intro i hi
          rcases mem_cacheStep hi with hi0 | hi0
          · exact lt_of_lt_of_le (hmemlt0 i hi0) hdl
          · rw [hi0]; exact hidx
        · intro i hi
          refine ⟨by simp, ?_⟩
          rcases mem_cacheStep hi with hi0 | hi0
          · rw [hd i (hmemlt0 i hi0)]
            exact (hmempath0 i hi0).2
          · rw [hi0, hW]
            exact ⟨cs, by simp⟩
      exact ih (p ++ [c]) _ hW2 hchild0 hself2
    · refine trieAll_offpath hd hdl hf (hch c' t' hmem) ?_
      intro hpre
      rw [hW] at hpre
      have h2 := (List.prefix_append_right_inj p).mp hpre
      obtain ⟨r, hr⟩ := h2
      have hr2 : c' :: r = c :: cs := hr
      injection hr2 with h1 h2
      exact hc h1


/-! ### Structural lemmas: entry node caches and path existence -/

theorem updT_topK (f : List Int) (d : List String) (k : Int) (idx : Nat) :
    ∀ (w : List Char) (n : TrieNode), (updateTopKForWord f d k idx w n).topK = n.topK := by
  intro w n
  cases w <;> rfl

theorem updT_children_nil (f : List Int) (d : List String) (k : Int) (idx : Nat) (n : TrieNode) :
    (updateTopKForWord f d k idx [] n).children = n.children := rfl

theorem clearTerminal_topK : ∀ {n n2 : TrieNode} {w : List Char},
    clearTerminal n w = some n2 → n2.topK = n.topK := by
  intro n n2 w h
  cases w with
  | nil =>
    have h2 := Option.some.inj h
    rw [← h2]
    rfl
  | cons c cs =>
    unfold clearTerminal at h
    cases hf : findChild n.children c with
    | none => exact Option.noConfusion (by simpa only [hf] using h)
    | some t =>
      simp only [hf] at h
      cases hc : clearTerminal t cs with
      | none => exact Option.noConfusion (by simpa only [hc] using h)
      | some t' =>
        simp only [hc] at h
        have h2 := Option.some.inj h
        rw [← h2]
        rfl

theorem removeIdxPath_topK (idx : Nat) : ∀ (n : TrieNode) (w : List Char),
    (removeIdxPath idx n w).topK = n.topK := by
  intro n w
  cases w with
  | nil => rfl
  | cons c cs =>
    unfold removeIdxPath
    cases hf : findChild n.children c <;> rfl

theorem insertPath_topK : ∀ (n : TrieNode) (w : List Char) (idx : Nat),
    (insertPath n w idx).topK = n.topK := by
  intro n w idx
  cases w <;> rfl

theorem findChild_none_not_mem {cs : List (Char × TrieNode)} {c : Char}
    (h : findChild cs c = none) : ∀ t, (c, t) ∉ cs := by
  induction cs with
  | nil => intro t; simp
  | cons p rest ih =>
    obtain ⟨c0, t0⟩ := p
    unfold findChild at h
    by_cases hc : c0 = c
    · rw [if_pos hc] at h; exact Option.noConfusion h
    · rw [if_neg hc] at h
      intro t hm
      rcases List.mem_cons.mp hm with hx | hx
      · exact hc (congrArg Prod.fst hx).symm
      · exact ih h t hx

theorem walkNode_isSome_congr {m n : TrieNode} (h : m.children = n.children) :
    ∀ w : List Char, (walkNode m w).isSome = (walkNode n w).isSome := by
  intro w
  cases w with
  | nil => rfl
  | cons c cs =>
    unfold walkNode
    rw [h]

theorem walkNode_updT_isSome {f : List Int} {d : List String} {k : Int} {idx : Nat} :
    ∀ (w w' : List Char) (n : TrieNode),
      (walkNode n w').isSome = true →
      (walkNode (updateTopKForWord f d k idx w n) w').isSome = true := by
  intro w
  induction w with
  | nil =>
    intro w' n h
    rw [walkNode_isSome_congr (updT_children_nil f d k idx n) w']
    exact h
  | cons c cs ih =>
    intro w' n h
    cases w' with
    | nil => rfl
    | cons c' cs' =>
      simp only [updateTopKForWord, walkNode, TrieNode.children_mk]
      unfold walkNode at h
      cases hf : findChild n.children c' with
      | none => exact absurd h (by simp [hf])
      | some t =>
        simp only [hf] at h
        by_cases hc : c' = c
        · subst hc
          rw [findChild_setChild_same, hf]
          simp only [Option.getD_some]
          refine ih cs' _ ?_
          rw [walkNode_isSome_congr (TrieNode.children_mk _ _ _) cs']
          exact h
        · rw [findChild_setChild_other hc, hf]
          exact h

theorem walkNode_updT_self {f : List Int} {d : List String} {k : Int} {idx : Nat} :
    ∀ (w : List Char) (n : TrieNode),
      (walkNode (updateTopKForWord f d k idx w n) w).isSome = true := by
  intro w
  induction w with
  | nil => intro n; rfl
  | cons c cs ih =>
    intro n
    simp only [updateTopKForWord, walkNode, TrieNode.children_mk]
    rw [findChild_setChild_same]
    exact ih _

theorem clearTerminal_isSome : ∀ (w : List Char) (n : TrieNode),
    (clearTerminal n w).isSome = (walkNode n w).isSome := by
  intro w
  induction w with
  | nil => intro n; rfl
  | cons c cs ih =>
    intro n
    unfold clearTerminal walkNode
    cases hf : findChild n.children c with
    | none => simp only [hf]
    | some t =>
      simp only [hf]
      rw [← ih t]
      cases hc : clearTerminal t cs <;> simp [hc]

theorem clearTerminal_walk : ∀ {w : List Char} {n n2 : TrieNode},
    clearTerminal n w = some n2 →
    ∀ w' : List Char, (walkNode n2 w').isSome = (walkNode n w').isSome := by
  intro w
  induction w with
  | nil =>
    intro n n2 h w'
    have h2 := Option.some.inj h
    exact walkNode_isSome_congr (by rw [← h2]; rfl) w'
  | cons c cs ih =>
    intro n n2 h w'
    unfold clearTerminal at h
    cases hf : findChild n.children c with
    | none => exact Option.noConfusion (by simpa only [hf] using h)
    | some t =>
      simp only [hf] at h
      cases hc : clearTerminal t cs with
      | none => exact Option.noConfusion (by simpa only [hc] using h)
      | some t' =>
        simp only [hc] at h
        have h2 := Option.some.inj h
        rw [← h2]
        cases w' with
        | nil => rfl
        | cons c' cs' =>
          unfold walkNode
          simp only [TrieNode.children_mk]
          by_cases hcc : c' = c
          · subst hcc
            rw [findChild_setChild_same, hf]
            exact ih hc cs'
          · rw [findChild_setChild_other hcc]

theorem removeIdxPath_walk (idx : Nat) : ∀ (w : List Char) (n : TrieNode) (w' : List Char),
    (walkNode (removeIdxPath idx n w) w').isSome = (walkNode n w').isSome := by
  intro w
  induction w with
  | nil => intro n w'; rfl
  | cons c cs ih =>
    intro n w'
    unfold removeIdxPath
    cases hf : findChild n.children c with
    | none => rfl
    | some t =>
      cases w' with
      | nil => rfl
      | cons c' cs' =>
        unfold walkNode
        simp only [TrieNode.children_mk]
        by_cases hcc : c' = c
        · subst hcc
          rw [findChild_setChild_same, hf]
          rw [ih _ cs']
          exact walkNode_isSome_congr (TrieNode.children_mk _ _ _) cs'
        · rw [findChild_setChild_other hcc]

theorem insertPath_walk_isSome : ∀ (w : List Char) (idx : Nat) (n : TrieNode) (w' : List Char),
    (walkNode n w').isSome = true → (walkNode (insertPath n w idx) w').isSome = true := by
  intro w
  induction w with
  | nil =>
    intro idx n w' h
    rw [walkNode_isSome_congr (by rfl : (insertPath n [] idx).children = n.children) w']
    exact h
  | cons c cs ih =>
    intro idx n w' h
    cases w' with
    | nil => rfl
    | cons c' cs' =>
      simp only [insertPath]
      unfold walkNode at h ⊢
      simp only [TrieNode.children_mk]
      cases hf : findChild n.children c' with
      | none => exact absurd h (by simp [hf])
      | some t =>
        simp only [hf] at h
        by_cases hcc : c' = c
        · subst hcc
          rw [findChild_setChild_same]
          refine ih idx _ cs' ?_
          have hcongr : ((findChild n.children c').getD TrieNode.empty).children = t.children := by
            rw [hf]; rfl
          rw [walkNode_isSome_congr hcongr cs']
          exact h
        · rw [findChild_setChild_other hcc, hf]
          exact h


/-! ### Invariant preservation of the remaining trie operations -/

theorem NodeOk_erase {f : List Int} {d : List String} {p : List Char} {t : TrieNode} {idx : Nat}
    (h : NodeOk f d p t) :
    NodeOk f d p (TrieNode.mk t.children t.wordIndex (t.topK.erase idx)) where
  keys := h.keys
  nodup := h.nodup.erase idx
  mem_lt := fun i hi => h.mem_lt i (List.mem_of_mem_erase hi)
  mem_path := fun i hi => h.mem_path i (List.mem_of_mem_erase hi)
  sorted := h.sorted.sublist (List.erase_sublist idx t.topK)

/-- NodeOk transfer when the only frequency change is at an index absent
from this cache. -/
theorem NodeOk.transfer_freq {f f' : List Int} {d : List String} {p : List Char} {n : TrieNode}
    {idx : Nat} (h : NodeOk f d p n) (hf : ∀ j, j ≠ idx → f'.getD j 0 = f.getD j 0)
    (hidxn : idx ∉ n.topK) : NodeOk f' d p n :=
  h.transfer (fun _ _ => rfl) (le_refl _)
    (fun i hi => hf i (fun he => hidxn (he ▸ hi)))

theorem clearTerminal_trieAll {f : List Int} {d : List String} :
    ∀ {w : List Char} {p : List Char} {n n2 : TrieNode},
      TrieAll (NodeOk f d) p n → clearTerminal n w = some n2 →
      TrieAll (NodeOk f d) p n2 := by
  intro w
  induction w with
  | nil =>
    intro p n n2 h hc
    have h2 := Option.some.inj hc
    rw [← h2]
    exact TrieAll.node
      ⟨h.self.keys, h.self.nodup, h.self.mem_lt, h.self.mem_path, h.self.sorted⟩
      (fun c t hm => h.child hm)
  | cons c cs ih =>
    intro p n n2 h hcl
    unfold clearTerminal at hcl
    cases hf : findChild n.children c with
    | none => exact Option.noConfusion (by simpa only [hf] using hcl)
    | some t =>
      simp only [hf] at hcl
      cases hc : clearTerminal t cs with
      | none => exact Option.noConfusion (by simpa only [hc] using hcl)
      | some t' =>
        simp only [hc] at hcl
        rw [← Option.some.inj hcl]
        refine TrieAll.node
          ⟨keys_setChild_nodup h.self.keys, h.self.nodup, h.self.mem_lt, h.self.mem_path,
            h.self.sorted⟩ ?_
        intro c0 t0 hm
        rcases mem_setChild_of_keys_nodup h.self.keys hm with ⟨hc0, ht0⟩ | ⟨hc0, hmem⟩
        · subst ht0
          rw [hc0]
          exact ih (h.child (findChild_mem hf)) hc
        · exact h.child hmem

theorem insertPath_trieAll {f : List Int} {d : List String} :
    ∀ (w : List Char) (idx2 : Nat) (p : List Char) (n : TrieNode),
      TrieAll (NodeOk f d) p n → TrieAll (NodeOk f d) p (insertPath n w idx2) := by
  intro w
  induction w with
  | nil =>
    intro idx2 p n h
    exact TrieAll.node
      ⟨h.self.keys, h.self.nodup, h.self.mem_lt, h.self.mem_path, h.self.sorted⟩
      (fun c t hm => h.child hm)
  | cons c cs ih =>
    intro idx2 p n h
    simp only [insertPath]
    refine TrieAll.node
      ⟨keys_setChild_nodup h.self.keys, h.self.nodup, h.self.mem_lt, h.self.mem_path,
        h.self.sorted⟩ ?_
    intro c0 t0 hm
    simp only [TrieNode.children_mk] at hm
    rcases mem_setChild_of_keys_nodup h.self.keys hm with ⟨hc0, ht0⟩ | ⟨hc0, hmem⟩
    · subst ht0
      rw [hc0]
      refine ih idx2 (p ++ [c]) _ ?_
      cases hfc : findChild n.children c with
      | none =>
        refine TrieAll.node ?_ ?_
        · exact ⟨by simp [TrieNode.empty, TrieNode.children_mk],
            by simp [TrieNode.empty, TrieNode.topK_mk],
            by simp [TrieNode.empty, TrieNode.topK_mk],
            by simp [TrieNode.empty, TrieNode.topK_mk],
            by simp [SortedB, TrieNode.empty, TrieNode.topK_mk]⟩
        · intro c2 t2 hm2
          simp [TrieNode.empty, TrieNode.children_mk] at hm2
      | some t2 => exact h.child (findChild_mem hfc)
    · exact h.child hmem

/-- removeIndexFromPath keeps every node invariant, for the frequency
array in which only the removed index changed, provided the removed index
is absent from the entry node cache. -/
theorem removeIdx_trieAll {f f' : List Int} {d : List String} {idx : Nat}
    (hf : ∀ j, j ≠ idx → f'.getD j 0 = f.getD j 0) :
    ∀ (w p : List Char) (n : TrieNode),
      (d.getD idx "").data = p ++ w →
      TrieAll (NodeOk f d) p n → idx ∉ n.topK →
      TrieAll (NodeOk f' d) p (removeIdxPath idx n w) := by
  intro w
  induction w with
  | nil =>
    intro p n hW h hidxn
    refine TrieAll.node (h.self.transfer_freq hf hidxn) ?_
    intro c t hm
    refine trieAll_offpath (fun _ _ => rfl) (le_refl _) hf (h.child hm) ?_
    intro hpre
    rw [hW] at hpre
    have hlen := hpre.length_le
    simp at hlen
  | cons c cs ih =>
    intro p n hW h hidxn
    unfold removeIdxPath
    cases hfc : findChild n.children c with
    | none =>
      refine TrieAll.node (h.self.transfer_freq hf hidxn) ?_
      intro c0 t0 hm
      refine trieAll_offpath (fun _ _ => rfl) (le_refl _) hf (h.child hm) ?_
      intro hpre
      rw [hW] at hpre
      have h2 := (List.prefix_append_right_inj p).mp hpre
      obtain ⟨r, hr⟩ := h2
      have hr2 : c0 :: r = c :: cs := hr
      injection hr2 with h1 h2
      exact findChild_none_not_mem hfc t0 (h1 ▸ hm)
    | some t =>
      refine TrieAll.node
        ⟨keys_setChild_nodup h.self.keys, (h.self.transfer_freq hf hidxn).nodup,
          (h.self.transfer_freq hf hidxn).mem_lt, (h.self.transfer_freq hf hidxn).mem_path,
          (h.self.transfer_freq hf hidxn).sorted⟩ ?_
      intro c0 t0 hm
      simp only [TrieNode.children_mk] at hm
      rcases mem_setChild_of_keys_nodup h.self.keys hm with ⟨hc0, ht0⟩ | ⟨hc0, hmem⟩
      · subst ht0
        rw [hc0]
        have hT := h.child (findChild_mem hfc)
        have hT1 : TrieAll (NodeOk f d) (p ++ [c])
            (TrieNode.mk t.children t.wordIndex (t.topK.erase idx)) :=
          TrieAll.node (NodeOk_erase hT.self) (fun c2 t2 hm2 => hT.child hm2)
        refine ih (p ++ [c]) _ ?_ hT1 ?_
        · rw [hW, List.append_assoc]
          rfl
        · exact hT.self.nodup.not_mem_erase
      · refine trieAll_offpath (fun _ _ => rfl) (le_refl _) hf (h.child hmem) ?_
        intro hpre
        rw [hW] at hpre
        have h2 := (List.prefix_append_right_inj p).mp hpre
        obtain ⟨r, hr⟩ := h2
        have hr2 : c0 :: r = c :: cs := hr
        injection hr2 with h1 h2
        exact hc0 h1


/-! ### Cache-absence and boundedness predicates over the trie -/

/-- idx appears in no cache of the (sub)trie. -/
def cfP (idx : Nat) : List Char → TrieNode → Prop := fun _ m => idx ∉ m.topK

/-- every cache of the (sub)trie fits in k entries. -/
def bdP (k : Int) : List Char → TrieNode → Prop := fun _ m => (m.topK.length : Int) ≤ k

theorem updT_cacheFree {f : List Int} {d : List String} {k : Int} {j idx : Nat} (hne : idx ≠ j) :
    ∀ (w p : List Char) (n : TrieNode),
      TrieAll (cfP idx) p n → TrieAll (cfP idx) p (updateTopKForWord f d k j w n) := by
  intro w
  induction w with
  | nil =>
    intro p n h
    exact TrieAll.node h.self (fun c t hm => h.child hm)
  | cons c cs ih =>
    intro p n h
    simp only [updateTopKForWord]
    refine TrieAll.node h.self ?_
    intro c0 t0 hm
    simp only [TrieNode.children_mk] at hm
    rcases mem_setChild hm with ⟨hc0, ht0⟩ | hmem
    · subst ht0
      rw [hc0]
      refine ih (p ++ [c]) _ ?_
      have hcf0 : idx ∉ ((findChild n.children c).getD TrieNode.empty).topK := by
        cases hfc : findChild n.children c with
        | none => simp [TrieNode.empty, TrieNode.topK_mk]
        | some t2 => exact (h.child (findChild_mem hfc)).self
      have hch0 : ∀ c2 t2, (c2, t2) ∈ ((findChild n.children c).getD TrieNode.empty).children →
          TrieAll (cfP idx) ((p ++ [c]) ++ [c2]) t2 := by
        intro c2 t2 hm2
        cases hfc : findChild n.children c with
        | none =>
          rw [hfc] at hm2
          simp [TrieNode.empty, TrieNode.children_mk] at hm2
        | some t3 =>
          rw [hfc] at hm2
          exact (h.child (findChild_mem hfc)).child hm2
      refine TrieAll.node ?_ (fun c2 t2 hm2 => hch0 c2 t2 (by simpa using hm2))
      show idx ∉ cacheStep f d k j ((findChild n.children c).getD TrieNode.empty).topK
      intro hin
      rcases mem_cacheStep hin with hin | hin
      · exact hcf0 hin
      · exact hne hin
    · exact h.child hmem

theorem clearTerminal_cacheFree {idx : Nat} :
    ∀ {w p : List Char} {n n2 : TrieNode},
      TrieAll (cfP idx) p n → clearTerminal n w = some n2 → TrieAll (cfP idx) p n2 := by
  intro w
  induction w with
  | nil =>
    intro p n n2 h hc
    rw [← Option.some.inj hc]
    exact TrieAll.node h.self (fun c t hm => h.child hm)
  | cons c cs ih =>
    intro p n n2 h hcl
    unfold clearTerminal at hcl
    cases hf : findChild n.children c with
    | none => exact Option.noConfusion (by simpa only [hf] using hcl)
    | some t =>
      simp only [hf] at hcl
      cases hc : clearTerminal t cs with
      | none => exact Option.noConfusion (by simpa only [hc] using hcl)
      | some t' =>
        simp only [hc] at hcl
        rw [← Option.some.inj hcl]
        refine TrieAll.node h.self ?_
        intro c0 t0 hm
        simp only [TrieNode.children_mk] at hm
        rcases mem_setChild hm with ⟨hc0, ht0⟩ | hmem
        · subst ht0
          rw [hc0]
          exact ih (h.child (findChild_mem hf)) hc
        · exact h.child hmem

theorem removeIdx_cacheFree {idx j : Nat} :
    ∀ (w p : List Char) (n : TrieNode),
      TrieAll (cfP idx) p n → TrieAll (cfP idx) p (removeIdxPath j n w) := by
  intro w
  induction w with
  | nil => intro p n h; exact h
  | cons c cs ih =>
    intro p n h
    unfold removeIdxPath
    cases hfc : findChild n.children c with
    | none => exact h
    | some t =>
      refine TrieAll.node h.self ?_
      intro c0 t0 hm
      simp only [TrieNode.children_mk] at hm
      rcases mem_setChild hm with ⟨hc0, ht0⟩ | hmem
      · subst ht0
        rw [hc0]
        refine ih (p ++ [c]) _ ?_
        have hT := h.child (findChild_mem hfc)
        refine TrieAll.node ?_ (fun c2 t2 hm2 => hT.child (by simpa using hm2))
        show idx ∉ t.topK.erase j
        exact fun hin => hT.self (List.mem_of_mem_erase hin)
      · exact h.child hmem

theorem insertPath_cacheFree {idx : Nat} :
    ∀ (w : List Char) (idx2 : Nat) (p : List Char) (n : TrieNode),
      TrieAll (cfP idx) p n → TrieAll (cfP idx) p (insertPath n w idx2) := by
  intro w
  induction w with
  | nil =>
    intro idx2 p n h
    exact TrieAll.node h.self (fun c t hm => h.child hm)
  | cons c cs ih =>
    intro idx2 p n h
    simp only [insertPath]
    refine TrieAll.node h.self ?_
    intro c0 t0 hm
    simp only [TrieNode.children_mk] at hm
    rcases mem_setChild hm with ⟨hc0, ht0⟩ | hmem
    · subst ht0
      rw [hc0]
      refine ih idx2 (p ++ [c]) _ ?_
      cases hfc : findChild n.children c with
      | none =>
        refine TrieAll.node ?_ ?_
        · show idx ∉ (TrieNode.empty).topK
          simp [TrieNode.empty, TrieNode.topK_mk]
        · intro c2 t2 hm2
          simp [TrieNode.empty, TrieNode.children_mk] at hm2
      | some t2 => exact h.child (findChild_mem hfc)
    · exact h.child hmem

/-- After removal, the removed index is absent from every cache, given
the path-membership invariant restricted it to the removed word path. -/
theorem trieAll_cacheFree_offpath {f : List Int} {d : List String} {idx : Nat} :
    ∀ {q : List Char} {n : TrieNode}, TrieAll (NodeOk f d) q n →
      ¬ (q <+: (d.getD idx "").data) → TrieAll (cfP idx) q n := by
  intro q n h
  induction h with
  | node hs hc ih =>
    intro hq
    refine TrieAll.node ?_
      (fun c t hm => ih c t hm (fun hpre => hq ((List.prefix_append _ [c]).trans hpre)))
    intro hin
    exact hq ((hs.mem_path idx hin).2)

theorem removeIdx_estab {f : List Int} {d : List String} {idx : Nat} :
    ∀ (w p : List Char) (n : TrieNode),
      (d.getD idx "").data = p ++ w →
      TrieAll (NodeOk f d) p n → idx ∉ n.topK →
      TrieAll (cfP idx) p (removeIdxPath idx n w) := by
  intro w
  induction w with
  | nil =>
    intro p n hW h hidxn
    refine TrieAll.node hidxn ?_
    intro c t hm
    refine trieAll_cacheFree_offpath (h.child hm) ?_
    intro hpre
    rw [hW] at hpre
    have hlen := hpre.length_le
    simp at hlen
  | cons c cs ih =>
    intro p n hW h hidxn
    unfold removeIdxPath
    cases hfc : findChild n.children c with
    | none =>
      refine TrieAll.node hidxn ?_
      intro c0 t0 hm
      refine trieAll_cacheFree_offpath (h.child hm) ?_
      intro hpre
      rw [hW] at hpre
      obtain ⟨r, hr⟩ := (List.prefix_append_right_inj p).mp hpre
      have hr2 : c0 :: r = c :: cs := hr
      injection hr2 with h1 h2
      exact findChild_none_not_mem hfc t0 (h1 ▸ hm)
    | some t =>
      refine TrieAll.node hidxn ?_
      intro c0 t0 hm
      simp only [TrieNode.children_mk] at hm
      rcases mem_setChild_of_keys_nodup h.self.keys hm with ⟨hc0, ht0⟩ | ⟨hc0, hmem⟩
      · subst ht0
        rw [hc0]
        have hT := h.child (findChild_mem hfc)
        have hT1 : TrieAll (NodeOk f d) (p ++ [c])
            (TrieNode.mk t.children t.wordIndex (t.topK.erase idx)) :=
          TrieAll.node (NodeOk_erase hT.self) (fun c2 t2 hm2 => hT.child hm2)
        refine ih (p ++ [c]) _ ?_ hT1 hT.self.nodup.not_mem_erase
        rw [hW, List.append_assoc]
        rfl
      · refine trieAll_cacheFree_offpath (h.child hmem) ?_
        intro hpre
        rw [hW] at hpre
        obtain ⟨r, hr⟩ := (List.prefix_append_right_inj p).mp hpre
        have hr2 : c0 :: r = c :: cs := hr
        injection hr2 with h1 h2
        exact hc0 h1

/-! ### Boundedness preservation -/

theorem updT_bounded {f : List Int} {d : List String} {k : Int} {idx : Nat} (hk : 0 ≤ k) :
    ∀ (w p : List Char) (n : TrieNode),
      TrieAll (bdP k) p n → TrieAll (bdP k) p (updateTopKForWord f d k idx w n) := by
  intro w
  induction w with
  | nil =>
    intro p n h
    exact TrieAll.node h.self (fun c t hm => h.child hm)
  | cons c cs ih =>
    intro p n h
    simp only [updateTopKForWord]
    refine TrieAll.node h.self ?_
    intro c0 t0 hm
    simp only [TrieNode.children_mk] at hm
    rcases mem_setChild hm with ⟨hc0, ht0⟩ | hmem
    · subst ht0
      rw [hc0]
      refine ih (p ++ [c]) _ ?_
      have hch0 : ∀ c2 t2, (c2, t2) ∈ ((findChild n.children c).getD TrieNode.empty).children →
          TrieAll (bdP k) ((p ++ [c]) ++ [c2]) t2 := by
        intro c2 t2 hm2
        cases hfc : findChild n.children c with
        | none =>
          rw [hfc] at hm2
          simp [TrieNode.empty, TrieNode.children_mk] at hm2
        | some t3 =>
          rw [hfc] at hm2
          exact (h.child (findChild_mem hfc)).child hm2
      refine TrieAll.node ?_ (fun c2 t2 hm2 => hch0 c2 t2 (by simpa using hm2))
      show ((cacheStep f d k idx ((findChild n.children c).getD TrieNode.empty).topK).length : Int) ≤ k
      exact cacheStep_length_le hk idx _
    · exact h.child hmem

theorem clearTerminal_bounded {k : Int} :
    ∀ {w p : List Char} {n n2 : TrieNode},
      TrieAll (bdP k) p n → clearTerminal n w = some n2 → TrieAll (bdP k) p n2 := by
  intro w
  induction w with
  | nil =>
    intro p n n2 h hc
    rw [← Option.some.inj hc]
    exact TrieAll.node h.self (fun c t hm => h.child hm)
  | cons c cs ih =>
    intro p n n2 h hcl
    unfold clearTerminal at hcl
    cases hf : findChild n.children c with
    | none => exact Option.noConfusion (by simpa only [hf] using hcl)
    | some t =>
      simp only [hf] at hcl
      cases hc : clearTerminal t cs with
      | none => exact Option.noConfusion (by simpa only [hc] using hcl)
      | some t' =>
        simp only [hc] at hcl
        rw [← Option.some.inj hcl]
        refine TrieAll.node h.self ?_
        intro c0 t0 hm
        simp only [TrieNode.children_mk] at hm
        rcases mem_setChild hm with ⟨hc0, ht0⟩ | hmem
        · subst ht0
          rw [hc0]
          exact ih (h.child (findChild_mem hf)) hc
        · exact h.child hmem

theorem removeIdx_bounded {k : Int} {j : Nat} :
    ∀ (w p : List Char) (n : TrieNode),
      TrieAll (bdP k) p n → TrieAll (bdP k) p (removeIdxPath j n w) := by
  intro w
  induction w with
  | nil => intro p n h; exact h
  | cons c cs ih =>
    intro p n h
    unfold removeIdxPath
    cases hfc : findChild n.children c with
    | none => exact h
    | some t =>
      refine TrieAll.node h.self ?_
      intro c0 t0 hm
      simp only [TrieNode.children_mk] at hm
      rcases mem_setChild hm with ⟨hc0, ht0⟩ | hmem
      · subst ht0
        rw [hc0]
        refine ih (p ++ [c]) _ ?_
        have hT := h.child (findChild_mem hfc)
        refine TrieAll.node ?_ (fun c2 t2 hm2 => hT.child (by simpa using hm2))
        show ((t.topK.erase j).length : Int) ≤ k
        have h1 : (t.topK.erase j).length ≤ t.topK.length :=
          (List.erase_sublist j t.topK).length_le
        have h2 : (t.topK.length : Int) ≤ k := hT.self
        omega
      · exact h.child hmem

theorem insertPath_bounded {k : Int} (hk : 0 ≤ k) :
    ∀ (w : List Char) (idx2 : Nat) (p : List Char) (n : TrieNode),
      TrieAll (bdP k) p n → TrieAll (bdP k) p (insertPath n w idx2) := by
  intro w
  induction w with
  | nil =>
    intro idx2 p n h
    exact TrieAll.node h.self (fun c t hm => h.child hm)
  | cons c cs ih =>
    intro idx2 p n h
    simp only [insertPath]
    refine TrieAll.node h.self ?_
    intro c0 t0 hm
    simp only [TrieNode.children_mk] at hm
    rcases mem_setChild hm with ⟨hc0, ht0⟩ | hmem
    · subst ht0
      rw [hc0]
      refine ih idx2 (p ++ [c]) _ ?_
      cases hfc : findChild n.children c with
      | none =>
        refine TrieAll.node ?_ ?_
        · show ((TrieNode.empty).topK.length : Int) ≤ k
          simp [TrieNode.empty, TrieNode.topK_mk]
          omega
        · intro c2 t2 hm2
          simp [TrieNode.empty, TrieNode.children_mk] at hm2
      | some t2 => exact h.child (findChild_mem hfc)
    · exact h.child hmem


/-! ### Engine-level invariant preservation -/

theorem Inv.rootNodeOk {e : Engine} (hI : Inv e) (f' : List Int) (d' : List String) :
    NodeOk f' d' [] e.root :=
  ⟨hI.trie.self.keys, by rw [hI.rootK]; exact List.nodup_nil,
    fun i hi => absurd hi (by rw [hI.rootK]; simp),
    fun i hi => absurd hi (by rw [hI.rootK]; simp),
    by unfold SortedB; rw [hI.rootK]; exact List.Pairwise.nil⟩

theorem insert_eq_known {e : Engine} {w : String} {i : Nat} (fq : Int) (hw : w ≠ "")
    (h : assocFind e.wordToIndex w = some i) :
    e.insert w fq = { e with
      freqs := e.freqs.set i (e.freqs.getD i 0 + fq)
      wordSeen := e.wordSeen.set i true
      root := updateTopKForWord (e.freqs.set i (e.freqs.getD i 0 + fq)) e.dict e.perNodeK i
        w.data e.root } := by
  unfold Engine.insert
  rw [if_neg hw]
  simp only [ensure_of_some h]

theorem insert_eq_new {e : Engine} {w : String} (fq : Int) (hw : w ≠ "")
    (h : assocFind e.wordToIndex w = none) :
    e.insert w fq =
      (let d' := e.dict ++ [w]
       let f' := (e.freqs ++ [0]).set e.dict.length ((e.freqs ++ [0]).getD e.dict.length 0 + fq)
       { root := updateTopKForWord f' d' e.perNodeK e.dict.length w.data e.root
         perNodeK := e.perNodeK
         dict := d'
         freqs := f'
         wordSeen := (e.wordSeen ++ [false]).set e.dict.length true
         wordToIndex := e.wordToIndex ++ [(w, e.dict.length)] }) := by
  unfold Engine.insert
  rw [if_neg hw]
  simp only [ensure_of_none h]

theorem update_eq_known {e : Engine} {w : String} {i : Nat} (fq : Int) (hw : w ≠ "")
    (h : assocFind e.wordToIndex w = some i) :
    e.updateFrequency w fq = { e with
      freqs := e.freqs.set i fq
      wordSeen := e.wordSeen.set i true
      root := updateTopKForWord (e.freqs.set i fq) e.dict e.perNodeK i w.data e.root } := by
  unfold Engine.updateFrequency
  rw [if_neg hw]
  simp only [ensure_of_some h]

theorem update_eq_new {e : Engine} {w : String} (fq : Int) (hw : w ≠ "")
    (h : assocFind e.wordToIndex w = none) :
    e.updateFrequency w fq =
      (let d' := e.dict ++ [w]
       let f' := (e.freqs ++ [0]).set e.dict.length fq
       { root := updateTopKForWord f' d' e.perNodeK e.dict.length w.data e.root
         perNodeK := e.perNodeK
         dict := d'
         freqs := f'
         wordSeen := (e.wordSeen ++ [false]).set e.dict.length true
         wordToIndex := e.wordToIndex ++ [(w, e.dict.length)] }) := by
  unfold Engine.updateFrequency
  rw [if_neg hw]
  simp only [ensure_of_none h]

theorem loadRecord_eq_known {e : Engine} {w : String} {i : Nat} (fq : Int)
    (h : assocFind e.wordToIndex w = some i) :
    e.loadRecord w fq = { e with
      freqs := e.freqs.set i fq
      wordSeen := e.wordSeen.set i true
      root := updateTopKForWord (e.freqs.set i fq) e.dict e.perNodeK i w.data
        (insertPath e.root w.data i) } := by
  unfold Engine.loadRecord
  simp only [ensure_of_some h]

theorem loadRecord_eq_new {e : Engine} {w : String} (fq : Int)
    (h : assocFind e.wordToIndex w = none) :
    e.loadRecord w fq =
      (let d' := e.dict ++ [w]
       let f' := (e.freqs ++ [0]).set e.dict.length fq
       { root := updateTopKForWord f' d' e.perNodeK e.dict.length w.data
           (insertPath e.root w.data e.dict.length)
         perNodeK := e.perNodeK
         dict := d'
         freqs := f'
         wordSeen := (e.wordSeen ++ [false]).set e.dict.length true
         wordToIndex := e.wordToIndex ++ [(w, e.dict.length)] }) := by
  unfold Engine.loadRecord
  simp only [ensure_of_none h]


theorem set_agree {l : List Int} {i : Nat} (v : Int) :
    ∀ j, j ≠ i → (l.set i v).getD j 0 = l.getD j 0 :=
  fun _ hj => getD_set_other l v 0 (Ne.symm hj)

theorem freshFreq_agree {l : List Int} {len : Nat} (hl : l.length = len) (v : Int) :
    ∀ j, j ≠ len → ((l ++ [0]).set len v).getD j 0 = l.getD j 0 := by
  intro j hj
  rw [getD_set_other _ _ _ (Ne.symm hj)]
  by_cases hlt : j < l.length
  · exact getD_append_lt _ _ _ _ hlt
  · rw [List.getD_eq_default, List.getD_eq_default]
    · omega
    · simp
      omega

theorem w2i_fresh {e : Engine} (hI : Inv e) (w : String) :
    e.wordToIndex ++ [(w, e.dict.length)] =
      (List.range (e.dict ++ [w]).length).map (fun i => ((e.dict ++ [w]).getD i "", i)) := by
  rw [List.length_append, List.length_singleton, List.range_succ, List.map_append, hI.w2i]
  congr 1
  · refine List.map_congr_left ?_
    intro i hi
    rw [getD_append_lt _ _ _ _ (List.mem_range.mp hi)]
  · simp only [List.map_cons, List.map_nil]
    rw [getD_append_len]

theorem Inv.insertOp {e : Engine} (hI : Inv e) (w : String) (fq : Int) :
    Inv (e.insert w fq) := by
  by_cases hw : w = ""
  · subst hw
    simpa [Engine.insert] using hI
  · cases hj : assocFind e.wordToIndex w with
    | some i =>
      obtain ⟨hilt, hitext⟩ := hI.lookup_some hj
      rw [insert_eq_known fq hw hj]
      have hfA := set_agree (l := e.freqs) (i := i) (e.freqs.getD i 0 + fq)
      refine ⟨hI.kpos, ?_, ?_, hI.dnodup, hI.w2i, ?_, ?_, ?_⟩
      · simp [hI.flen]
      · simp [hI.slen]
      · rw [updT_topK]
        exact hI.rootK
      · refine updT_trieAll (fun _ _ => rfl) (le_refl _) hilt hfA w.data [] e.root ?_
          (fun c t hm => hI.trie.child hm) (hI.rootNodeOk _ _)
        rw [hitext]
        rfl
      · intro i0 hi0
        exact walkNode_updT_isSome _ _ _ (hI.paths i0 hi0)
    | none =>
      have hw_nin := hI.lookup_none hj
      rw [insert_eq_new fq hw hj]
      simp only []
      have hfA := freshFreq_agree hI.flen ((e.freqs ++ [0]).getD e.dict.length 0 + fq)
      have hdA : ∀ i < e.dict.length, (e.dict ++ [w]).getD i "" = e.dict.getD i "" :=
        fun i hi => getD_append_lt _ _ _ _ hi
      have hWtext : (e.dict ++ [w]).getD e.dict.length "" = w := getD_append_len _ _ _
      refine ⟨hI.kpos, ?_, ?_, ?_, ?_, ?_, ?_, ?_⟩
      · simp [hI.flen]
      · simp [hI.slen]
      · simp only [List.nodup_append, List.nodup_singleton]
        exact ⟨hI.dnodup, trivial, by simpa using hw_nin⟩
      · exact w2i_fresh hI w
      · rw [updT_topK]
        exact hI.rootK
      · refine updT_trieAll hdA (by simp) (by simp) hfA w.data [] e.root ?_
          (fun c t hm => hI.trie.child hm) (hI.rootNodeOk _ _)
        rw [hWtext]
        rfl
      · intro i0 hi0
        simp only [List.length_append, List.length_singleton] at hi0
        by_cases hlt : i0 < e.dict.length
        · rw [hdA i0 hlt]
          exact walkNode_updT_isSome _ _ _ (hI.paths i0 hlt)
        · have : i0 = e.dict.length := by omega
          rw [this, hWtext]
          exact walkNode_updT_self _ _


theorem nodeOk_of_empty_cache {n : TrieNode} (hk : (n.children.map Prod.fst).Nodup)
    (ht : n.topK = []) (f' : List Int) (d' : List String) : NodeOk f' d' [] n :=
  ⟨hk, by rw [ht]; exact List.nodup_nil,
    fun i hi => absurd hi (by rw [ht]; simp),
    fun i hi => absurd hi (by rw [ht]; simp),
    by unfold SortedB; rw [ht]; exact List.Pairwise.nil⟩

theorem Inv.updateOp {e : Engine} (hI : Inv e) (w : String) (fq : Int) :
    Inv (e.updateFrequency w fq) := by
  by_cases hw : w = ""
  · subst hw
    simpa [Engine.updateFrequency] using hI
  · cases hj : assocFind e.wordToIndex w with
    | some i =>
      obtain ⟨hilt, hitext⟩ := hI.lookup_some hj
      rw [update_eq_known fq hw hj]
      have hfA := set_agree (l := e.freqs) (i := i) fq
      refine ⟨hI.kpos, ?_, ?_, hI.dnodup, hI.w2i, ?_, ?_, ?_⟩
      · simp [hI.flen]
      · simp [hI.slen]
      · rw [updT_topK]
        exact hI.rootK
      · refine updT_trieAll (fun _ _ => rfl) (le_refl _) hilt hfA w.data [] e.root ?_
          (fun c t hm => hI.trie.child hm) (hI.rootNodeOk _ _)
        rw [hitext]
        rfl
      · intro i0 hi0
        exact walkNode_updT_isSome _ _ _ (hI.paths i0 hi0)
    | none =>
      have hw_nin := hI.lookup_none hj
      rw [update_eq_new fq hw hj]
      simp only []
      have hfA := freshFreq_agree hI.flen fq
      have hdA : ∀ i < e.dict.length, (e.dict ++ [w]).getD i "" = e.dict.getD i "" :=
        fun i hi => getD_append_lt _ _ _ _ hi
      have hWtext : (e.dict ++ [w]).getD e.dict.length "" = w := getD_append_len _ _ _
      refine ⟨hI.kpos, ?_, ?_, ?_, ?_, ?_, ?_, ?_⟩
      · simp [hI.flen]
      · simp [hI.slen]
      · simp only [List.nodup_append, List.nodup_singleton]
        exact ⟨hI.dnodup, trivial, by simpa using hw_nin⟩
      · exact w2i_fresh hI w
      · rw [updT_topK]
        exact hI.rootK
      · refine updT_trieAll hdA (by simp) (by simp) hfA w.data [] e.root ?_
          (fun c t hm => hI.trie.child hm) (hI.rootNodeOk _ _)
        rw [hWtext]
        rfl
      · intro i0 hi0
        simp only [List.length_append, List.length_singleton] at hi0
        by_cases hlt : i0 < e.dict.length
        · rw [hdA i0 hlt]
          exact walkNode_updT_isSome _ _ _ (hI.paths i0 hlt)
        · have : i0 = e.dict.length := by omega
          rw [this, hWtext]
          exact walkNode_updT_self _ _

theorem Inv.loadRecordOp {e : Engine} (hI : Inv e) (w : String) (fq : Int) :
    Inv (e.loadRecord w fq) := by
  cases hj : assocFind e.wordToIndex w with
  | some i =>
    obtain ⟨hilt, hitext⟩ := hI.lookup_some hj
    rw [loadRecord_eq_known fq hj]
    have hfA := set_agree (l := e.freqs) (i := i) fq
    have hins := insertPath_trieAll (f := e.freqs) (d := e.dict) w.data i [] e.root hI.trie
    refine ⟨hI.kpos, ?_, ?_, hI.dnodup, hI.w2i, ?_, ?_, ?_⟩
    · simp [hI.flen]
    · simp [hI.slen]
    · rw [updT_topK, insertPath_topK]
      exact hI.rootK
    · refine updT_trieAll (fun _ _ => rfl) (le_refl _) hilt hfA w.data []
        (insertPath e.root w.data i) ?_ (fun c t hm => hins.child hm)
        (nodeOk_of_empty_cache hins.self.keys (by rw [insertPath_topK]; exact hI.rootK) _ _)
      rw [hitext]
      rfl
    · intro i0 hi0
      exact walkNode_updT_isSome _ _ _
        (insertPath_walk_isSome _ _ _ _ (hI.paths i0 hi0))
  | none =>
    have hw_nin := hI.lookup_none hj
    rw [loadRecord_eq_new fq hj]
    simp only []
    have hfA := freshFreq_agree hI.flen fq
    have hdA : ∀ i < e.dict.length, (e.dict ++ [w]).getD i "" = e.dict.getD i "" :=
      fun i hi => getD_append_lt _ _ _ _ hi
    have hWtext : (e.dict ++ [w]).getD e.dict.length "" = w := getD_append_len _ _ _
    have hins := insertPath_trieAll (f := e.freqs) (d := e.dict) w.data e.dict.length [] e.root
      hI.trie
    refine ⟨hI.kpos, ?_, ?_, ?_, ?_, ?_, ?_, ?_⟩
    · simp [hI.flen]
    · simp [hI.slen]
    · simp only [List.nodup_append, List.nodup_singleton]
      exact ⟨hI.dnodup, trivial, by simpa using hw_nin⟩
    · exact w2i_fresh hI w
    · rw [updT_topK, insertPath_topK]
      exact hI.rootK
    · refine updT_trieAll hdA (by simp) (by simp) hfA w.data []
        (insertPath e.root w.data e.dict.length) ?_ (fun c t hm => hins.child hm)
        (nodeOk_of_empty_cache hins.self.keys (by rw [insertPath_topK]; exact hI.rootK) _ _)
      rw [hWtext]
      rfl
    · intro i0 hi0
      simp only [List.length_append, List.length_singleton] at hi0
      by_cases hlt : i0 < e.dict.length
      · rw [hdA i0 hlt]
        exact walkNode_updT_isSome _ _ _
          (insertPath_walk_isSome _ _ _ _ (hI.paths i0 hlt))
      · have : i0 = e.dict.length := by omega
        rw [this, hWtext]
        exact walkNode_updT_self _ _

theorem remove_eq_found {e : Engine} {w : String} {idx : Nat} {root1 : TrieNode} (hw : w ≠ "")
    (hj : assocFind e.wordToIndex w = some idx)
    (hr1 : clearTerminal e.root w.data = some root1) :
    e.remove w = { e with
      freqs := e.freqs.set idx 0
      wordSeen := e.wordSeen.set idx false
      root := removeIdxPath idx root1 w.data } := by
  unfold Engine.remove
  rw [if_neg hw]
  simp only [hj]
  have : clearTerminal
      ({ e with freqs := e.freqs.set idx 0, wordSeen := e.wordSeen.set idx false } : Engine).root
      w.data = some root1 := hr1
  simp only [this]

theorem Inv.removeOp {e : Engine} (hI : Inv e) (w : String) : Inv (e.remove w) := by
  by_cases hw : w = ""
  · subst hw
    simpa [Engine.remove] using hI
  · cases hj : assocFind e.wordToIndex w with
    | none => simpa [Engine.remove, hw, hj] using hI
    | some idx =>
      obtain ⟨hilt, hitext⟩ := hI.lookup_some hj
      have hwalk : (walkNode e.root w.data).isSome = true := by
        have := hI.paths idx hilt
        rwa [hitext] at this
      have hcs : (clearTerminal e.root w.data).isSome = true := by
        rw [clearTerminal_isSome]
        exact hwalk
      obtain ⟨root1, hr1⟩ := Option.isSome_iff_exists.mp hcs
      rw [remove_eq_found hw hj hr1]
      have hT1 : TrieAll (NodeOk e.freqs e.dict) [] root1 := clearTerminal_trieAll hI.trie hr1
      have hR1topK : root1.topK = [] := by
        rw [clearTerminal_topK hr1]
        exact hI.rootK
      refine ⟨hI.kpos, ?_, ?_, hI.dnodup, hI.w2i, ?_, ?_, ?_⟩
      · simp [hI.flen]
      · simp [hI.slen]
      · rw [removeIdxPath_topK]
        exact hR1topK
      · refine removeIdx_trieAll (set_agree 0) w.data [] root1 ?_ hT1 (by rw [hR1topK]; simp)
        rw [hitext]
        rfl
      · intro i0 hi0
        rw [removeIdxPath_walk, clearTerminal_walk hr1]
        exact hI.paths i0 hi0

theorem Inv.setKOp {e : Engine} (hI : Inv e) (k : Int) : Inv (e.setPerNodeK k) :=
  ⟨le_max_left 1 k, hI.flen, hI.slen, hI.dnodup, hI.w2i, hI.rootK, hI.trie, hI.paths⟩

theorem Inv.mkEngineOp {k : Int} (hk : 1 ≤ k) : Inv (mkEngine k) := by
  refine ⟨hk, rfl, rfl, List.nodup_nil, rfl, rfl, ?_, ?_⟩
  · refine TrieAll.node ?_ ?_
    · exact nodeOk_of_empty_cache (by simp [mkEngine, TrieNode.empty, TrieNode.children_mk])
        (by simp [mkEngine, TrieNode.empty, TrieNode.topK_mk]) _ _
    · intro c t hm
      simp [mkEngine, TrieNode.empty, TrieNode.children_mk] at hm
  · intro i hi
    simp [mkEngine] at hi

theorem loadChars_none {e : Engine} {s : List Char} (h : extractToken s = none) :
    loadChars e s = e := by
  unfold loadChars
  split
  · rfl
  · rename_i w s1 heq
    rw [heq] at h
    exact Option.noConfusion h

theorem loadChars_noint {e : Engine} {s s1 : List Char} {w : String}
    (h : extractToken s = some (w, s1)) (h2 : extractInt s1 = none) :
    loadChars e s = e := by
  unfold loadChars
  split
  · rfl
  · rename_i w0 s10 heq
    rw [h] at heq
    obtain ⟨hw0, hs10⟩ : w0 = w ∧ s10 = s1 := by
      have := Option.some.inj heq
      exact ⟨(congrArg Prod.fst this).symm, (congrArg Prod.snd this).symm⟩
    subst hw0
    subst hs10
    split
    · rfl
    · rename_i fq s2 heq2
      rw [heq2] at h2
      exact Option.noConfusion h2

theorem loadChars_step {e : Engine} {s s1 s2 : List Char} {w : String} {fq : Int}
    (h : extractToken s = some (w, s1)) (h2 : extractInt s1 = some (fq, s2)) :
    loadChars e s = loadChars (e.loadRecord w fq) s2 := by
  conv_lhs => unfold loadChars
  split
  · rename_i heq
    rw [heq] at h
    exact Option.noConfusion h
  · rename_i w0 s10 heq
    rw [h] at heq
    obtain ⟨hw0, hs10⟩ : w0 = w ∧ s10 = s1 := by
      have := Option.some.inj heq
      exact ⟨(congrArg Prod.fst this).symm, (congrArg Prod.snd this).symm⟩
    subst hw0
    subst hs10
    split
    · rename_i heq2
      rw [heq2] at h2
      exact Option.noConfusion h2
    · rename_i fq0 s20 heq2
      rw [h2] at heq2
      have h5 := Option.some.inj heq2
      have h3 : fq = fq0 := congrArg Prod.fst h5
      have h4 : s2 = s20 := congrArg Prod.snd h5
      rw [← h3, ← h4]

theorem Inv.loadCharsAux : ∀ (N : Nat) (s : List Char), s.length ≤ N →
    ∀ e : Engine, Inv e → Inv (loadChars e s) := by
  intro N
  induction N with
  | zero =>
    intro s hs e hI
    have hnil : s = [] := List.length_eq_zero.mp (Nat.le_zero.mp hs)
    subst hnil
    rw [loadChars_none (by rfl)]
    exact hI
  | succ n ih =>
    intro s hs e hI
    cases ht : extractToken s with
    | none =>
      rw [loadChars_none ht]
      exact hI
    | some p =>
      obtain ⟨w, s1⟩ := p
      cases hi : extractInt s1 with
      | none =>
        rw [loadChars_noint ht hi]
        exact hI
      | some q =>
        obtain ⟨fq, s2⟩ := q
        rw [loadChars_step ht hi]
        have h1 := extractToken_length ht
        have h2 := extractInt_length hi
        exact ih s2 (by omega) _ (hI.loadRecordOp w fq)

theorem Inv.loadCharsOp {e : Engine} (hI : Inv e) (s : List Char) : Inv (loadChars e s) :=
  Inv.loadCharsAux s.length s (le_refl _) e hI



/-! ### The query path, with the mutation potential of operator[] made explicit -/

/-- node->children[c] of the source: the child for c, inserting a fresh
node when the key is absent (the map operator[] semantics), returning the
child and the possibly grown parent. -/
def bracketChild (n : TrieNode) (c : Char) : TrieNode × TrieNode :=
  match findChild n.children c with
  | some t => (t, n)
  | none => (TrieNode.empty, .mk (setChild n.children c TrieNode.empty) n.wordIndex n.topK)

/-- The walk of getTopK with its state threaded: the count guard, then the
operator[] access, writing the possibly mutated child back. -/
def walkState : TrieNode → List Char → Option TrieNode × TrieNode
  | n, [] => (some n, n)
  | n, c :: cs =>
    if (findChild n.children c).isSome then
      let pr := bracketChild n c
      let q := walkState pr.1 cs
      (q.1, .mk (setChild pr.2.children c q.2) pr.2.wordIndex pr.2.topK)
    else (none, n)

/-- AutocompleteEngine::getTopK with the engine state it leaves behind. -/
def Engine.getTopKRun (e : Engine) (pre : String) (K : Int) :
    List (String × Int) × Engine :=
  if K ≤ 0 then ([], e) else
  match walkState e.root pre.data with
  | (none, root1) => ([], { e with root := root1 })
  | (some n, root1) =>
    ((n.topK.take (min K.toNat n.topK.length)).map
      (fun i => (e.dict.getD i "", e.freqs.getD i 0)),
      { e with root := root1 })

theorem TrieNode.eta : ∀ n : TrieNode, TrieNode.mk n.children n.wordIndex n.topK = n := by
  intro n
  cases n
  rfl

theorem walkState_eq : ∀ (w : List Char) (n : TrieNode), walkState n w = (walkNode n w, n) := by
  intro w
  induction w with
  | nil => intro n; rfl
  | cons c cs ih =>
    intro n
    unfold walkState
    by_cases hf : (findChild n.children c).isSome
    · obtain ⟨t, ht⟩ := Option.isSome_iff_exists.mp hf
      rw [if_pos hf]
      simp only [bracketChild, ht, ih]
      rw [setChild_self ht, TrieNode.eta]
      have hwn : walkNode n (c :: cs) = walkNode t cs := by
        conv_lhs => unfold walkNode
        rw [ht]
      rw [hwn]
    · rw [if_neg hf]
      unfold walkNode
      cases hft : findChild n.children c with
      | none => rfl
      | some t => rw [hft] at hf; simp at hf

/-! ### Reachable engine states -/

/-- Engine states reachable through the public mutation surface: construction
with a positive capacity, insert (add), updateFrequency, remove,
setPerNodeK (capacity reconfiguration) and bulk load. -/
inductive Reachable : Engine → Prop where
  | init : ∀ k : Int, 1 ≤ k → Reachable (mkEngine k)
  | insert : ∀ {e : Engine} (w : String) (fq : Int), Reachable e → Reachable (e.insert w fq)
  | update : ∀ {e : Engine} (w : String) (fq : Int), Reachable e →
      Reachable (e.updateFrequency w fq)
  | remove : ∀ {e : Engine} (w : String), Reachable e → Reachable (e.remove w)
  | setK : ∀ {e : Engine} (k : Int), Reachable e → Reachable (e.setPerNodeK k)
  | load : ∀ {e : Engine} (s : List Char), Reachable e → Reachable (loadChars e s)

/-- Reachable without any capacity reconfiguration call. -/
inductive ReachableNoCfg : Engine → Prop where
  | init : ∀ k : Int, 1 ≤ k → ReachableNoCfg (mkEngine k)
  | insert : ∀ {e : Engine} (w : String) (fq : Int), ReachableNoCfg e →
      ReachableNoCfg (e.insert w fq)
  | update : ∀ {e : Engine} (w : String) (fq : Int), ReachableNoCfg e →
      ReachableNoCfg (e.updateFrequency w fq)
  | remove : ∀ {e : Engine} (w : String), ReachableNoCfg e → ReachableNoCfg (e.remove w)
  | load : ∀ {e : Engine} (s : List Char), ReachableNoCfg e → ReachableNoCfg (loadChars e s)

theorem ReachableNoCfg.toReachable {e : Engine} (h : ReachableNoCfg e) : Reachable e := by
  induction h with
  | init k hk => exact Reachable.init k hk
  | insert w fq _ ih => exact Reachable.insert w fq ih
  | update w fq _ ih => exact Reachable.update w fq ih
  | remove w _ ih => exact Reachable.remove w ih
  | load s _ ih => exact Reachable.load s ih

theorem Inv.of_reachable {e : Engine} (h : Reachable e) : Inv e := by
  induction h with
  | init k hk => exact Inv.mkEngineOp hk
  | insert w fq _ ih => exact ih.insertOp w fq
  | update w fq _ ih => exact ih.updateOp w fq
  | remove w _ ih => exact ih.removeOp w
  | setK k _ ih => exact ih.setKOp k
  | load s _ ih => exact ih.loadCharsOp s

/-! ### Cache boundedness along reconfiguration-free histories -/

theorem bounded_insertOp {e : Engine} (hI : Inv e) (hB : BoundedCaches e) (w : String)
    (fq : Int) : BoundedCaches (e.insert w fq) := by
  have hk : (0 : Int) ≤ e.perNodeK := le_trans (by omega) hI.kpos
  by_cases hw : w = ""
  · subst hw
    simpa [Engine.insert, BoundedCaches] using hB
  · cases hj : assocFind e.wordToIndex w with
    | some i =>
      rw [insert_eq_known fq hw hj]
      exact updT_bounded hk w.data [] e.root hB
    | none =>
      rw [insert_eq_new fq hw hj]
      exact updT_bounded hk w.data [] e.root hB

theorem bounded_updateOp {e : Engine} (hI : Inv e) (hB : BoundedCaches e) (w : String)
    (fq : Int) : BoundedCaches (e.updateFrequency w fq) := by
  have hk : (0 : Int) ≤ e.perNodeK := le_trans (by omega) hI.kpos
  by_cases hw : w = ""
  · subst hw
    simpa [Engine.updateFrequency, BoundedCaches] using hB
  · cases hj : assocFind e.wordToIndex w with
    | some i =>
      rw [update_eq_known fq hw hj]
      exact updT_bounded hk w.data [] e.root hB
    | none =>
      rw [update_eq_new fq hw hj]
      exact updT_bounded hk w.data [] e.root hB

theorem bounded_removeOp {e : Engine} (hI : Inv e) (hB : BoundedCaches e) (w : String) :
    BoundedCaches (e.remove w) := by
  by_cases hw : w = ""
  · subst hw
    simpa [Engine.remove, BoundedCaches] using hB
  · cases hj : assocFind e.wordToIndex w with
    | none => simpa [Engine.remove, hw, hj, BoundedCaches] using hB
    | some idx =>
      obtain ⟨hilt, hitext⟩ := hI.lookup_some hj
      have hwalk : (walkNode e.root w.data).isSome = true := by
        have := hI.paths idx hilt
        rwa [hitext] at this
      have hcs : (clearTerminal e.root w.data).isSome = true := by
        rw [clearTerminal_isSome]
        exact hwalk
      obtain ⟨root1, hr1⟩ := Option.isSome_iff_exists.mp hcs
      rw [remove_eq_found hw hj hr1]
      exact removeIdx_bounded w.data [] root1 (clearTerminal_bounded hB hr1)

theorem bounded_loadRecordOp {e : Engine} (hI : Inv e) (hB : BoundedCaches e) (w : String)
    (fq : Int) : BoundedCaches (e.loadRecord w fq) := by
  have hk : (0 : Int) ≤ e.perNodeK := le_trans (by omega) hI.kpos
  cases hj : assocFind e.wordToIndex w with
  | some i =>
    rw [loadRecord_eq_known fq hj]
    exact updT_bounded hk w.data [] _ (insertPath_bounded hk w.data i [] e.root hB)
  | none =>
    rw [loadRecord_eq_new fq hj]
    exact updT_bounded hk w.data [] _ (insertPath_bounded hk w.data e.dict.length [] e.root hB)

theorem bounded_loadCharsAux : ∀ (N : Nat) (s : List Char), s.length ≤ N →
    ∀ e : Engine, Inv e → BoundedCaches e → BoundedCaches (loadChars e s) := by
  intro N
  induction N with
  | zero =>
    intro s hs e hI hB
    have hnil : s = [] := List.length_eq_zero.mp (Nat.le_zero.mp hs)
    subst hnil
    rw [loadChars_none (by rfl)]
    exact hB
  | succ n ih =>
    intro s hs e hI hB
    cases ht : extractToken s with
    | none =>
      rw [loadChars_none ht]
      exact hB
    | some p =>
      obtain ⟨w, s1⟩ := p
      cases hi : extractInt s1 with
      | none =>
        rw [loadChars_noint ht hi]
        exact hB
      | some q =>
        obtain ⟨fq, s2⟩ := q
        rw [loadChars_step ht hi]
        have h1 := extractToken_length ht
        have h2 := extractInt_length hi
        exact ih s2 (by omega) _ (hI.loadRecordOp w fq) (bounded_loadRecordOp hI hB w fq)

theorem bounded_of_noCfg {e : Engine} (h : ReachableNoCfg e) : BoundedCaches e := by
  induction h with
  | init k hk =>
    refine TrieAll.node ?_ ?_
    · show ((mkEngine k).root.topK.length : Int) ≤ (mkEngine k).perNodeK
      simp [mkEngine, TrieNode.empty, TrieNode.topK_mk]
      omega
    · intro c t hm
      simp [mkEngine, TrieNode.empty, TrieNode.children_mk] at hm
  | insert w fq hr ih => exact bounded_insertOp (Inv.of_reachable hr.toReachable) ih w fq
  | update w fq hr ih => exact bounded_updateOp (Inv.of_reachable hr.toReachable) ih w fq
  | remove w hr ih => exact bounded_removeOp (Inv.of_reachable hr.toReachable) ih w
  | load s hr ih =>
    exact bounded_loadCharsAux s.length s (le_refl _) _ (Inv.of_reachable hr.toReachable) ih


/-! ## Claim theorems -/

/-- C1 (counterexample): the claim predicts that after inserting "a" with
frequency 1 (so that the global top-1 of the vocabulary is [("a", 1)]), the
query topK("", 1) returns that term; the code returns the empty sequence,
because cache maintenance never populates the root cache. -/
theorem c1_counterexample :
    ((mkEngine 12).insert "a" 1).getTopK "" 1 = [] ∧
    ((mkEngine 12).insert "a" 1).knownPairs = [("a", 1)] := by
  constructor <;> rfl

/-- C1 (amended): topK("", K) returns the first min(K, len(root.cache))
entries of the root cache, but the root cache is never populated (cache
maintenance only touches nodes strictly below the entry node), so the
query returns the empty sequence in every reachable state, not the global
top-K. -/
theorem c1_empty_query {e : Engine} (hr : Reachable e) :
    e.root.topK = [] ∧ ∀ K : Int, e.getTopK "" K = [] := by
  have hI := Inv.of_reachable hr
  refine ⟨hI.rootK, ?_⟩
  intro K
  unfold Engine.getTopK
  by_cases hk : K ≤ 0
  · rw [if_pos hk]
  · rw [if_neg hk]
    have hwalk : walkNode e.root ("" : String).data = some e.root := rfl
    rw [hwalk]
    simp [hI.rootK]

theorem c1_witness :
    ((mkEngine 12).insert "a" 1).root.topK = [] ∧
    ((mkEngine 12).insert "a" 1).getTopK "" 3 = [] := by
  have h := c1_empty_query (Reachable.insert "a" 1 (Reachable.init 12 (by omega)))
  exact ⟨h.1, h.2 3⟩

/-- C2 (counterexample): with capacity 2, after caching two terms under
prefix "a" and reconfiguring the capacity down to 1, topK("a", 5) still
returns 2 entries, exceeding the currently configured capacity. -/
theorem c2_counterexample :
    (((((mkEngine 2).insert "aa" 1).insert "ab" 1).setPerNodeK 1).getTopK "a" 5).length = 2 ∧
    ((((mkEngine 2).insert "aa" 1).insert "ab" 1).setPerNodeK 1).perNodeK = 1 := by
  constructor
  · show ((((mkEngine 2).insert "aa" 1).insert "ab" 1).getTopK "a" 5).length = 2
    decide
  · show max (1 : Int) 1 = 1
    simp

/-- C2 (amended): for every state reachable without capacity
reconfiguration, the sequence returned by topK(prefix, requestedK) has
length at most the configured per-node capacity, however large requestedK
is.  (After a reconfiguration that shrinks the capacity, existing caches
are not re-trimmed and the bound can be exceeded, as the counterexample
shows.) -/
theorem c2_bounded_results {e : Engine} (hr : ReachableNoCfg e) (pre : String) (K : Int) :
    ((e.getTopK pre K).length : Int) ≤ e.perNodeK := by
  have hI := Inv.of_reachable hr.toReachable
  have hB := bounded_of_noCfg hr
  have hk1 : (0 : Int) ≤ e.perNodeK := le_trans (by omega) hI.kpos
  unfold Engine.getTopK
  by_cases hk : K ≤ 0
  · rw [if_pos hk]
    simpa using hk1
  · rw [if_neg hk]
    cases hw : walkNode e.root pre.data with
    | none => simpa using hk1
    | some n =>
      have hb : (n.topK.length : Int) ≤ e.perNodeK := (TrieAll.walk hB hw).self
      simp only [List.length_map, List.length_take]
      have h1 : min (min K.toNat n.topK.length) n.topK.length ≤ n.topK.length :=
        min_le_right _ _
      omega

theorem c2_witness :
    (((((mkEngine 2).insert "aa" 1).insert "ab" 1).getTopK "a" 5).length : Int) ≤
      ((((mkEngine 2).insert "aa" 1).insert "ab" 1)).perNodeK :=
  c2_bounded_results
    (ReachableNoCfg.insert "ab" 1 (ReachableNoCfg.insert "aa" 1
      (ReachableNoCfg.init 2 (by omega)))) "a" 5

/-- C3 (counterexample): after the mutating call setPerNodeK 1, the node
reached by "a" still caches 2 identifiers, exceeding the configured
capacity 1. -/
theorem c3_counterexample :
    ((walkNode ((((mkEngine 2).insert "aa" 1).insert "ab" 1).setPerNodeK 1).root
      ['a']).getD TrieNode.empty).topK.length = 2 ∧
    ((((mkEngine 2).insert "aa" 1).insert "ab" 1).setPerNodeK 1).perNodeK = 1 := by
  constructor
  · show ((walkNode (((mkEngine 2).insert "aa" 1).insert "ab" 1).root
      ['a']).getD TrieNode.empty).topK.length = 2
    decide
  · show max (1 : Int) 1 = 1
    simp

/-- C3 (amended): after every mutating call (insert, frequency update,
removal, capacity reconfiguration, load), every node cache is sorted by
the Ranking Policy; the length bound at the configured capacity
additionally holds whenever the capacity has not been reconfigured. -/
theorem c3_sorted_bounded (e : Engine) :
    (Reachable e → ∀ (p : List Char) (n : TrieNode), walkNode e.root p = some n →
      SortedB (higher e.freqs e.dict) n.topK) ∧
    (ReachableNoCfg e → ∀ (p : List Char) (n : TrieNode), walkNode e.root p = some n →
      SortedB (higher e.freqs e.dict) n.topK ∧ (n.topK.length : Int) ≤ e.perNodeK) := by
  constructor
  · intro hr p n hw
    exact (TrieAll.walk (Inv.of_reachable hr).trie hw).self.sorted
  · intro hr p n hw
    exact ⟨(TrieAll.walk (Inv.of_reachable hr.toReachable).trie hw).self.sorted,
      (TrieAll.walk (bounded_of_noCfg hr) hw).self⟩

theorem c3_witness :
    SortedB
      (higher (((mkEngine 2).insert "aa" 3).insert "ab" 7).freqs
        (((mkEngine 2).insert "aa" 3).insert "ab" 7).dict)
      ((walkNode (((mkEngine 2).insert "aa" 3).insert "ab" 7).root ['a']).get
        (by rfl)).topK ∧
    ((((walkNode (((mkEngine 2).insert "aa" 3).insert "ab" 7).root ['a']).get
      (by rfl)).topK.length : Int)) ≤ (((mkEngine 2).insert "aa" 3).insert "ab" 7).perNodeK :=
  (c3_sorted_bounded _).2
    (ReachableNoCfg.insert "ab" 7 (ReachableNoCfg.insert "aa" 3
      (ReachableNoCfg.init 2 (by omega)))) ['a'] _ (Option.some_get _).symm

/-- C4: the ranking comparator holds iff frequency is strictly higher, or
frequencies tie and the text is strictly smaller; it is irreflexive,
asymmetric, transitive and total on identifiers with distinct texts (a
strict total order there); and the cat/car/cart example query returns
exactly [cart(10), cat(5), car(3)]. -/
theorem c4_ranking_policy :
    (∀ (f : List Int) (d : List String) (a b : Nat),
      higher f d a b = true ↔
        (f.getD a 0 > f.getD b 0 ∨
          (f.getD a 0 = f.getD b 0 ∧
            charsLt (d.getD a "").data (d.getD b "").data = true))) ∧
    (∀ (f : List Int) (d : List String) (a : Nat), higher f d a a = false) ∧
    (∀ (f : List Int) (d : List String) (a b : Nat),
      higher f d a b = true → higher f d b a = false) ∧
    (∀ (f : List Int) (d : List String) (a b c : Nat),
      higher f d a b = true → higher f d b c = true → higher f d a c = true) ∧
    (∀ (f : List Int) (d : List String) (a b : Nat), d.getD a "" ≠ d.getD b "" →
      higher f d a b = true ∨ higher f d b a = true) ∧
    ((((mkEngine 12).insert "cat" 5).insert "car" 3).insert "cart" 10).getTopK "ca" 3 =
      [("cart", 10), ("cat", 5), ("car", 3)] :=
  ⟨higher_iff, higher_irrefl, fun _ _ _ _ h => higher_asymm h,
    fun _ _ _ _ _ hab hbc => higher_trans hab hbc,
    fun _ _ _ _ hne => higher_total hne, by rfl⟩

theorem c4_witness :
    higher [5, 3] ["cat", "car"] 0 1 = true ∨ higher [5, 3] ["cat", "car"] 1 0 = true :=
  c4_ranking_policy.2.2.2.2.1 [5, 3] ["cat", "car"] 0 1 (by decide)

/-- C8: the query is a pure read: run with the mutation potential of the
operator[] accesses made explicit, getTopK returns exactly its pure result
and leaves the engine (registry, trie, caches, markers, capacity)
unchanged, for every engine, prefix and requested count. -/
theorem c8_query_pure (e : Engine) (pre : String) (K : Int) :
    e.getTopKRun pre K = (e.getTopK pre K, e) := by
  unfold Engine.getTopKRun Engine.getTopK
  by_cases hk : K ≤ 0
  · rw [if_pos hk, if_pos hk]
  · rw [if_neg hk, if_neg hk, walkState_eq]
    cases hw : walkNode e.root pre.data with
    | none => rfl
    | some n => rfl

/-- C10: in every reachable state, every identifier cached at any trie
node was allocated by the registry: it is below the number of registered
terms, and the text and frequency arrays both have exactly that length,
so resolving a cached identifier never indexes out of bounds. -/
theorem c10_cache_ids_safe {e : Engine} (hr : Reachable e) :
    ∀ (p : List Char) (n : TrieNode), walkNode e.root p = some n →
      ∀ i ∈ n.topK, i < e.dict.length ∧ i < e.freqs.length ∧
        e.freqs.length = e.dict.length ∧ e.wordSeen.length = e.dict.length := by
  intro p n hw i hi
  have hI := Inv.of_reachable hr
  have hlt := (TrieAll.walk hI.trie hw).self.mem_lt i hi
  exact ⟨hlt, by rw [hI.flen]; exact hlt, hI.flen, hI.slen⟩

theorem c10_witness :
    0 < (((mkEngine 12).insert "cab" 4).insert "car" 9).dict.length ∧
    0 < (((mkEngine 12).insert "cab" 4).insert "car" 9).freqs.length ∧
    (((mkEngine 12).insert "cab" 4).insert "car" 9).freqs.length =
      (((mkEngine 12).insert "cab" 4).insert "car" 9).dict.length ∧
    (((mkEngine 12).insert "cab" 4).insert "car" 9).wordSeen.length =
      (((mkEngine 12).insert "cab" 4).insert "car" 9).dict.length :=
  c10_cache_ids_safe
    (Reachable.insert "car" 9 (Reachable.insert "cab" 4 (Reachable.init 12 (by omega))))
    ['c'] ((walkNode (((mkEngine 12).insert "cab" 4).insert "car" 9).root ['c']).get (by decide))
    (Option.some_get _).symm 0 (by decide)

/-! ### The loader as a fold over the extracted records -/

theorem parsePairs_none {s : List Char} (h : extractToken s = none) : parsePairs s = [] := by
  unfold parsePairs
  split
  · rfl
  · rename_i w s1 heq
    rw [heq] at h
    exact Option.noConfusion h

theorem parsePairs_noint {s s1 : List Char} {w : String}
    (h : extractToken s = some (w, s1)) (h2 : extractInt s1 = none) : parsePairs s = [] := by
  unfold parsePairs
  split
  · rfl
  · rename_i w0 s10 heq
    rw [h] at heq
    obtain ⟨hw0, hs10⟩ : w0 = w ∧ s10 = s1 := by
      have h3 := Option.some.inj heq
      exact ⟨(congrArg Prod.fst h3).symm, (congrArg Prod.snd h3).symm⟩
    subst hw0
    subst hs10
    split
    · rfl
    · rename_i fq s2 heq2
      rw [heq2] at h2
      exact Option.noConfusion h2

theorem parsePairs_step {s s1 s2 : List Char} {w : String} {fq : Int}
    (h : extractToken s = some (w, s1)) (h2 : extractInt s1 = some (fq, s2)) :
    parsePairs s = (w, fq) :: parsePairs s2 := by
  conv_lhs => unfold parsePairs
  split
  · rename_i heq
    rw [heq] at h
    exact Option.noConfusion h
  · rename_i w0 s10 heq
    rw [h] at heq
    obtain ⟨hw0, hs10⟩ : w0 = w ∧ s10 = s1 := by
      have h3 := Option.some.inj heq
      exact ⟨(congrArg Prod.fst h3).symm, (congrArg Prod.snd h3).symm⟩
    subst hw0
    subst hs10
    split
    · rename_i heq2
      rw [heq2] at h2
      exact Option.noConfusion h2
    · rename_i fq0 s20 heq2
      rw [h2] at heq2
      have h5 := Option.some.inj heq2
      have h3 : fq = fq0 := congrArg Prod.fst h5
      have h4 : s2 = s20 := congrArg Prod.snd h5
      rw [← h3, ← h4]

theorem loadChars_foldAux : ∀ (N : Nat) (s : List Char), s.length ≤ N → ∀ e : Engine,
    loadChars e s = (parsePairs s).foldl (fun e2 pr => e2.loadRecord pr.1 pr.2) e := by
  intro N
  induction N with
  | zero =>
    intro s hs e
    have hnil : s = [] := List.length_eq_zero.mp (Nat.le_zero.mp hs)
    subst hnil
    rw [loadChars_none (by rfl), parsePairs_none (by rfl)]
    rfl
  | succ n ih =>
    intro s hs e
    cases ht : extractToken s with
    | none => rw [loadChars_none ht, parsePairs_none ht]; rfl
    | some p =>
      obtain ⟨w, s1⟩ := p
      cases hi : extractInt s1 with
      | none => rw [loadChars_noint ht hi, parsePairs_noint ht hi]; rfl
      | some q =>
        obtain ⟨fq, s2⟩ := q
        rw [loadChars_step ht hi, parsePairs_step ht hi]
        have h1 := extractToken_length ht
        have h2 := extractInt_length hi
        rw [ih s2 (by omega)]
        rfl

/-! ### Line-level well-formedness, for the persisted-format claims -/

/-- All whitespace-separated tokens of a character sequence. -/
def tokensOf (s : List Char) : List String :=
  match ht : extractToken s with
  | none => []
  | some (w, r) => w :: tokensOf r
termination_by s.length
decreasing_by
  exact extractToken_length ht

theorem tokensOf_none {s : List Char} (h : extractToken s = none) : tokensOf s = [] := by
  unfold tokensOf
  split
  · rfl
  · rename_i w r heq
    rw [heq] at h
    exact Option.noConfusion h

theorem tokensOf_step {s r : List Char} {w : String} (h : extractToken s = some (w, r)) :
    tokensOf s = w :: tokensOf r := by
  conv_lhs => unfold tokensOf
  split
  · rename_i heq
    rw [heq] at h
    exact Option.noConfusion h
  · rename_i w0 r0 heq
    rw [h] at heq
    have h3 := Option.some.inj heq
    have h4 : w0 = w := (congrArg Prod.fst h3).symm
    have h5 : r0 = r := (congrArg Prod.snd h3).symm
    rw [h4, h5]

/-- A well-formed line of the persisted vocabulary format: exactly a text
token and a frequency token consisting of digits. -/
def wellFormedLine (l : List Char) : Bool :=
  match tokensOf l with
  | [_, f] => !f.data.isEmpty && f.data.all Char.isDigit
  | _ => false

/-- The lines of a character stream (split at newline characters). -/
def linesSplit : List Char → List (List Char)
  | [] => [[]]
  | c :: cs =>
    if c = '\n' then [] :: linesSplit cs
    else
      match linesSplit cs with
      | [] => [[c]]
      | l :: ls => (c :: l) :: ls

/-- C9 (counterexample): the file whose lines are "foo" and "5 x" has a
malformed first line (no separator / no frequency), so by the claim the
load must stop there with nothing loaded; the code instead reads tokens
across line boundaries and loads ("foo", 5). -/
theorem c9_counterexample :
    wellFormedLine ((linesSplit ("foo\n5 x" : String).data).getD 0 []) = false ∧
    (loadChars (mkEngine 12) ("foo\n5 x" : String).data).knownPairs = [("foo", 5)] := by
  constructor
  · have hline : (linesSplit ("foo\n5 x" : String).data).getD 0 [] = ("foo" : String).data := by
      rfl
    rw [hline]
    unfold wellFormedLine
    rw [tokensOf_step (show extractToken ("foo" : String).data =
        some ("foo", ([] : List Char)) from rfl)]
    rw [tokensOf_none (show extractToken ([] : List Char) = none from rfl)]
  · rw [loadChars_step
      (show extractToken ("foo\n5 x" : String).data =
        some ("foo", ("\n5 x" : String).data) from rfl)
      (show extractInt ("\n5 x" : String).data = some (5, (" x" : String).data) from rfl)]
    rw [loadChars_noint
      (show extractToken (" x" : String).data = some ("x", ([] : List Char)) from rfl)
      (show extractInt ([] : List Char) = none from rfl)]
    rfl

/-- C9 (amended): the load loop reads whitespace-separated tokens from the
raw stream, alternating text and frequency and ignoring line boundaries;
it stops at the first expected-frequency position that does not parse as
an integer (or at end of input), and the state it produces is exactly the
fold of identifier allocation + frequency assignment + path insertion over
the (text, frequency) pairs completely extracted before that point —
nothing past the failing extraction is processed. -/
theorem c9_truncated_fold (e : Engine) (s : List Char) :
    loadChars e s = (parsePairs s).foldl (fun e2 pr => e2.loadRecord pr.1 pr.2) e :=
  loadChars_foldAux s.length s (le_refl _) e

/-! ### Removal exclusion: machinery -/

/-- States reached from e₀ by further mutations that never re-insert or
update the term `t` (removals, reconfigurations and loads of other terms
are allowed). -/
inductive Later (t : String) : Engine → Engine → Prop where
  | refl : ∀ {e : Engine}, Later t e e
  | insert : ∀ {e e' : Engine} (w : String) (fq : Int), Later t e e' → w ≠ t →
      Later t e (e'.insert w fq)
  | update : ∀ {e e' : Engine} (w : String) (fq : Int), Later t e e' → w ≠ t →
      Later t e (e'.updateFrequency w fq)
  | remove : ∀ {e e' : Engine} (w : String), Later t e e' → Later t e (e'.remove w)
  | setK : ∀ {e e' : Engine} (k : Int), Later t e e' → Later t e (e'.setPerNodeK k)
  | load : ∀ {e e' : Engine} (s : List Char), Later t e e' →
      (∀ pr ∈ parsePairs s, pr.1 ≠ t) → Later t e (loadChars e' s)

/-- The abstract state after `t` (with identifier idx) has been evicted:
invariants hold, idx appears in no cache, and the registry still maps idx
to t. -/
def RemovedState (t : String) (idx : Nat) (e : Engine) : Prop :=
  Inv e ∧ TrieAll (cfP idx) [] e.root ∧ idx < e.dict.length ∧ e.dict.getD idx "" = t

theorem removedState_insert {t : String} {idx : Nat} {e : Engine}
    (h : RemovedState t idx e) (w : String) (fq : Int) (hw : w ≠ t) :
    RemovedState t idx (e.insert w fq) := by
  obtain ⟨hI, hcf, hlt, htext⟩ := h
  by_cases hw0 : w = ""
  · subst hw0
    simpa [Engine.insert] using ⟨hI, hcf, hlt, htext⟩
  · cases hj : assocFind e.wordToIndex w with
    | some j =>
      have hji : j ≠ idx := by
        intro hji
        subst hji
        exact hw ((hI.lookup_some hj).2.symm.trans htext)
      refine ⟨hI.insertOp w fq, ?_, ?_, ?_⟩
      · rw [insert_eq_known fq hw0 hj]
        exact updT_cacheFree (fun he => hji he.symm) w.data [] e.root hcf
      · rw [insert_eq_known fq hw0 hj]
        exact hlt
      · rw [insert_eq_known fq hw0 hj]
        exact htext
    | none =>
      refine ⟨hI.insertOp w fq, ?_, ?_, ?_⟩
      · rw [insert_eq_new fq hw0 hj]
        exact updT_cacheFree (fun he => absurd he (by omega)) w.data [] e.root hcf
      · rw [insert_eq_new fq hw0 hj]
        simp
        omega
      · rw [insert_eq_new fq hw0 hj]
        simp only []
        rw [getD_append_lt _ _ _ _ hlt]
        exact htext

theorem removedState_update {t : String} {idx : Nat} {e : Engine}
    (h : RemovedState t idx e) (w : String) (fq : Int) (hw : w ≠ t) :
    RemovedState t idx (e.updateFrequency w fq) := by
  obtain ⟨hI, hcf, hlt, htext⟩ := h
  by_cases hw0 : w = ""
  · subst hw0
    simpa [Engine.updateFrequency] using ⟨hI, hcf, hlt, htext⟩
  · cases hj : assocFind e.wordToIndex w with
    | some j =>
      have hji : j ≠ idx := by
        intro hji
        subst hji
        exact hw ((hI.lookup_some hj).2.symm.trans htext)
      refine ⟨hI.updateOp w fq, ?_, ?_, ?_⟩
      · rw [update_eq_known fq hw0 hj]
        exact updT_cacheFree (fun he => hji he.symm) w.data [] e.root hcf
      · rw [update_eq_known fq hw0 hj]
        exact hlt
      · rw [update_eq_known fq hw0 hj]
        exact htext
    | none =>
      refine ⟨hI.updateOp w fq, ?_, ?_, ?_⟩
      · rw [update_eq_new fq hw0 hj]
        exact updT_cacheFree (fun he => absurd he (by omega)) w.data [] e.root hcf
      · rw [update_eq_new fq hw0 hj]
        simp
        omega
      · rw [update_eq_new fq hw0 hj]
        simp only []
        rw [getD_append_lt _ _ _ _ hlt]
        exact htext

theorem removedState_remove {t : String} {idx : Nat} {e : Engine}
    (h : RemovedState t idx e) (w : String) : RemovedState t idx (e.remove w) := by
  obtain ⟨hI, hcf, hlt, htext⟩ := h
  by_cases hw0 : w = ""
  · subst hw0
    simpa [Engine.remove] using ⟨hI, hcf, hlt, htext⟩
  · cases hj : assocFind e.wordToIndex w with
    | none => simpa [Engine.remove, hw0, hj] using ⟨hI, hcf, hlt, htext⟩
    | some j =>
      obtain ⟨hjlt, hjtext⟩ := hI.lookup_some hj
      have hwalk : (walkNode e.root w.data).isSome = true := by
        have := hI.paths j hjlt
        rwa [hjtext] at this
      have hcs : (clearTerminal e.root w.data).isSome = true := by
        rw [clearTerminal_isSome]
        exact hwalk
      obtain ⟨root1, hr1⟩ := Option.isSome_iff_exists.mp hcs
      refine ⟨hI.removeOp w, ?_, ?_, ?_⟩
      · rw [remove_eq_found hw0 hj hr1]
        exact removeIdx_cacheFree w.data [] root1 (clearTerminal_cacheFree hcf hr1)
      · rw [remove_eq_found hw0 hj hr1]
        exact hlt
      · rw [remove_eq_found hw0 hj hr1]
        exact htext

theorem removedState_setK {t : String} {idx : Nat} {e : Engine}
    (h : RemovedState t idx e) (k : Int) : RemovedState t idx (e.setPerNodeK k) := by
  obtain ⟨hI, hcf, hlt, htext⟩ := h
  exact ⟨hI.setKOp k, hcf, hlt, htext⟩

theorem removedState_loadRecord {t : String} {idx : Nat} {e : Engine}
    (h : RemovedState t idx e) (w : String) (fq : Int) (hw : w ≠ t) :
    RemovedState t idx (e.loadRecord w fq) := by
  obtain ⟨hI, hcf, hlt, htext⟩ := h
  cases hj : assocFind e.wordToIndex w with
  | some j =>
    have hji : j ≠ idx := by
      intro hji
      subst hji
      exact hw ((hI.lookup_some hj).2.symm.trans htext)
    refine ⟨hI.loadRecordOp w fq, ?_, ?_, ?_⟩
    · rw [loadRecord_eq_known fq hj]
      exact updT_cacheFree (fun he => hji he.symm) w.data []
        _ (insertPath_cacheFree w.data j [] e.root hcf)
    · rw [loadRecord_eq_known fq hj]
      exact hlt
    · rw [loadRecord_eq_known fq hj]
      exact htext
  | none =>
    refine ⟨hI.loadRecordOp w fq, ?_, ?_, ?_⟩
    · rw [loadRecord_eq_new fq hj]
      exact updT_cacheFree (fun he => absurd he (by omega)) w.data []
        _ (insertPath_cacheFree w.data e.dict.length [] e.root hcf)
    · rw [loadRecord_eq_new fq hj]
      simp
      omega
    · rw [loadRecord_eq_new fq hj]
      simp only []
      rw [getD_append_lt _ _ _ _ hlt]
      exact htext

theorem removedState_loadAux {t : String} {idx : Nat} : ∀ (N : Nat) (s : List Char),
    s.length ≤ N → ∀ e : Engine, RemovedState t idx e →
    (∀ pr ∈ parsePairs s, pr.1 ≠ t) → RemovedState t idx (loadChars e s) := by
  intro N
  induction N with
  | zero =>
    intro s hs e h _
    have hnil : s = [] := List.length_eq_zero.mp (Nat.le_zero.mp hs)
    subst hnil
    rw [loadChars_none (by rfl)]
    exact h
  | succ n ih =>
    intro s hs e h hws
    cases ht : extractToken s with
    | none =>
      rw [loadChars_none ht]
      exact h
    | some p =>
      obtain ⟨w, s1⟩ := p
      cases hi : extractInt s1 with
      | none =>
        rw [loadChars_noint ht hi]
        exact h
      | some q =>
        obtain ⟨fq, s2⟩ := q
        rw [loadChars_step ht hi]
        rw [parsePairs_step ht hi] at hws
        have h1 := extractToken_length ht
        have h2 := extractInt_length hi
        refine ih s2 (by omega) _ ?_ ?_
        · exact removedState_loadRecord h w fq (hws (w, fq) (List.mem_cons_self _ _))
        · exact fun pr hpr => hws pr (List.mem_cons_of_mem _ hpr)

theorem removedState_later {t : String} {idx : Nat} {e0 e1 : Engine}
    (hl : Later t e0 e1) (h : RemovedState t idx e0) : RemovedState t idx e1 := by
  induction hl with
  | refl => exact h
  | insert w fq _ hw ih => exact removedState_insert ih w fq hw
  | update w fq _ hw ih => exact removedState_update ih w fq hw
  | remove w _ ih => exact removedState_remove ih w
  | setK k _ ih => exact removedState_setK ih k
  | load s _ hws ih => exact removedState_loadAux s.length s (le_refl _) _ ih hws

theorem removedState_after_remove {e : Engine} (hI : Inv e) {text : String} {idx : Nat}
    (hj : assocFind e.wordToIndex text = some idx) :
    RemovedState text idx (e.remove text) := by
  obtain ⟨hilt, htext⟩ := hI.lookup_some hj
  by_cases hw0 : text = ""
  · have hcf : TrieAll (cfP idx) [] e.root := by
      refine TrieAll.node ?_ ?_
      · show idx ∉ e.root.topK
        rw [hI.rootK]
        simp
      · intro c t hm
        refine trieAll_cacheFree_offpath (hI.trie.child hm) ?_
        rw [htext, hw0]
        intro hpre
        have := hpre.length_le
        simp at this
    subst hw0
    simpa [Engine.remove] using ⟨hI, hcf, hilt, htext⟩
  · have hwalk : (walkNode e.root text.data).isSome = true := by
      have := hI.paths idx hilt
      rwa [htext] at this
    have hcs : (clearTerminal e.root text.data).isSome = true := by
      rw [clearTerminal_isSome]
      exact hwalk
    obtain ⟨root1, hr1⟩ := Option.isSome_iff_exists.mp hcs
    have hT1 : TrieAll (NodeOk e.freqs e.dict) [] root1 := clearTerminal_trieAll hI.trie hr1
    have hR1topK : root1.topK = [] := by
      rw [clearTerminal_topK hr1]
      exact hI.rootK
    refine ⟨hI.removeOp text, ?_, ?_, ?_⟩
    · rw [remove_eq_found hw0 hj hr1]
      refine removeIdx_estab text.data [] root1 ?_ hT1 (by rw [hR1topK]; simp)
      rw [htext]
      rfl
    · rw [remove_eq_found hw0 hj hr1]
      exact hilt
    · rw [remove_eq_found hw0 hj hr1]
      exact htext

/-- C5: once a present term is removed, for every later state reached
without re-inserting or updating that term, no topK query on a prefix of
the term ever lists the term again. -/
theorem c5_removal_exclusion {e : Engine} (hr : Reachable e) {text : String} {idx : Nat}
    (hfound : assocFind e.wordToIndex text = some idx) {e' : Engine}
    (hl : Later text (e.remove text) e') (p : List Char) (K : Int) (hp : p <+: text.data) :
    text ∉ (e'.getTopK ⟨p⟩ K).map Prod.fst := by
  have hRS := removedState_later hl (removedState_after_remove (Inv.of_reachable hr) hfound)
  obtain ⟨hI2, hcf, hlt2, htext2⟩ := hRS
  intro hmem
  unfold Engine.getTopK at hmem
  split_ifs at hmem with hk
  · simp at hmem
  · cases hw : walkNode e'.root (String.mk p).data with
    | none =>
      simp only [hw] at hmem
      simp at hmem
    | some n =>
      simp only [hw, List.map_map, List.mem_map] at hmem
      obtain ⟨i, hiX, hieq⟩ := hmem
      have hiK : i ∈ n.topK := List.mem_of_mem_take hiX
      have hilt3 := (TrieAll.walk hI2.trie hw).self.mem_lt i hiK
      have hieq2 : e'.dict.getD i "" = text := hieq
      have hidx : i = idx := getD_inj hI2.dnodup hilt3 hlt2 (hieq2.trans htext2.symm)
      subst hidx
      exact (TrieAll.walk hcf hw).self hiK

theorem c5_witness :
    "ab" ∉ ((((mkEngine 12).insert "ab" 2).remove "ab").getTopK ⟨['a']⟩ 5).map Prod.fst :=
  c5_removal_exclusion (Reachable.insert "ab" 2 (Reachable.init 12 (by omega)))
    (by rfl) Later.refl ['a'] 5 ⟨['b'], rfl⟩

/-! ### Composition of cache maintenance steps (idempotent re-insert) -/

theorem subset_addIfAbsent (idx : Nat) (v : List Nat) : v ⊆ addIfAbsent idx v := by
  unfold addIfAbsent
  split_ifs
  · exact fun x hx => hx
  · exact fun x hx => List.mem_append_left _ hx

theorem mem_addIfAbsent_self (idx : Nat) (v : List Nat) : idx ∈ addIfAbsent idx v := by
  unfold addIfAbsent
  split_ifs with h
  · exact h
  · exact List.mem_append_right _ (List.mem_singleton_self idx)

theorem filter_front (p : Nat → Bool) : ∀ (n : Nat) (l : List Nat),
    (∀ x ∈ l.take n, p x = true) → l.filter p = l.take n ++ (l.drop n).filter p := by
  intro n
  induction n with
  | zero => intro l _; simp
  | succ m ih =>
    intro l hp
    cases l with
    | nil => simp
    | cons a as =>
      have hpa : p a = true := hp a (by simp)
      simp only [List.take_succ_cons, List.drop_succ_cons, List.filter_cons, hpa, if_true,
        List.cons_append]
      rw [ih as (fun x hx => hp x (by simp [hx]))]

theorem cacheStep_compose {f1 f2 : List Int} {d : List String} {idx : Nat} {k : Int}
    (hagree : ∀ j, j ≠ idx → f1.getD j 0 = f2.getD j 0)
    (hmono : f1.getD idx 0 ≤ f2.getD idx 0)
    (hk : 1 ≤ k)
    {v : List Nat} (hv : v.Nodup) (hvi : idx ∉ v)
    (hkeys : ∀ a ∈ v, ∀ b ∈ v, a ≠ b → d.getD a "" ≠ d.getD b "")
    (hkeyi : ∀ a ∈ v, d.getD a "" ≠ d.getD idx "") :
    cacheStep f2 d k idx (cacheStep f1 d k idx v) = cacheStep f2 d k idx v := by
  have hasym2 : ∀ a b : Nat, higher f2 d a b = true → higher f2 d b a = false :=
    fun a b h => higher_asymm h
  have htrans2 : ∀ a b c : Nat,
      higher f2 d a b = true → higher f2 d b c = true → higher f2 d a c = true :=
    fun a b c h1 h2 => higher_trans h1 h2
  have hS : addIfAbsent idx v = v ++ [idx] := addIfAbsent_of_not_mem hvi
  have hSnodup : (v ++ [idx]).Nodup := by simp [List.nodup_append, hv, hvi]
  have hmemS : ∀ x ∈ v ++ [idx], x ∈ v ∨ x = idx := by
    intro x hx
    rcases List.mem_append.mp hx with hx | hx
    · exact Or.inl hx
    · exact Or.inr (List.mem_singleton.mp hx)
  have hkeyS : ∀ a ∈ v ++ [idx], ∀ b ∈ v ++ [idx], a ≠ b → d.getD a "" ≠ d.getD b "" := by
    intro a ha b hb hne
    rcases hmemS a ha with ha2 | ha2 <;> rcases hmemS b hb with hb2 | hb2
    · exact hkeys a ha2 b hb2 hne
    · exact hb2 ▸ hkeyi a ha2
    · exact ha2 ▸ (hkeyi b hb2).symm
    · exact absurd (ha2.trans hb2.symm) hne
  have htot1 : ∀ a ∈ v ++ [idx], ∀ b ∈ v ++ [idx], a ≠ b →
      higher f1 d a b = true ∨ higher f1 d b a = true :=
    fun a ha b hb hne => higher_total (hkeyS a ha b hb hne)
  have htot2 : ∀ a ∈ v ++ [idx], ∀ b ∈ v ++ [idx], a ≠ b →
      higher f2 d a b = true ∨ higher f2 d b a = true :=
    fun a ha b hb hne => higher_total (hkeyS a ha b hb hne)
  have hagreeH : ∀ a b : Nat, a ≠ idx → b ≠ idx → higher f1 d a b = higher f2 d a b :=
    fun a b ha hb =>
      (higher_congr (hagree a ha).symm (hagree b hb).symm rfl rfl).symm
  have hmonoH : ∀ b : Nat, b ≠ idx → higher f1 d idx b = true → higher f2 d idx b = true := by
    intro b hb h
    rw [higher_iff] at h ⊢
    have hb2 := hagree b hb
    rcases h with h | ⟨h1, h2⟩
    · exact Or.inl (by omega)
    · by_cases he : f2.getD idx 0 = f1.getD idx 0
      · exact Or.inr ⟨by omega, h2⟩
      · exact Or.inl (by omega)
  unfold cacheStep
  rw [hS]
  have hApm : sortBy (higher f1 d) (v ++ [idx]) ~ v ++ [idx] := sortBy_perm _ _
  have hBpm : sortBy (higher f2 d) (v ++ [idx]) ~ v ++ [idx] := sortBy_perm _ _
  have hAnodup : (sortBy (higher f1 d) (v ++ [idx])).Nodup := hApm.nodup_iff.mpr hSnodup
  have hBnodup : (sortBy (higher f2 d) (v ++ [idx])).Nodup := hBpm.nodup_iff.mpr hSnodup
  have hAsorted : SortedB (higher f1 d) (sortBy (higher f1 d) (v ++ [idx])) :=
    sortBy_sorted (higher f1 d) (fun a b h => higher_asymm h)
      (fun a b c h1 h2 => higher_trans h1 h2) _
  have hBsorted : SortedB (higher f2 d) (sortBy (higher f2 d) (v ++ [idx])) :=
    sortBy_sorted (higher f2 d) hasym2 htrans2 _
  have hAlen : (sortBy (higher f1 d) (v ++ [idx])).length = (v ++ [idx]).length := hApm.length_eq
  have hBlen : (sortBy (higher f2 d) (v ++ [idx])).length = (v ++ [idx]).length := hBpm.length_eq
  by_cases hbig : (((v ++ [idx]).length : Int) > k)
  case neg =>
    have hAtrim : trimCache k (sortBy (higher f1 d) (v ++ [idx])) =
        sortBy (higher f1 d) (v ++ [idx]) := by
      unfold trimCache
      rw [if_neg (by rw [hAlen]; exact hbig)]
    rw [hAtrim]
    have hidxA : idx ∈ sortBy (higher f1 d) (v ++ [idx]) :=
      hApm.symm.subset (List.mem_append_right _ (List.mem_singleton_self idx))
    have haddA : addIfAbsent idx (sortBy (higher f1 d) (v ++ [idx])) =
        sortBy (higher f1 d) (v ++ [idx]) := by
      unfold addIfAbsent
      rw [if_pos hidxA]
    rw [haddA]
    rw [sortBy_congr_perm hasym2 htrans2 hApm
      (fun a ha b hb hne => htot2 a (hApm.subset ha) b (hApm.subset hb) hne)]
  case pos =>
    have hKk : ((k.toNat : Nat) : Int) = k := Int.toNat_of_nonneg (by omega)
    have hKS : k.toNat < (v ++ [idx]).length := by omega
    have hAtrim : trimCache k (sortBy (higher f1 d) (v ++ [idx])) =
        (sortBy (higher f1 d) (v ++ [idx])).take k.toNat := by
      unfold trimCache
      rw [if_pos (by rw [hAlen]; exact hbig)]
    have hBtrim : trimCache k (sortBy (higher f2 d) (v ++ [idx])) =
        (sortBy (higher f2 d) (v ++ [idx])).take k.toNat := by
      unfold trimCache
      rw [if_pos (by rw [hBlen]; exact hbig)]
    rw [hAtrim, hBtrim]
    have htkNodup : ((sortBy (higher f1 d) (v ++ [idx])).take k.toNat).Nodup :=
      hAnodup.sublist (List.take_sublist _ _)
    have hCnodup : (addIfAbsent idx ((sortBy (higher f1 d) (v ++ [idx])).take k.toNat)).Nodup :=
      addIfAbsent_nodup htkNodup
    have hCsubS : ∀ x ∈ addIfAbsent idx ((sortBy (higher f1 d) (v ++ [idx])).take k.toNat),
        x ∈ v ++ [idx] := by
      intro x hx
      rcases mem_addIfAbsent hx with hx | hx
      · exact hApm.subset (List.mem_of_mem_take hx)
      · rw [hx]
        exact List.mem_append_right _ (List.mem_singleton_self idx)
    have htake : ∀ x ∈ (sortBy (higher f2 d) (v ++ [idx])).take k.toNat,
        x ∈ addIfAbsent idx ((sortBy (higher f1 d) (v ++ [idx])).take k.toNat) := by
      intro x hxB
      by_cases hxi : x = idx
      · exact hxi ▸ mem_addIfAbsent_self _ _
      · by_cases hxc : x ∈ (sortBy (higher f1 d) (v ++ [idx])).take k.toNat
        · exact subset_addIfAbsent _ _ hxc
        · exfalso
          have hxS : x ∈ v ++ [idx] := hBpm.subset (List.mem_of_mem_take hxB)
          have hxA : x ∈ sortBy (higher f1 d) (v ++ [idx]) := hApm.symm.subset hxS
          have hxdrop : x ∈ (sortBy (higher f1 d) (v ++ [idx])).drop k.toNat := by
            have h0 := List.take_append_drop k.toNat (sortBy (higher f1 d) (v ++ [idx]))
            rw [← h0] at hxA
            rcases List.mem_append.mp hxA with h | h
            · exact absurd h hxc
            · exact h
          have hbeat : ∀ y ∈ (sortBy (higher f1 d) (v ++ [idx])).take k.toNat,
              higher f2 d y x = true := by
            intro y hy
            have hyx1 : higher f1 d x y = false := by
              have hpw := hAsorted
              unfold SortedB at hpw
              rw [← List.take_append_drop k.toNat (sortBy (higher f1 d) (v ++ [idx]))] at hpw
              exact (List.pairwise_append.mp hpw).2.2 y hy x hxdrop
            have hyne : y ≠ x := fun h => hxc (h ▸ hy)
            have hyS : y ∈ v ++ [idx] := hApm.subset (List.mem_of_mem_take hy)
            have h1 : higher f1 d y x = true := by
              rcases htot1 y hyS x hxS hyne with h | h
              · exact h
              · rw [h] at hyx1
                exact absurd hyx1 (by simp)
            by_cases hyi : y = idx
            · exact hyi ▸ hmonoH x hxi (hyi ▸ h1)
            · rw [← hagreeH y x hyi hxi]
              exact h1
          obtain ⟨s, t, hst⟩ := List.append_of_mem hxB
          have hstlen : s.length + t.length + 1 =
              ((sortBy (higher f2 d) (v ++ [idx])).take k.toNat).length := by
            rw [hst]
            simp
            omega
          have htklen2 : ((sortBy (higher f2 d) (v ++ [idx])).take k.toNat).length ≤ k.toNat := by
            rw [List.length_take]
            omega
          have hsl : s.length < k.toNat := by omega
          have hBsplit : sortBy (higher f2 d) (v ++ [idx]) =
              s ++ x :: (t ++ (sortBy (higher f2 d) (v ++ [idx])).drop k.toNat) := by
            conv_lhs => rw [← List.take_append_drop k.toNat (sortBy (higher f2 d) (v ++ [idx]))]
            rw [hst]
            simp
          have hfsub : ∀ z ∈ (sortBy (higher f2 d) (v ++ [idx])).filter
              (fun z => higher f2 d z x), z ∈ s := by
            intro z hz
            have hzB := List.mem_of_mem_filter hz
            have hzbeat : higher f2 d z x = true := (List.mem_filter.mp hz).2
            rw [hBsplit] at hzB
            rcases List.mem_append.mp hzB with h | h
            · exact h
            · exfalso
              rcases List.mem_cons.mp h with h | h
              · rw [h, higher_irrefl] at hzbeat
                exact absurd hzbeat (by simp)
              · have hpw := hBsorted
                unfold SortedB at hpw
                rw [hBsplit] at hpw
                have h2 := (List.pairwise_append.mp hpw).2.1
                have h3 := (List.pairwise_cons.mp h2).1 z h
                rw [h3] at hzbeat
                exact absurd hzbeat (by simp)
          have hcsub : ∀ y ∈ (sortBy (higher f1 d) (v ++ [idx])).take k.toNat,
              y ∈ (sortBy (higher f2 d) (v ++ [idx])).filter (fun z => higher f2 d z x) := by
            intro y hy
            refine List.mem_filter.mpr ⟨?_, hbeat y hy⟩
            exact hBpm.symm.subset (hApm.subset (List.mem_of_mem_take hy))
          have htklen : ((sortBy (higher f1 d) (v ++ [idx])).take k.toNat).length = k.toNat :=
            List.length_take_of_le (by omega)
          have h1 : k.toNat ≤ ((sortBy (higher f2 d) (v ++ [idx])).filter
              (fun z => higher f2 d z x)).length := by
            have h2 := (htkNodup.subperm hcsub).length_le
            rwa [htklen] at h2
          have h2 : ((sortBy (higher f2 d) (v ++ [idx])).filter
              (fun z => higher f2 d z x)).length ≤ s.length := by
            have hfnd : ((sortBy (higher f2 d) (v ++ [idx])).filter
                (fun z => higher f2 d z x)).Nodup :=
              hBnodup.sublist (List.filter_sublist _)
            exact (hfnd.subperm hfsub).length_le
          omega
    have hCsorted := sortBy_sorted (higher f2 d) hasym2 htrans2
      (addIfAbsent idx ((sortBy (higher f1 d) (v ++ [idx])).take k.toNat))
    have hfilter_eq : sortBy (higher f2 d)
        (addIfAbsent idx ((sortBy (higher f1 d) (v ++ [idx])).take k.toNat)) =
        (sortBy (higher f2 d) (v ++ [idx])).filter
          (fun z => decide (z ∈ addIfAbsent idx
            ((sortBy (higher f1 d) (v ++ [idx])).take k.toNat))) := by
      have hfnodup : ((sortBy (higher f2 d) (v ++ [idx])).filter
          (fun z => decide (z ∈ addIfAbsent idx
            ((sortBy (higher f1 d) (v ++ [idx])).take k.toNat)))).Nodup :=
        hBnodup.sublist (List.filter_sublist _)
      have hCpm : addIfAbsent idx ((sortBy (higher f1 d) (v ++ [idx])).take k.toNat) ~
          (sortBy (higher f2 d) (v ++ [idx])).filter
            (fun z => decide (z ∈ addIfAbsent idx
              ((sortBy (higher f1 d) (v ++ [idx])).take k.toNat))) := by
        rw [List.perm_ext_iff_of_nodup hCnodup hfnodup]
        intro a
        simp only [List.mem_filter, decide_eq_true_eq]
        constructor
        · intro ha
          exact ⟨hBpm.symm.subset (hCsubS a ha), ha⟩
        · exact fun h => h.2
      refine sorted_unique ((sortBy_perm _ _).trans hCpm) hCsorted
        (hBsorted.sublist (List.filter_sublist _)) ?_
      intro a ha b hb hne
      exact htot2 a (hCsubS a ((sortBy_perm _ _).subset ha))
        b (hCsubS b ((sortBy_perm _ _).subset hb)) hne
    rw [hfilter_eq]
    have hfront := filter_front
      (fun z => decide (z ∈ addIfAbsent idx
        ((sortBy (higher f1 d) (v ++ [idx])).take k.toNat)))
      k.toNat (sortBy (higher f2 d) (v ++ [idx]))
      (fun x hx => by simpa using htake x hx)
    rw [hfront]
    have hBKlen : ((sortBy (higher f2 d) (v ++ [idx])).take k.toNat).length = k.toNat :=
      List.length_take_of_le (by omega)
    unfold trimCache
    by_cases hrest : ((((sortBy (higher f2 d) (v ++ [idx])).take k.toNat ++
        ((sortBy (higher f2 d) (v ++ [idx])).drop k.toNat).filter
          (fun z => decide (z ∈ addIfAbsent idx
            ((sortBy (higher f1 d) (v ++ [idx])).take k.toNat)))).length : Int) > k)
    · rw [if_pos hrest]
      exact List.take_left' hBKlen
    · rw [if_neg hrest]
      have hlen0 : (((sortBy (higher f2 d) (v ++ [idx])).drop k.toNat).filter
          (fun z => decide (z ∈ addIfAbsent idx
            ((sortBy (higher f1 d) (v ++ [idx])).take k.toNat)))).length = 0 := by
        simp only [List.length_append, hBKlen] at hrest
        omega
      rw [List.length_eq_zero.mp hlen0]
      simp

theorem setChild_setChild : ∀ (cs : List (Char × TrieNode)) (c : Char) (t1 t2 : TrieNode),
    setChild (setChild cs c t1) c t2 = setChild cs c t2 := by
  intro cs c t1 t2
  induction cs with
  | nil => simp [setChild]
  | cons hd rest ih =>
    obtain ⟨c', t'⟩ := hd
    by_cases h : c' = c
    · subst h
      simp [setChild]
    · simp [setChild, h, ih]

theorem trieAll_path_free {R : TrieNode → Prop} :
    ∀ {p : List Char} {n : TrieNode}, TrieAll (fun _ m => R m) p n →
      ∀ q, TrieAll (fun _ m => R m) q n := by
  intro p n h
  induction h with
  | node hs hc ih => exact fun q => TrieAll.node hs (fun c t hm => ih c t hm (q ++ [c]))

/-- The per-cache facts needed to commute two maintenance passes for the
same index: duplicate-freedom, the index being absent, and pairwise
distinct texts. -/
def cOk (d : List String) (idx : Nat) (m : TrieNode) : Prop :=
  m.topK.Nodup ∧ idx ∉ m.topK ∧
    (∀ a ∈ m.topK, ∀ b ∈ m.topK, a ≠ b → d.getD a "" ≠ d.getD b "") ∧
    (∀ a ∈ m.topK, d.getD a "" ≠ d.getD idx "")

theorem updT_topK_congr (f : List Int) (d : List String) (k : Int) (i : Nat)
    (w : List Char) (ch : List (Char × TrieNode)) (wi : Int) (t t' : List Nat) :
    updateTopKForWord f d k i w (TrieNode.mk ch wi t') =
      TrieNode.mk (updateTopKForWord f d k i w (TrieNode.mk ch wi t)).children
        (updateTopKForWord f d k i w (TrieNode.mk ch wi t)).wordIndex t' := by
  cases w <;> rfl

theorem updT_compose {f1 f2 : List Int} {d : List String} {k : Int} {idx : Nat}
    (hagree : ∀ j, j ≠ idx → f1.getD j 0 = f2.getD j 0)
    (hmono : f1.getD idx 0 ≤ f2.getD idx 0)
    (hk : 1 ≤ k) :
    ∀ (w : List Char) (n : TrieNode),
      (∀ c t, (c, t) ∈ n.children → TrieAll (fun _ m => cOk d idx m) [] t) →
      updateTopKForWord f2 d k idx w (updateTopKForWord f1 d k idx w n) =
        updateTopKForWord f2 d k idx w n := by
  intro w
  induction w with
  | nil => intro n _; rfl
  | cons c cs ih =>
    intro n hch
    have hcok : cOk d idx ((findChild n.children c).getD TrieNode.empty) := by
      cases hfc : findChild n.children c with
      | none => simp [cOk, TrieNode.empty, TrieNode.topK_mk]
      | some t0 => simpa using (hch c t0 (findChild_mem hfc)).self
    have hsub : ∀ c2 t2, (c2, t2) ∈ ((findChild n.children c).getD TrieNode.empty).children →
        TrieAll (fun _ m => cOk d idx m) [] t2 := by
      intro c2 t2 hm2
      cases hfc : findChild n.children c with
      | none =>
        rw [hfc] at hm2
        simp [TrieNode.empty, TrieNode.children_mk] at hm2
      | some t0 =>
        rw [hfc] at hm2
        exact trieAll_path_free ((hch c t0 (findChild_mem hfc)).child hm2) []
    simp only [updateTopKForWord, TrieNode.children_mk, TrieNode.wordIndex_mk,
      TrieNode.topK_mk, findChild_setChild_same, Option.getD_some]
    rw [setChild_setChild]
    refine congrArg (fun x => TrieNode.mk (setChild n.children c x) n.wordIndex n.topK) ?_
    have hA1t : (updateTopKForWord f1 d k idx cs
        (TrieNode.mk ((findChild n.children c).getD TrieNode.empty).children
          ((findChild n.children c).getD TrieNode.empty).wordIndex
          (cacheStep f1 d k idx ((findChild n.children c).getD TrieNode.empty).topK))).topK =
        cacheStep f1 d k idx ((findChild n.children c).getD TrieNode.empty).topK := by
      rw [updT_topK]
      exact TrieNode.topK_mk _ _ _
    rw [hA1t,
      cacheStep_compose hagree hmono hk hcok.1 hcok.2.1 hcok.2.2.1 hcok.2.2.2]
    rw [updT_topK_congr f2 d k idx cs
      (updateTopKForWord f1 d k idx cs
        (TrieNode.mk ((findChild n.children c).getD TrieNode.empty).children
          ((findChild n.children c).getD TrieNode.empty).wordIndex
          (cacheStep f1 d k idx ((findChild n.children c).getD TrieNode.empty).topK))).children
      (updateTopKForWord f1 d k idx cs
        (TrieNode.mk ((findChild n.children c).getD TrieNode.empty).children
          ((findChild n.children c).getD TrieNode.empty).wordIndex
          (cacheStep f1 d k idx ((findChild n.children c).getD TrieNode.empty).topK))).wordIndex
      (updateTopKForWord f1 d k idx cs
        (TrieNode.mk ((findChild n.children c).getD TrieNode.empty).children
          ((findChild n.children c).getD TrieNode.empty).wordIndex
          (cacheStep f1 d k idx ((findChild n.children c).getD TrieNode.empty).topK))).topK
      (cacheStep f2 d k idx ((findChild n.children c).getD TrieNode.empty).topK)]
    rw [TrieNode.eta]
    rw [ih (TrieNode.mk ((findChild n.children c).getD TrieNode.empty).children
          ((findChild n.children c).getD TrieNode.empty).wordIndex
          (cacheStep f1 d k idx ((findChild n.children c).getD TrieNode.empty).topK))
      (by
        intro c2 t2 hm2
        simp only [TrieNode.children_mk] at hm2
        exact hsub c2 t2 hm2)]
    rw [updT_topK_congr f2 d k idx cs
      ((findChild n.children c).getD TrieNode.empty).children
      ((findChild n.children c).getD TrieNode.empty).wordIndex
      (cacheStep f1 d k idx ((findChild n.children c).getD TrieNode.empty).topK)
      (cacheStep f2 d k idx ((findChild n.children c).getD TrieNode.empty).topK)]

theorem assocFind_append_none {l : List (String × Nat)} {x : String}
    (h : assocFind l x = none) (l2 : List (String × Nat)) :
    assocFind (l ++ l2) x = assocFind l2 x := by
  induction l with
  | nil => rfl
  | cons hd rest ih =>
    obtain ⟨w, i⟩ := hd
    rw [List.cons_append]
    simp only [assocFind] at h ⊢
    by_cases hw : w = x
    · rw [if_pos hw] at h
      exact Option.noConfusion h
    · rw [if_neg hw] at h ⊢
      exact ih h

/-- C6: inserting a previously-unknown text twice with deltas d1 then d2
(d2 nonnegative) produces exactly the state of a single insert with delta
d1 + d2, and the stored frequency is d1 + d2. -/
theorem c6_idempotent_reinsert (e : Engine) (text : String) (d1 d2 : Int)
    (hR : Reachable e) (hnew : assocFind e.wordToIndex text = none)
    (ht : text ≠ "") (hd2 : 0 ≤ d2) :
    (e.insert text d1).insert text d2 = e.insert text (d1 + d2) ∧
    ((e.insert text d1).insert text d2).freqs.getD e.dict.length 0 = d1 + d2 := by
  have hI := Inv.of_reachable hR
  have hg0 : (e.freqs ++ [0]).getD e.dict.length 0 = 0 := by
    rw [← hI.flen]
    exact getD_append_len e.freqs 0 0
  have hlenb : e.dict.length < (e.freqs ++ [0]).length := by
    rw [List.length_append, hI.flen]
    simp
  have hins : ∀ fq : Int, e.insert text fq =
      { root := updateTopKForWord ((e.freqs ++ [0]).set e.dict.length fq)
          (e.dict ++ [text]) e.perNodeK e.dict.length text.data e.root
        perNodeK := e.perNodeK
        dict := e.dict ++ [text]
        freqs := (e.freqs ++ [0]).set e.dict.length fq
        wordSeen := (e.wordSeen ++ [false]).set e.dict.length true
        wordToIndex := e.wordToIndex ++ [(text, e.dict.length)] } := by
    intro fq
    rw [insert_eq_new fq ht hnew]
    simp only [hg0, zero_add]
  have hfind1 : assocFind (e.wordToIndex ++ [(text, e.dict.length)]) text =
      some e.dict.length := by
    rw [assocFind_append_none hnew]
    simp [assocFind]
  have hg1 : ((e.freqs ++ [0]).set e.dict.length d1).getD e.dict.length 0 = d1 :=
    getD_set_self _ _ _ _ hlenb
  have hfreqs : ((e.freqs ++ [0]).set e.dict.length d1).set e.dict.length (d1 + d2) =
      (e.freqs ++ [0]).set e.dict.length (d1 + d2) :=
    List.set_set d1 (d1 + d2) (e.freqs ++ [0]) e.dict.length
  have hseen : ((e.wordSeen ++ [false]).set e.dict.length true).set e.dict.length true =
      (e.wordSeen ++ [false]).set e.dict.length true :=
    List.set_set true true (e.wordSeen ++ [false]) e.dict.length
  have hroot : updateTopKForWord ((e.freqs ++ [0]).set e.dict.length (d1 + d2))
        (e.dict ++ [text]) e.perNodeK e.dict.length text.data
        (updateTopKForWord ((e.freqs ++ [0]).set e.dict.length d1)
          (e.dict ++ [text]) e.perNodeK e.dict.length text.data e.root) =
      updateTopKForWord ((e.freqs ++ [0]).set e.dict.length (d1 + d2))
        (e.dict ++ [text]) e.perNodeK e.dict.length text.data e.root := by
    refine updT_compose (fun j hj => ?_) ?_ hI.kpos text.data e.root ?_
    · rw [getD_set_other _ _ _ (Ne.symm hj), getD_set_other _ _ _ (Ne.symm hj)]
    · rw [getD_set_self _ _ _ _ hlenb, getD_set_self _ _ _ _ hlenb]
      omega
    · have himp : TrieAll (fun _ m => cOk (e.dict ++ [text]) e.dict.length m) [] e.root := by
        refine TrieAll.imp ?_ hI.trie
        intro p n hok
        refine ⟨hok.nodup, ?_, ?_, ?_⟩
        · intro hmem
          exact absurd (hok.mem_lt _ hmem) (lt_irrefl _)
        · intro a ha b hb hne hEq
          rw [getD_append_lt _ _ _ _ (hok.mem_lt a ha),
            getD_append_lt _ _ _ _ (hok.mem_lt b hb)] at hEq
          exact hne (getD_inj hI.dnodup (hok.mem_lt a ha) (hok.mem_lt b hb) hEq)
        · intro a ha hEq
          rw [getD_append_lt _ _ _ _ (hok.mem_lt a ha), getD_append_len] at hEq
          have hmem := getD_mem_of_lt (hok.mem_lt a ha)
          rw [hEq] at hmem
          exact (hI.lookup_none hnew) hmem
      intro c t hm
      exact trieAll_path_free (himp.child hm) []
  constructor
  · rw [hins d1, insert_eq_known d2 ht hfind1, hins (d1 + d2)]
    dsimp only
    rw [hg1, hfreqs, hseen, hroot]
  · rw [hins d1, insert_eq_known d2 ht hfind1]
    dsimp only
    rw [hg1, hfreqs]
    exact getD_set_self _ _ _ _ hlenb

/-- C6 counterexample: for the previously-unknown text "aa" over the state
holding "ab" with frequency 5 and capacity 1, inserting with deltas 10 then
-8 does not yield the state of a single insert with delta 10 + (-8) = 2:
the intermediate trim evicts "ab" from the cache of the node for "a", and
the second pass cannot restore it, so getTopK "a" answers [("aa", 2)]
instead of [("ab", 5)]. -/
theorem c6_counterexample :
    ((((mkEngine 1).insert "ab" 5).insert "aa" 10).insert "aa" (-8)) ≠
      (((mkEngine 1).insert "ab" 5).insert "aa" (10 + -8)) := by
  intro h
  have h2 := congrArg (fun e => e.getTopK "a" 5) h
  simp only at h2
  exact absurd h2 (by decide)

theorem c6_witness :
    Reachable (mkEngine 1) ∧ assocFind (mkEngine 1).wordToIndex "aa" = none ∧
    "aa" ≠ "" ∧ (0 : Int) ≤ 3 ∧
    (((mkEngine 1).insert "aa" 2).insert "aa" 3 = (mkEngine 1).insert "aa" (2 + 3) ∧
      (((mkEngine 1).insert "aa" 2).insert "aa" 3).freqs.getD (mkEngine 1).dict.length 0 =
        2 + 3) :=
  ⟨Reachable.init 1 (by decide), rfl, by decide, by decide,
    c6_idempotent_reinsert (mkEngine 1) "aa" 2 3 (Reachable.init 1 (by decide)) rfl
      (by decide) (by decide)⟩

/-! ### Serialization: fout << dict[id] << " " << freqs[id] << "\n" -/

/-- The character for one decimal digit value (saturating at 9, which the
formatter never reaches). -/
def digitChar : Nat → Char
  | 0 => '0'
  | 1 => '1'
  | 2 => '2'
  | 3 => '3'
  | 4 => '4'
  | 5 => '5'
  | 6 => '6'
  | 7 => '7'
  | 8 => '8'
  | _ => '9'

/-- Decimal digits of a natural number, most significant first, as the
stream formatter writes them. -/
def natDigits (n : Nat) : List Char :=
  if n < 10 then [digitChar n] else natDigits (n / 10) ++ [digitChar (n % 10)]
termination_by n
decreasing_by
  have : 10 ≤ n := Nat.le_of_not_lt (by assumption)
  omega

/-- operator<< for long long: optional minus sign then decimal digits. -/
def intChars (i : Int) : List Char :=
  if i < 0 then '-' :: natDigits (-i).toNat else natDigits i.toNat

/-- One line of saveToFile: text, one space, decimal frequency, newline. -/
def recordChars (w : String) (f : Int) : List Char :=
  w.data ++ ' ' :: (intChars f ++ ['\n'])

/-- The full character stream saveToFile writes. -/
def saveChars (e : Engine) : List Char :=
  (e.saveRecords.map (fun pr => recordChars pr.1 pr.2)).flatten

theorem digitChar_spec (m : Nat) : (digitChar m).isDigit = true ∧
    isWSChar (digitChar m) = false ∧ digitChar m ≠ '-' ∧ digitChar m ≠ '+' := by
  match m with
  | 0 => decide
  | 1 => decide
  | 2 => decide
  | 3 => decide
  | 4 => decide
  | 5 => decide
  | 6 => decide
  | 7 => decide
  | 8 => decide
  | n + 9 =>
    rw [show digitChar (n + 9) = '9' from rfl]
    decide

theorem digitChar_toNat : ∀ m < 10, (digitChar m).toNat - 48 = m := by decide

theorem natDigits_small {n : Nat} (h : n < 10) : natDigits n = [digitChar n] := by
  unfold natDigits
  rw [if_pos h]

theorem natDigits_big {n : Nat} (h : ¬ n < 10) :
    natDigits n = natDigits (n / 10) ++ [digitChar (n % 10)] := by
  conv_lhs => unfold natDigits
  rw [if_neg h]

theorem natDigits_ne_nil (n : Nat) : natDigits n ≠ [] := by
  by_cases h : n < 10
  · rw [natDigits_small h]
    simp
  · rw [natDigits_big h]
    simp

theorem natDigits_all_digit : ∀ (n : Nat), ∀ c ∈ natDigits n, c.isDigit = true := by
  intro n
  induction n using Nat.strong_induction_on with
  | _ n ih =>
    by_cases h : n < 10
    · rw [natDigits_small h]
      intro c hc
      rw [List.mem_singleton.mp hc]
      exact (digitChar_spec n).1
    · rw [natDigits_big h]
      intro c hc
      rcases List.mem_append.mp hc with hc | hc
      · exact ih (n / 10) (by omega) c hc
      · rw [List.mem_singleton.mp hc]
        exact (digitChar_spec (n % 10)).1

theorem digitsVal_append (l : List Char) (c : Char) :
    digitsVal (l ++ [c]) = 10 * digitsVal l + (c.toNat - 48) := by
  unfold digitsVal
  rw [List.foldl_append]
  rfl

theorem digitsVal_natDigits : ∀ (n : Nat), digitsVal (natDigits n) = n := by
  intro n
  induction n using Nat.strong_induction_on with
  | _ n ih =>
    by_cases h : n < 10
    · rw [natDigits_small h]
      unfold digitsVal
      simp only [List.foldl_cons, List.foldl_nil]
      rw [Nat.mul_zero, Nat.zero_add, digitChar_toNat n h]
    · rw [natDigits_big h, digitsVal_append, ih (n / 10) (by omega),
        digitChar_toNat (n % 10) (by omega)]
      omega

theorem takeWhile_append_all {p : Char → Bool} :
    ∀ (l : List Char) (b : Char) (t : List Char), (∀ c ∈ l, p c = true) → p b = false →
      (l ++ b :: t).takeWhile p = l ∧ (l ++ b :: t).dropWhile p = b :: t := by
  intro l
  induction l with
  | nil =>
    intro b t _ hb
    simp [List.takeWhile_cons, List.dropWhile_cons, hb]
  | cons a l2 ih =>
    intro b t hl hb
    have ha : p a = true := hl a (by simp)
    have hrest := ih b t (fun c hc => hl c (by simp [hc])) hb
    simp only [List.cons_append, List.takeWhile_cons, List.dropWhile_cons, ha, if_true]
    exact ⟨by rw [hrest.1], by rw [hrest.2]⟩


theorem isWSChar_of_digit {c : Char} (h : c.isDigit = true) : isWSChar c = false := by
  have h1 : c ≠ ' ' := by intro he; rw [he] at h; exact absurd h (by decide)
  have h2 : c ≠ '\t' := by intro he; rw [he] at h; exact absurd h (by decide)
  have h3 : c ≠ '\n' := by intro he; rw [he] at h; exact absurd h (by decide)
  have h4 : c ≠ '\x0b' := by intro he; rw [he] at h; exact absurd h (by decide)
  have h5 : c ≠ '\x0c' := by intro he; rw [he] at h; exact absurd h (by decide)
  have h6 : c ≠ '\r' := by intro he; rw [he] at h; exact absurd h (by decide)
  unfold isWSChar
  simp [h1, h2, h3, h4, h5, h6]


theorem extractToken_record {w : String} (hw : w.data ≠ [])
    (hws : ∀ c ∈ w.data, isWSChar c = false) (r : List Char) :
    extractToken (w.data ++ ' ' :: r) = some (w, ' ' :: r) := by
  have hd : ∃ c0 cs, w.data = c0 :: cs := by
    cases hq : w.data with
    | nil => exact absurd hq hw
    | cons c0 cs => exact ⟨c0, cs, rfl⟩
  obtain ⟨c0, cs, hd⟩ := hd
  have hc0 : isWSChar c0 = false := hws c0 (by rw [hd]; simp)
  have hall : ∀ c ∈ w.data, (fun c => !isWSChar c) c = true := by
    intro c hc
    simp [hws c hc]
  have htd := takeWhile_append_all w.data ' ' r hall (by decide)
  have hdw : (w.data ++ ' ' :: r).dropWhile isWSChar = w.data ++ ' ' :: r := by
    rw [hd, List.cons_append, List.dropWhile_cons]
    simp [hc0]
  unfold extractToken
  simp only [hdw, htd.1, htd.2]
  rw [if_neg (show ¬((w.data ++ ' ' :: r).isEmpty = true) from by rw [hd]; simp)]

theorem extractInt_neg {s rest : List Char}
    (h : s.dropWhile isWSChar = '-' :: rest)
    (hds : (rest.takeWhile Char.isDigit).isEmpty = false) :
    extractInt s = some (-(digitsVal (rest.takeWhile Char.isDigit) : Int),
      rest.dropWhile Char.isDigit) := by
  unfold extractInt
  rw [h]
  simp [hds]

theorem extractInt_digit {s rest : List Char} {a : Char}
    (h : s.dropWhile isWSChar = a :: rest) (ha1 : a ≠ '-') (ha2 : a ≠ '+')
    (hds : (((a :: rest).takeWhile Char.isDigit)).isEmpty = false) :
    extractInt s = some ((digitsVal ((a :: rest).takeWhile Char.isDigit) : Int),
      (a :: rest).dropWhile Char.isDigit) := by
  unfold extractInt
  rw [h]
  simp [ha1, ha2, hds]

theorem extractInt_record (f : Int) (t : List Char) :
    extractInt (' ' :: (intChars f ++ '\n' :: t)) = some (f, '\n' :: t) := by
  have hnl : Char.isDigit '\n' = false := by decide
  have hstep : (' ' :: (intChars f ++ '\n' :: t)).dropWhile isWSChar =
      intChars f ++ '\n' :: t := by
    rw [List.dropWhile_cons]
    simp only [show isWSChar ' ' = true from by decide, if_true]
    by_cases hf : f < 0
    · simp only [intChars, hf, if_true, List.cons_append, List.dropWhile_cons]
      simp [show isWSChar '-' = false from by decide]
    · simp only [intChars, hf, if_false]
      cases hnd : natDigits f.toNat with
      | nil => exact absurd hnd (natDigits_ne_nil _)
      | cons a ds =>
        have ha : isWSChar a = false :=
          isWSChar_of_digit (natDigits_all_digit _ a (by rw [hnd]; simp))
        rw [List.cons_append, List.dropWhile_cons]
        simp [ha]
  by_cases hf : f < 0
  · have hic : intChars f = '-' :: natDigits (-f).toNat := by
      simp [intChars, hf]
    have htd := takeWhile_append_all (natDigits (-f).toNat) '\n' t
      (natDigits_all_digit _) hnl
    rw [hic] at hstep
    rw [List.cons_append] at hstep
    rw [hic, List.cons_append]
    rw [extractInt_neg hstep (by rw [htd.1]; simpa using natDigits_ne_nil (-f).toNat)]
    rw [htd.1, htd.2, digitsVal_natDigits]
    have hcast : (((-f).toNat : Nat) : Int) = -f := Int.toNat_of_nonneg (by omega)
    rw [hcast]
    simp
  · have hic : intChars f = natDigits f.toNat := by
      simp [intChars, hf]
    cases hnd : natDigits f.toNat with
    | nil => exact absurd hnd (natDigits_ne_nil _)
    | cons a ds =>
      have hadigit : a.isDigit = true := natDigits_all_digit f.toNat a (by rw [hnd]; simp)
      have ha1 : a ≠ '-' := by
        intro he
        rw [he] at hadigit
        exact absurd hadigit (by decide)
      have ha2 : a ≠ '+' := by
        intro he
        rw [he] at hadigit
        exact absurd hadigit (by decide)
      have htd := takeWhile_append_all (natDigits f.toNat) '\n' t
        (natDigits_all_digit _) hnl
      rw [hic, hnd, List.cons_append] at hstep
      rw [hnd, List.cons_append] at htd
      rw [hic, hnd, List.cons_append]
      rw [extractInt_digit hstep ha1 ha2 (by rw [htd.1]; simp)]
      rw [htd.1, htd.2]
      rw [show a :: ds = natDigits f.toNat from hnd.symm, digitsVal_natDigits]
      have hcast : ((f.toNat : Nat) : Int) = f := Int.toNat_of_nonneg (by omega)
      rw [hcast]

theorem extractToken_cons_ws {c : Char} (hc : isWSChar c = true) (t : List Char) :
    extractToken (c :: t) = extractToken t := by
  unfold extractToken
  rw [List.dropWhile_cons, if_pos hc]

theorem parsePairs_cons_ws {c : Char} (hc : isWSChar c = true) (t : List Char) :
    parsePairs (c :: t) = parsePairs t := by
  cases ht : extractToken t with
  | none =>
    rw [parsePairs_none ((extractToken_cons_ws hc t).trans ht), parsePairs_none ht]
  | some p =>
    obtain ⟨w, s1⟩ := p
    cases hi : extractInt s1 with
    | none =>
      rw [parsePairs_noint ((extractToken_cons_ws hc t).trans ht) hi,
        parsePairs_noint ht hi]
    | some q =>
      obtain ⟨fq, s2⟩ := q
      rw [parsePairs_step ((extractToken_cons_ws hc t).trans ht) hi,
        parsePairs_step ht hi]

theorem parsePairs_record {w : String} (f : Int) (tail : List Char)
    (hw : w.data ≠ []) (hws : ∀ c ∈ w.data, isWSChar c = false) :
    parsePairs (recordChars w f ++ tail) = (w, f) :: parsePairs tail := by
  have hshape : recordChars w f ++ tail = w.data ++ ' ' :: (intChars f ++ '\n' :: tail) := by
    unfold recordChars
    simp
  rw [hshape]
  rw [parsePairs_step (extractToken_record hw hws (intChars f ++ '\n' :: tail))
    (extractInt_record f tail)]
  rw [parsePairs_cons_ws (by decide) tail]

theorem parsePairs_records : ∀ (recs : List (String × Int)),
    (∀ pr ∈ recs, pr.1.data ≠ [] ∧ ∀ c ∈ pr.1.data, isWSChar c = false) →
    parsePairs ((recs.map (fun pr => recordChars pr.1 pr.2)).flatten) = recs := by
  intro recs
  induction recs with
  | nil =>
    intro _
    exact parsePairs_none rfl
  | cons pr rest ih =>
    intro hp
    obtain ⟨w, f⟩ := pr
    have hw := hp (w, f) (by simp)
    simp only [List.map_cons, List.flatten_cons]
    rw [parsePairs_record f _ hw.1 hw.2]
    rw [ih (fun q hq => hp q (by simp [hq]))]

theorem assocFind_none_of {x : String} :
    ∀ (l : List (String × Nat)), (∀ pr ∈ l, pr.1 ≠ x) → assocFind l x = none := by
  intro l
  induction l with
  | nil => intro _; rfl
  | cons hd rest ih =>
    intro hp
    obtain ⟨w, i⟩ := hd
    simp only [assocFind]
    rw [if_neg (hp (w, i) (by simp))]
    exact ih (fun q hq => hp q (by simp [hq]))

theorem lookup_none_of_not_mem {e : Engine} (hI : Inv e) {w : String} (h : w ∉ e.dict) :
    assocFind e.wordToIndex w = none := by
  rw [hI.w2i]
  refine assocFind_none_of _ ?_
  intro pr hpr
  obtain ⟨i, hi, hpr2⟩ := List.mem_map.mp hpr
  intro he
  apply h
  rw [← he, ← hpr2]
  exact getD_mem_of_lt (List.mem_range.mp hi)

theorem set_append_len {α : Type} : ∀ (l : List α) (a v : α),
    (l ++ [a]).set l.length v = l ++ [v] := by
  intro l
  induction l with
  | nil => intro a v; rfl
  | cons b rest ih =>
    intro a v
    simp only [List.cons_append, List.length_cons, List.set_cons_succ]
    rw [ih a v]

theorem load_fold_build : ∀ (recs : List (String × Int)) (e : Engine),
    Inv e → (List.map Prod.fst recs).Nodup →
    (∀ pr ∈ recs, pr.1 ∉ e.dict) →
    (recs.foldl (fun acc pr => acc.loadRecord pr.1 pr.2) e).dict
        = e.dict ++ recs.map Prod.fst ∧
    (recs.foldl (fun acc pr => acc.loadRecord pr.1 pr.2) e).freqs
        = e.freqs ++ recs.map Prod.snd ∧
    (recs.foldl (fun acc pr => acc.loadRecord pr.1 pr.2) e).wordSeen
        = e.wordSeen ++ recs.map (fun _ => true) := by
  intro recs
  induction recs with
  | nil =>
    intro e _ _ _
    simp
  | cons pr rest ih =>
    intro e hI hnd hfresh
    obtain ⟨w, f⟩ := pr
    have hfind : assocFind e.wordToIndex w = none :=
      lookup_none_of_not_mem hI (hfresh (w, f) (by simp))
    have hflen : e.freqs.length = e.dict.length := hI.flen
    have hslen : e.wordSeen.length = e.dict.length := hI.slen
    have he1 : e.loadRecord w f =
        { root := updateTopKForWord (e.freqs ++ [f]) (e.dict ++ [w]) e.perNodeK
            e.dict.length w.data (insertPath e.root w.data e.dict.length)
          perNodeK := e.perNodeK
          dict := e.dict ++ [w]
          freqs := e.freqs ++ [f]
          wordSeen := e.wordSeen ++ [true]
          wordToIndex := e.wordToIndex ++ [(w, e.dict.length)] } := by
      rw [loadRecord_eq_new f hfind]
      have h1 : (e.freqs ++ [0]).set e.dict.length f = e.freqs ++ [f] := by
        rw [← hflen]
        exact set_append_len e.freqs 0 f
      have h2 : (e.wordSeen ++ [false]).set e.dict.length true = e.wordSeen ++ [true] := by
        rw [← hslen]
        exact set_append_len e.wordSeen false true
      simp only [h1, h2]
    have hI1 : Inv (e.loadRecord w f) := hI.loadRecordOp w f
    have hnd1 : (List.map Prod.fst rest).Nodup := hnd.of_cons
    have hw_rest : ∀ q ∈ rest, q.1 ≠ w := by
      intro q hq he
      have : w ∈ List.map Prod.fst rest := by
        rw [← he]
        exact List.mem_map_of_mem _ hq
      exact (List.nodup_cons.mp hnd).1 this
    have hfresh1 : ∀ q ∈ rest, q.1 ∉ (e.loadRecord w f).dict := by
      intro q hq
      rw [he1]
      intro hmem
      rcases List.mem_append.mp hmem with h | h
      · exact hfresh q (by simp [hq]) h
      · exact hw_rest q hq (List.mem_singleton.mp h)
    have hrest := ih (e.loadRecord w f) hI1 hnd1 hfresh1
    simp only [List.foldl_cons] at *
    refine ⟨?_, ?_, ?_⟩
    · rw [hrest.1, he1]
      simp
    · rw [hrest.2.1, he1]
      simp
    · rw [hrest.2.2, he1]
      simp

theorem filterMap_if_eq_map_filter {g : Nat → Bool} {h : Nat → String × Int} :
    ∀ l : List Nat,
      l.filterMap (fun i => if g i then some (h i) else none) = (l.filter g).map h := by
  intro l
  induction l with
  | nil => rfl
  | cons a rest ih =>
    by_cases ha : g a
    · simp only [List.filterMap_cons, List.filter_cons, ha, if_true, List.map_cons]
      rw [ih]
    · simp only [List.filterMap_cons, List.filter_cons, ha, if_false, Bool.false_eq_true]
      rw [ih]

theorem saveRecords_perm_knownPairs (e : Engine) : e.saveRecords ~ e.knownPairs := by
  unfold Engine.saveRecords Engine.knownPairs
  rw [filterMap_if_eq_map_filter]
  exact (sortBy_perm _ _).map _

theorem knownPairs_list : ∀ (recs : List (String × Int)),
    (List.range (recs.map Prod.fst).length).filterMap
      (fun i => if (recs.map (fun _ => true)).getD i false then
        some ((recs.map Prod.fst).getD i "", (recs.map Prod.snd).getD i 0) else none)
      = recs := by
  intro recs
  induction recs with
  | nil => simp
  | cons pr rest ih =>
    obtain ⟨w, f⟩ := pr
    simp only [List.map_cons, List.length_cons, List.range_succ_eq_map,
      List.filterMap_cons, List.getD_cons_zero, if_true, List.filterMap_map]
    refine congrArg (List.cons (w, f)) ?_
    have hfun : ∀ i : Nat,
        ((fun i => if (true :: rest.map (fun _ => true)).getD i false then
          some ((w :: rest.map Prod.fst).getD i "",
            (f :: rest.map Prod.snd).getD i 0) else none) ∘ Nat.succ) i =
        (fun i => if (rest.map (fun _ => true)).getD i false then
          some ((rest.map Prod.fst).getD i "", (rest.map Prod.snd).getD i 0) else none) i := by
      intro i
      simp [List.getD_cons_succ]
    rw [List.filterMap_congr (fun i _ => hfun i)]
    exact ih

theorem knownPairs_build {recs : List (String × Int)} {e2 : Engine}
    (hd : e2.dict = recs.map Prod.fst) (hf : e2.freqs = recs.map Prod.snd)
    (hs : e2.wordSeen = recs.map (fun _ => true)) : e2.knownPairs = recs := by
  unfold Engine.knownPairs
  rw [hd, hf, hs]
  exact knownPairs_list recs

/-- The comparator the save path sorts records by: text ascending. -/
def pairLt (a b : String × Int) : Bool := charsLt a.1.data b.1.data

theorem sorted_unique_pairs {lt : (String × Int) → (String × Int) → Bool} :
    ∀ {l₁ l₂ : List (String × Int)}, l₁ ~ l₂ →
    l₁.Pairwise (fun a b => lt b a = false) → l₂.Pairwise (fun a b => lt b a = false) →
    (∀ a ∈ l₁, ∀ b ∈ l₁, a ≠ b → lt a b = true ∨ lt b a = true) → l₁ = l₂ := by
  intro l₁
  induction l₁ with
  | nil => intro l₂ hp _ _ _; simpa using hp.symm.eq_nil
  | cons a t₁ ih =>
    intro l₂ hp hs₁ hs₂ htot
    cases l₂ with
    | nil => simpa using hp.eq_nil
    | cons b t₂ =>
      by_cases hab : a = b
      · subst hab
        have ht : t₁ ~ t₂ := (List.perm_cons a).mp hp
        have := ih ht (List.pairwise_cons.mp hs₁).2 (List.pairwise_cons.mp hs₂).2
          (fun x hx y hy hxy =>
            htot x (List.mem_cons_of_mem a hx) y (List.mem_cons_of_mem a hy) hxy)
        rw [this]
      · exfalso
        have hain : a ∈ b :: t₂ := hp.subset (List.mem_cons_self a t₁)
        have hbin : b ∈ a :: t₁ := hp.symm.subset (List.mem_cons_self b t₂)
        have hat₂ : a ∈ t₂ := by
          rcases List.mem_cons.mp hain with h | h
          · exact absurd h hab
          · exact h
        have hbt₁ : b ∈ t₁ := by
          rcases List.mem_cons.mp hbin with h | h
          · exact absurd h.symm hab
          · exact h
        have h1 : lt b a = false := (List.pairwise_cons.mp hs₁).1 b hbt₁
        have h2 : lt a b = false := (List.pairwise_cons.mp hs₂).1 a hat₂
        rcases htot a (List.mem_cons_self a t₁) b hbin hab with h | h
        · rw [h] at h2; exact absurd h2 (by simp)
        · rw [h] at h1; exact absurd h1 (by simp)

theorem saveRecords_sorted (e : Engine) :
    e.saveRecords.Pairwise (fun a b => pairLt b a = false) := by
  unfold Engine.saveRecords
  refine List.pairwise_map.mpr ?_
  have hs := sortBy_sorted
    (fun a b => charsLt (e.dict.getD a "").data (e.dict.getD b "").data)
    (fun a b h => charsLt_asymm h) (fun a b c h1 h2 => charsLt_trans h1 h2)
    ((List.range e.dict.length).filter (fun i => e.wordSeen.getD i false))
  exact hs

theorem saveRecords_mem_lt {e : Engine} {pr : String × Int} (h : pr ∈ e.saveRecords) :
    ∃ j < e.dict.length, e.wordSeen.getD j false = true ∧
      pr = (e.dict.getD j "", e.freqs.getD j 0) := by
  unfold Engine.saveRecords at h
  obtain ⟨j, hj, hpr⟩ := List.mem_map.mp h
  have hj2 := (sortBy_perm _ _).subset hj
  have hj3 := List.mem_filter.mp hj2
  exact ⟨j, List.mem_range.mp hj3.1, hj3.2, hpr.symm⟩

theorem saveRecords_texts_nodup {e : Engine} (hI : Inv e) :
    (e.saveRecords.map Prod.fst).Nodup := by
  unfold Engine.saveRecords
  rw [List.map_map]
  have hidx : ((sortBy (fun a b => charsLt (e.dict.getD a "").data (e.dict.getD b "").data)
      ((List.range e.dict.length).filter (fun i => e.wordSeen.getD i false)))).Nodup :=
    (sortBy_perm _ _).nodup_iff.mpr ((List.nodup_range e.dict.length).filter _)
  refine hidx.map_on ?_
  intro a ha b hb hfab
  have ha2 := List.mem_range.mp (List.mem_filter.mp ((sortBy_perm _ _).subset ha)).1
  have hb2 := List.mem_range.mp (List.mem_filter.mp ((sortBy_perm _ _).subset hb)).1
  exact getD_inj hI.dnodup ha2 hb2 hfab

theorem saveRecords_total {e : Engine} (hI : Inv e) :
    ∀ a ∈ e.saveRecords, ∀ b ∈ e.saveRecords, a ≠ b →
      pairLt a b = true ∨ pairLt b a = true := by
  intro a ha b hb hne
  have htne : a.1 ≠ b.1 := by
    intro he
    exact hne (List.inj_on_of_nodup_map (saveRecords_texts_nodup hI) ha hb he)
  have hdne : a.1.data ≠ b.1.data := fun h => htne (stringData_inj h)
  exact charsLt_total_of_ne hdne

/-- C7: over any reachable state whose stored texts are nonempty and
whitespace-free (the format the spec stipulates), saving and re-loading
into a fresh engine reproduces exactly the known (text, frequency) pairs
up to order; any two states with the same known pairs (in any order)
save identical bytes; and terms with known = false never appear in the
saved records. -/
theorem c7_round_trip (e : Engine) (K : Int) (hR : Reachable e) (hK : 1 ≤ K)
    (htexts : ∀ w ∈ e.dict, w.data ≠ [] ∧ ∀ c ∈ w.data, isWSChar c = false) :
    (loadChars (mkEngine K) (saveChars e)).knownPairs ~ e.knownPairs ∧
    (∀ e2 : Engine, Reachable e2 → e2.knownPairs ~ e.knownPairs →
      saveChars e2 = saveChars e) ∧
    (∀ i < e.dict.length, e.wordSeen.getD i false = false →
      ∀ f : Int, (e.dict.getD i "", f) ∉ e.saveRecords) := by
  have hI := Inv.of_reachable hR
  have hrecs : ∀ pr ∈ e.saveRecords, pr.1.data ≠ [] ∧
      ∀ c ∈ pr.1.data, isWSChar c = false := by
    intro pr hpr
    obtain ⟨j, hj, _, hpr2⟩ := saveRecords_mem_lt hpr
    have hmem : pr.1 ∈ e.dict := by
      rw [hpr2]
      exact getD_mem_of_lt hj
    exact htexts pr.1 hmem
  have hparse : parsePairs (saveChars e) = e.saveRecords :=
    parsePairs_records e.saveRecords hrecs
  have hload : loadChars (mkEngine K) (saveChars e) =
      e.saveRecords.foldl (fun acc pr => acc.loadRecord pr.1 pr.2) (mkEngine K) := by
    rw [loadChars_foldAux (saveChars e).length (saveChars e) le_rfl (mkEngine K), hparse]
  have hIK : Inv (mkEngine K) := Inv.mkEngineOp hK
  have hfresh : ∀ pr ∈ e.saveRecords, pr.1 ∉ (mkEngine K).dict := by
    intro pr _
    exact List.not_mem_nil _
  have hbuild := load_fold_build e.saveRecords (mkEngine K) hIK
    (saveRecords_texts_nodup hI) hfresh
  have hkp : (loadChars (mkEngine K) (saveChars e)).knownPairs = e.saveRecords := by
    rw [hload]
    refine knownPairs_build ?_ ?_ ?_
    · exact hbuild.1.trans (by simp [mkEngine])
    · exact hbuild.2.1.trans (by simp [mkEngine])
    · exact hbuild.2.2.trans (by simp [mkEngine])
  refine ⟨?_, ?_, ?_⟩
  · rw [hkp]
    exact saveRecords_perm_knownPairs e
  · intro e2 hR2 hperm
    have hI2 := Inv.of_reachable hR2
    have hrecseq : e2.saveRecords = e.saveRecords := by
      refine sorted_unique_pairs ?_ (saveRecords_sorted e2) (saveRecords_sorted e)
        (saveRecords_total hI2)
      exact (saveRecords_perm_knownPairs e2).trans
        (hperm.trans (saveRecords_perm_knownPairs e).symm)
    unfold saveChars
    rw [hrecseq]
  · intro i hi hunseen f hmem
    obtain ⟨j, hj, hseen, hpr2⟩ := saveRecords_mem_lt hmem
    have heq : e.dict.getD i "" = e.dict.getD j "" := congrArg Prod.fst hpr2
    have hij := getD_inj hI.dnodup hi hj heq
    rw [← hij] at hseen
    rw [hunseen] at hseen
    exact Bool.noConfusion hseen

theorem c7_witness :
    Reachable (((mkEngine 1).insert "b" 2).insert "a" 7) ∧ (1 : Int) ≤ 1 ∧
    (∀ w ∈ (((mkEngine 1).insert "b" 2).insert "a" 7).dict,
      w.data ≠ [] ∧ ∀ c ∈ w.data, isWSChar c = false) ∧
    ((loadChars (mkEngine 1) (saveChars (((mkEngine 1).insert "b" 2).insert "a" 7))).knownPairs
        ~ (((mkEngine 1).insert "b" 2).insert "a" 7).knownPairs ∧
      (∀ e2 : Engine, Reachable e2 →
        e2.knownPairs ~ (((mkEngine 1).insert "b" 2).insert "a" 7).knownPairs →
        saveChars e2 = saveChars (((mkEngine 1).insert "b" 2).insert "a" 7)) ∧
      (∀ i < (((mkEngine 1).insert "b" 2).insert "a" 7).dict.length,
        (((mkEngine 1).insert "b" 2).insert "a" 7).wordSeen.getD i false = false →
        ∀ f : Int, ((((mkEngine 1).insert "b" 2).insert "a" 7).dict.getD i "", f) ∉
          (((mkEngine 1).insert "b" 2).insert "a" 7).saveRecords)) :=
  ⟨Reachable.insert "a" 7 (Reachable.insert "b" 2 (Reachable.init 1 (by decide))),
   by decide, by decide,
   c7_round_trip (((mkEngine 1).insert "b" 2).insert "a" 7) 1
     (Reachable.insert "a" 7 (Reachable.insert "b" 2 (Reachable.init 1 (by decide))))
     (by decide) (by decide)⟩

end Autocomplete
